import Mathlib

/-!
# Sphinx search backend (`imap/search_sphinx.c`)

A shallow embedding of the document-key codec, the text escaper, the query
builder, the search executor and the indexing receiver of
`imap/search_sphinx.c`, together with the properties proved about them.

Conventions of the embedding

* A byte buffer (`struct buf`, or the bytes a `char *` points at) is a
  `List Char`, one `Char` per byte.  Where the C code reads a `char *` as a
  C string (`strlen`, `%s`, `buf_appendcstr`, `strcmp`) the embedding reads
  `cstr s`, the bytes before the first NUL.
* `unsigned int` / `uint32_t` values are `Nat`s; arithmetic that can wrap is
  written with an explicit `% 2 ^ 32`.
* C functions that write through out-parameters and return a status return an
  `Option` or a pair here.
-/

namespace SearchSphinx

/-! ## Bytes and C strings -/

/-- The NUL byte that terminates a C string. -/
def NUL : Char := Char.ofNat 0

/-- The `.` separator of a document key. -/
def DOT : Char := Char.ofNat 46

/-- The backslash byte. -/
def BACKSLASH : Char := Char.ofNat 92

/-- The single-quote byte, the quote of SphinxQL statement literals. -/
def SQUOTE : Char := Char.ofNat 39

/-- The double-quote byte, the quote of extended-query-syntax literals. -/
def DQUOTE : Char := Char.ofNat 34

/-- The bytes of a C string: everything before the first NUL. -/
def cstr (s : List Char) : List Char := s.takeWhile (fun c => c != NUL)

/-- The libc `strcmp(a, b) == 0` test on two C strings. -/
def streq (a b : List Char) : Bool := cstr a == cstr b

/-! ## libc helpers used by the codec: `%u` and `strtoul(.., NULL, 10)` -/

/-- Decimal digits of `n`, least significant first (`fuel` bounds the number
of digits produced). -/
def decDigits : Nat → Nat → List Nat
  | 0, _ => []
  | f + 1, n => (n % 10) :: (if n < 10 then [] else decDigits f (n / 10))

/-- The ASCII character of a decimal digit. -/
def digitChar (d : Nat) : Char := Char.ofNat (48 + d)

/-- The text `printf("%u", n)` produces. -/
def fmt_u (n : Nat) : List Char :=
  ((decDigits (n + 1) n).reverse).map digitChar

/-- The libc `isspace` in the C locale: space, and `\t \n \v \f \r`. -/
def isspace (c : Char) : Bool := c.toNat == 32 || (9 ≤ c.toNat && c.toNat ≤ 13)

/-- Is `c` one of `0` .. `9`. -/
def isdigit (c : Char) : Bool := 48 ≤ c.toNat && c.toNat ≤ 57

/-- The digit loop of `strtoul`: consume decimal digits, stop at the first
other byte. -/
def strtoul_digits : Nat → List Char → Nat
  | acc, [] => acc
  | acc, c :: cs =>
    if isdigit c then strtoul_digits (acc * 10 + (c.toNat - 48)) cs else acc

/-- Largest `unsigned long` (LP64). -/
def ULONG_MAX : Nat := 2 ^ 64 - 1

/-- The libc `strtoul(s, NULL, 10)`: skip white space, take an optional sign,
read the digits, clamp to `ULONG_MAX` on overflow, negate in `unsigned long`
arithmetic after a minus sign. -/
def strtoul (s : List Char) : Nat :=
  let s1 := s.dropWhile isspace
  let neg := s1.head? == some (Char.ofNat 45)
  let s2 := if s1.head? == some (Char.ofNat 45) || s1.head? == some (Char.ofNat 43)
            then s1.tail else s1
  let v := strtoul_digits 0 s2
  if v > ULONG_MAX then ULONG_MAX
  else if neg then (2 ^ 64 - v) % 2 ^ 64 else v

/-- The assignment `*p = strtoul(..)` to an `unsigned int`: the value is
truncated to 32 bits. -/
def strtoul_u32 (s : List Char) : Nat := strtoul s % 2 ^ 32

/-! ## Document key codec -/

/-- `p = strrchr(s, c); if (!p) fail; *p++ = 0`: split `s` at the last
occurrence of `c`, returning the text before it and the text after it. -/
def strrchr_split (c : Char) : List Char → Option (List Char × List Char)
  | [] => none
  | x :: xs =>
    match strrchr_split c xs with
    | some (a, b) => some (x :: a, b)
    | none => if x = c then some ([], xs) else none

/-- The fields of `struct mailbox` the backend reads. -/
structure mailbox where
  name : List Char
  uidvalidity : Nat
  last_uid : Nat
  deriving DecidableEq, Repr

/-- `parse_cyrusid`: `none` is the C return value 0; `some (mboxname,
uidvalidity, uid)` is return value 1 with the three out-parameters. -/
def parse_cyrusid (cyrusid : List Char) : Option (List Char × Nat × Nat) :=
  match strrchr_split DOT (cstr cyrusid) with
  | none => none
  | some (s1, p1) =>
    let uid := strtoul_u32 p1
    match strrchr_split DOT s1 with
    | none => none
    | some (s2, p2) => some (s2, strtoul_u32 p2, uid)

/-- `make_cyrusid`: `buf_printf(&buf, "%s.%u.%u", name, uidvalidity, uid)`. -/
def make_cyrusid (mb : mailbox) (uid : Nat) : List Char :=
  cstr mb.name ++ [DOT] ++ fmt_u mb.uidvalidity ++ [DOT] ++ fmt_u uid

/-! ## Text escaper -/

/-- The loop body of `append_escaped_map`: put a backslash before a
backslash, a single quote or a double quote, then the byte itself. -/
def escape_loop (buf : List Char) : List Char → List Char
  | [] => buf
  | c :: rest =>
    let buf1 := if c = BACKSLASH ∨ c = SQUOTE ∨ c = DQUOTE then buf ++ [BACKSLASH] else buf
    escape_loop (buf1 ++ [c]) rest

/-- `append_escaped_map(buf, base, len, quote)`; `text` is the `len` bytes at
`base`. -/
def append_escaped_map (buf : List Char) (text : List Char) (quote : Char) : List Char :=
  escape_loop (buf ++ [quote]) text ++ [quote]

/-- `append_escaped(to, from, quote)`: the whole of the buffer `from`. -/
def append_escaped (dst src : List Char) (quote : Char) : List Char :=
  append_escaped_map dst src quote

/-- `append_escaped_cstr(to, str, quote)`: nothing for a NULL `str`, the
escaped C string otherwise. -/
def append_escaped_cstr (dst : List Char) (str : Option (List Char)) (quote : Char) :
    List Char :=
  match str with
  | none => dst
  | some s => append_escaped_map dst (cstr s) quote

/-! ## Query builder -/

/-- Modelled from the spec: the operator codes `SEARCH_OP_AND`, `SEARCH_OP_OR`
and `SEARCH_OP_NOT` are declared in `search_engines.h`, which is not among
the sources; the spec names the operators `AND | OR | NOT`. -/
inductive SearchOp where
  | AND
  | OR
  | NOT
  deriving DecidableEq, Repr

/-- `struct opstack`: index of the next child in the parent node, and the
parent node's operator. -/
structure opstack where
  idx : Nat
  op : SearchOp
  deriving DecidableEq, Repr

/-- The bits of `opts` the backend tests (`SEARCH_DRYRUN`, `SEARCH_UNINDEXED`,
`SEARCH_MULTIPLE`) and the level `SEARCH_VERBOSE(opts)`. -/
structure search_opts where
  dryrun : Bool
  unindexed : Bool
  multiple : Bool
  verbose : Nat
  deriving DecidableEq, Repr

/-- `struct sphinx_builder`.  `stack` holds the frames `stack[0 .. depth)`
with the top of the stack first, so `depth` is its length; the callback
`proc` and its `rock` are handed to `end_search` directly. -/
structure sphinx_builder where
  mailbox : mailbox
  opts : search_opts
  query : List Char
  stack : List opstack
  nmatches : Nat
  deriving DecidableEq, Repr

/-- `SEARCH_NUM_PARTS`, the length of `column_by_part`. -/
def SEARCH_NUM_PARTS : Nat := 8

/-- The table `column_by_part`. -/
def column_table : List (Option (List Char)) :=
  [ none,
    some "header_from".toList,
    some "header_to".toList,
    some "header_cc".toList,
    some "header_bcc".toList,
    some "header_subject".toList,
    some "headers".toList,
    some "body".toList ]

/-- `column_by_part[part]`; a `part` outside the table has no column. -/
def column_by_part (part : Nat) : Option (List Char) := column_table.getD part none

/-- Modelled from the spec: `SEARCH_PART_HEADERS` is declared in
`search_engines.h`, which is not among the sources; it is the part whose
column is `headers`. -/
def SEARCH_PART_HEADERS : Nat := 6

/-- `opstack_top`: the top frame, or `none` for NULL. -/
def opstack_top (bb : sphinx_builder) : Option opstack := bb.stack.head?

/-- The separator `begin_child` writes for a parent frame. -/
def child_separator (top : opstack) : List Char :=
  if top.idx = 0 then ['('] else if top.op = SearchOp.AND then [' '] else ['|']

/-- `begin_child`. -/
def begin_child (bb : sphinx_builder) : sphinx_builder :=
  match bb.stack with
  | [] => bb
  | top :: rest =>
    { bb with query := bb.query ++ child_separator top,
              stack := { top with idx := top.idx + 1 } :: rest }

/-- `begin_boolean`. -/
def begin_boolean (bb : sphinx_builder) (op : SearchOp) : sphinx_builder :=
  let bb1 := begin_child bb
  let bb2 := if op = SearchOp.NOT then { bb1 with query := bb1.query ++ ['!'] } else bb1
  { bb2 with stack := { idx := 0, op := op } :: bb2.stack }

/-- `end_boolean`; with an empty stack `opstack_top` is NULL and the C code
dereferences it, which is `none` here. -/
def end_boolean (bb : sphinx_builder) (_op : SearchOp) : Option sphinx_builder :=
  match bb.stack with
  | [] => none
  | top :: rest =>
    some { bb with query := if top.idx ≠ 0 then bb.query ++ [')'] else bb.query,
                   stack := rest }

/-- One turn of the `for` loop of `match` that lists the columns of the
restricted selector; the state is the query and the pending separator. -/
def odd_headers_step (st : List Char × List Char) (i : Nat) : List Char × List Char :=
  match column_by_part i with
  | some col => if i ≠ SEARCH_PART_HEADERS then (st.1 ++ st.2 ++ col, [',']) else st
  | none => st

/-- `match` (the name is a Lean keyword).  `excl` is the value of
`config_getswitch(IMAPOPT_SPHINX_TEXT_EXCLUDES_ODD_HEADERS)`; `str = none` is
a NULL `str`, for which `buf_init_ro_cstr` gives the empty buffer. -/
def match_part (excl : Bool) (bb : sphinx_builder) (part : Nat)
    (str : Option (List Char)) : sphinx_builder :=
  let bb1 := begin_child bb
  let n := if str.isSome then bb1.nmatches + 1 else bb1.nmatches
  let q :=
    match column_by_part part with
    | some col => bb1.query ++ ['@'] ++ col ++ [' ']
    | none =>
      if excl then
        ((List.range SEARCH_NUM_PARTS).foldl odd_headers_step
            (bb1.query ++ ['@'], ['('])).1 ++ [')', ' ']
      else bb1.query
  let f := match str with
    | none => []
    | some s => cstr s
  { bb1 with query := append_escaped q f DQUOTE, nmatches := n }

/-- `begin_search`: a zeroed builder for `mailbox` with the given options. -/
def begin_search (mb : mailbox) (opts : search_opts) : sphinx_builder :=
  { mailbox := mb, opts := opts, query := [], stack := [], nmatches := 0 }

/-! ### Boolean trees and the calls that feed them to a builder -/

/-- A search expression: a leaf matching `str` in `part`, or a boolean
group. -/
inductive QTree where
  | leaf (part : Nat) (str : Option (List Char))
  | group (op : SearchOp) (children : List QTree)

/-- One call on the `search_builder_t` interface. -/
inductive Call where
  | begin_boolean (op : SearchOp)
  | match_part (part : Nat) (str : Option (List Char))
  | end_boolean (op : SearchOp)
  deriving DecidableEq, Repr

mutual
/-- The well-bracketed call sequence that feeds a tree to a builder. -/
def QTree.calls : QTree → List Call
  | .leaf part str => [Call.match_part part str]
  | .group op cs => Call.begin_boolean op :: (QTree.callsList cs ++ [Call.end_boolean op])
/-- The call sequence of a list of sibling trees. -/
def QTree.callsList : List QTree → List Call
  | [] => []
  | t :: ts => QTree.calls t ++ QTree.callsList ts
end

/-- Apply one call to a builder. -/
def Call.apply (excl : Bool) (bb : sphinx_builder) : Call → Option sphinx_builder
  | .begin_boolean op => some (SearchSphinx.begin_boolean bb op)
  | .match_part part str => some (SearchSphinx.match_part excl bb part str)
  | .end_boolean op => SearchSphinx.end_boolean bb op

/-- Apply a sequence of calls, in order. -/
def run (excl : Bool) : List Call → sphinx_builder → Option sphinx_builder
  | [], bb => some bb
  | c :: cs, bb =>
    match c.apply excl bb with
    | none => none
    | some bb1 => run excl cs bb1

/-! ## Connections -/

/-- Modelled from the spec: the error codes `IMAP_INTERNAL`, `IMAP_IOERROR` and
`IMAP_TRIVIAL_SEARCH` are declared in `imap_err.h`, which is not among the
sources; they are taken as parameters. -/
structure imap_err where
  IMAP_INTERNAL : Int
  IMAP_IOERROR : Int
  IMAP_TRIVIAL_SEARCH : Int
  deriving DecidableEq, Repr

/-- What the backend does to the outside world, in the order it does it. -/
inductive Event where
  | getsock (mboxname : List Char)
  | connect (socket_path : List Char)
  | close
  | query (stmt : List Char)
  | commit
  | truncate_warning (mboxname : List Char) (uid : Nat)
  deriving DecidableEq, Repr

/-- `struct connection`.  An open `MYSQL *` handle is identified by the socket
path it was connected to; `none` is NULL. -/
structure connection where
  mysql : Option (List Char)
  socket_path : Option (List Char)
  deriving DecidableEq, Repr

/-- `CONNECTION_INITIALIZER`. -/
def CONNECTION_INITIALIZER : connection := { mysql := none, socket_path := none }

/-- `get_connection(mboxname, conn)`.  `gs` is what `sphinxmgr_getsock`
answers (its return value and the socket path), `connect_ok` whether
`mysql_real_connect` succeeds.  Returns the status, the connection and the
events. -/
def get_connection (E : imap_err) (gs : Int × List Char) (connect_ok : Bool)
    (mboxname : List Char) (conn : connection) : Int × connection × List Event :=
  if gs.1 ≠ 0 then (gs.1, conn, [Event.getsock mboxname])
  else
    let same := match conn.socket_path with
      | some old => streq gs.2 old
      | none => false
    if same then (0, conn, [Event.getsock mboxname])
    else
      let closing := if conn.mysql.isSome then [Event.close] else []
      if connect_ok then
        (0, { mysql := some gs.2, socket_path := some gs.2 },
          [Event.getsock mboxname] ++ closing ++ [Event.connect gs.2])
      else
        (E.IMAP_IOERROR, { mysql := none, socket_path := none },
          [Event.getsock mboxname] ++ closing ++ [Event.connect gs.2])

/-- `close_connection(conn)`. -/
def close_connection (conn : connection) : connection × List Event :=
  ({ mysql := none, socket_path := none }, if conn.mysql.isSome then [Event.close] else [])

/-- `doquery`: the statement is sent; the status is 0 when the daemon accepts
it (`ok`) and `IMAP_IOERROR` otherwise. -/
def doquery (E : imap_err) (ok : Bool) (query : List Char) : Int × List Event :=
  (if ok then 0 else E.IMAP_IOERROR, [Event.query query])

/-! ## Search executor -/

/-- The arguments of one call of the hit callback: mailbox name, uidvalidity,
uid. -/
abbrev Hit := List Char × Nat × Nat

/-- The hit callback `proc` with its `rock`: its result may depend on the
hits it was given before. -/
abbrev HitProc := List Hit → Hit → Int

/-- What the outside world answers during one `end_search`: the answer of
`sphinxmgr_getsock`, whether the connect succeeds, the rows `(mboxname, uid)`
of the `latest` query (`none` when the statement fails) and the `cyrusid`
column of the rows of the main query (`none` when the statement fails). -/
structure search_world where
  getsock : Int × List Char
  connect_ok : Bool
  latest_rows : Option (List (List Char × List Char))
  match_rows : Option (List (List Char))

/-- The row loop of `read_latest_search`: the uid of the first row whose
mailbox name is the mailbox's, else `latest` unchanged. -/
def latest_row_loop (name : List Char) (latest : Nat) : List (List Char × List Char) → Nat
  | [] => latest
  | row :: rows =>
    if streq name row.1 then strtoul_u32 row.2 else latest_row_loop name latest rows

/-- `read_latest_search(bb, conn, &latest)`: the status and the new value of
`latest`. -/
def read_latest_search (E : imap_err) (ans : Option (List (List Char × List Char)))
    (bb : sphinx_builder) (latest : Nat) : Int × Nat :=
  match ans with
  | none => (E.IMAP_IOERROR, latest)
  | some rows => (0, latest_row_loop bb.mailbox.name latest rows)

/-- The statement `end_search` sends; `max_matches` is the text of the macro
`SPHINX_MAX_MATCHES`. -/
def search_statement (max_matches : List Char) (bb : sphinx_builder) : List Char :=
  append_escaped "SELECT cyrusid FROM rt WHERE MATCH(".toList bb.query SQUOTE
    ++ ")".toList ++ " ORDER BY cyrusid DESC ".toList ++ " LIMIT ".toList ++ max_matches
    ++ " OPTION max_matches=".toList ++ max_matches

/-- The `while ((row = mysql_fetch_row(res)))` loop of `end_search` over the
`cyrusid` column of the rows; `hits` are the callback invocations so far. -/
def row_loop (proc : HitProc) (bb : sphinx_builder) :
    List (List Char) → List Hit → Int × List Hit
  | [], hits => (0, hits)
  | row :: rows, hits =>
    match parse_cyrusid row with
    | none => row_loop proc bb rows hits
    | some (mboxname, uidvalidity, uid) =>
      if !bb.opts.multiple &&
          (!streq mboxname bb.mailbox.name || uidvalidity != bb.mailbox.uidvalidity) then
        row_loop proc bb rows hits
      else
        let r := proc hits (mboxname, uidvalidity, uid)
        if r ≠ 0 then (r, hits ++ [(mboxname, uidvalidity, uid)])
        else row_loop proc bb rows (hits ++ [(mboxname, uidvalidity, uid)])

/-- The loop `for (uid = latest+1 ; uid <= last_uid ; uid++)` of `end_search`
from the current `uid`; `fuel` bounds the number of turns, `none` is a loop
still running when the fuel is used up. -/
def unindexed_loop (proc : HitProc) (mb : mailbox) :
    Nat → Nat → List Hit → Option (Int × List Hit)
  | 0, _, _ => none
  | fuel + 1, uid, hits =>
    if uid ≤ mb.last_uid then
      let r := proc hits (mb.name, mb.uidvalidity, uid)
      if r ≠ 0 then some (r, hits ++ [(mb.name, mb.uidvalidity, uid)])
      else unindexed_loop proc mb fuel ((uid + 1) % 2 ^ 32)
            (hits ++ [(mb.name, mb.uidvalidity, uid)])
    else some (0, hits)

/-- `end_search`: the status and the callback invocations, in order. -/
def end_search (E : imap_err) (W : search_world) (proc : HitProc) (fuel : Nat)
    (bb : sphinx_builder) : Option (Int × List Hit) :=
  if bb.opts.dryrun then some (0, [])
  else if bb.nmatches = 0 then some (E.IMAP_TRIVIAL_SEARCH, [])
  else
    let c := get_connection E W.getsock W.connect_ok bb.mailbox.name CONNECTION_INITIALIZER
    if c.1 ≠ 0 then some (c.1, [])
    else
      let l := if bb.opts.unindexed then read_latest_search E W.latest_rows bb 0 else (0, 0)
      if l.1 ≠ 0 then some (l.1, [])
      else
        match W.match_rows with
        | none => some (E.IMAP_IOERROR, [])
        | some rows =>
          let rl := row_loop proc bb rows []
          if rl.1 ≠ 0 then some rl
          else if bb.opts.unindexed then
            unindexed_loop proc bb.mailbox fuel ((l.2 + 1) % 2 ^ 32) rl.2
          else some (0, rl.2)

/-! ## Indexing receiver -/

/-- `struct sphinx_receiver` (the fields of the indexing receiver).  `parts`
holds the `SEARCH_NUM_PARTS` buffers; `mailbox = none` is a NULL pointer. -/
structure sphinx_receiver where
  verbose : Nat
  conn : connection
  mailbox : Option mailbox
  uid : Nat
  part : Nat
  parts_total : Nat
  truncate_warning : Nat
  parts : List (List Char)
  query : List Char
  uncommitted : Nat
  latest : Nat
  latest_id : Nat
  latest_lastid : Nat
  lastid : Nat
  deriving DecidableEq, Repr

/-- `MAX_UNCOMMITTED`. -/
def MAX_UNCOMMITTED : Nat := 20

/-- `MAX_PARTS_SIZE`. -/
def MAX_PARTS_SIZE : Nat := 4 * 1024 * 1024

/-- `begin_update(verbose)`: a zeroed receiver. -/
def begin_update (verbose : Nat) : sphinx_receiver :=
  { verbose := verbose, conn := CONNECTION_INITIALIZER, mailbox := none, uid := 0, part := 0,
    parts_total := 0, truncate_warning := 0,
    parts := List.replicate SEARCH_NUM_PARTS [], query := [], uncommitted := 0,
    latest := 0, latest_id := 0, latest_lastid := 0, lastid := 0 }

/-- The row loop of `read_latest`: `(latest_id, latest)` of the first row
`(id, mboxname, uid)` whose mailbox name is the mailbox's, else `(0, 0)`. -/
def read_latest_loop (name : List Char) :
    List (List Char × List Char × List Char) → Nat × Nat
  | [] => (0, 0)
  | row :: rows =>
    if streq name row.2.1 then (strtoul_u32 row.1, strtoul_u32 row.2.2)
    else read_latest_loop name rows

/-- `read_latest(tr)`.  `rows` answers the first statement (`none`: it
fails), `maxid` the second (`none`: it fails; `some none`: no result or no
row; `some (some s)`: the first column of the first row).  `none` as a whole
is the dereference of a NULL `tr->mailbox`. -/
def read_latest (E : imap_err) (rows : Option (List (List Char × List Char × List Char)))
    (maxid : Option (Option (List Char))) (tr : sphinx_receiver) :
    Option (Int × sphinx_receiver × List Event) :=
  match tr.mailbox with
  | none => none
  | some mb =>
    let tr0 := { tr with latest := 0, latest_id := 0, latest_lastid := 0 }
    let q1 := "SELECT id,mboxname,uid FROM latest WHERE uidvalidity=".toList
                ++ fmt_u mb.uidvalidity ++ " LIMIT 10000".toList
    match rows with
    | none => some (E.IMAP_IOERROR, tr0, [Event.query q1])
    | some rs =>
      let found := read_latest_loop mb.name rs
      let tr1 := { tr0 with latest_id := found.1, latest := found.2 }
      let q2 := "SELECT max(id) FROM latest ORDER BY id DESC LIMIT 1;".toList
      match maxid with
      | none => some (E.IMAP_IOERROR, tr1, [Event.query q1, Event.query q2])
      | some none => some (0, tr1, [Event.query q1, Event.query q2])
      | some (some v) =>
        some (0, { tr1 with latest_lastid := strtoul_u32 v }, [Event.query q1, Event.query q2])

/-- `write_latest(tr)`; `ok` is whether the daemon accepts the statement.  The
function returns 0 on both paths.  `none` is the dereference of a NULL
`tr->mailbox`. -/
def write_latest (_E : imap_err) (ok : Bool) (tr : sphinx_receiver) :
    Option (Int × sphinx_receiver × List Event) :=
  let id := tr.latest_id
  if id ≠ 0 then
    let q := "UPDATE latest SET uid=".toList ++ fmt_u tr.latest
              ++ " WHERE id=".toList ++ fmt_u id
    some (0, if ok then { tr with latest_id := id } else tr, [Event.query q])
  else
    match tr.mailbox with
    | none => none
    | some mb =>
      let id1 := (tr.latest_lastid + 1) % 2 ^ 32
      let q := append_escaped_cstr
                ("INSERT INTO latest (id,mboxname,uidvalidity,uid) VALUES (".toList
                  ++ fmt_u id1 ++ ",".toList) (some mb.name) SQUOTE
                ++ ",".toList ++ fmt_u mb.uidvalidity ++ ",".toList ++ fmt_u tr.latest
                ++ ")".toList
      some (0, if ok then { tr with latest_id := id1 } else tr, [Event.query q])

/-- `read_lastid(tr)`; `maxid` answers the statement as in `read_latest`. -/
def read_lastid (E : imap_err) (maxid : Option (Option (List Char))) (tr : sphinx_receiver) :
    Int × sphinx_receiver × List Event :=
  let tr0 := { tr with lastid := 0 }
  let q := "SELECT max(id) FROM rt ORDER BY id DESC LIMIT 1;".toList
  match maxid with
  | none => (E.IMAP_IOERROR, tr0, [Event.query q])
  | some none => (0, tr0, [Event.query q])
  | some (some v) => (0, { tr0 with lastid := strtoul_u32 v }, [Event.query q])

/-- `flush(tr, force)`; `upd_ok` is whether the daemon accepts the statement
of `write_latest`, `commit_ok` whether `mysql_commit` succeeds. -/
def flush (E : imap_err) (upd_ok commit_ok : Bool) (force : Bool) (tr : sphinx_receiver) :
    Option (Int × sphinx_receiver × List Event) :=
  if !force && tr.uncommitted < MAX_UNCOMMITTED then some (0, tr, [])
  else
    let w := if tr.uncommitted ≠ 0 then write_latest E upd_ok tr else some (0, tr, [])
    match w with
    | none => none
    | some (r, tr1, ev) =>
      if r ≠ 0 then some (r, tr1, ev)
      else if commit_ok then some (0, { tr1 with uncommitted := 0 }, ev ++ [Event.commit])
      else
        match tr1.mailbox with
        | none => none
        | some _ => some (E.IMAP_IOERROR, tr1, ev ++ [Event.commit])

/-- `begin_message(rx, uid)`. -/
def begin_message (tr : sphinx_receiver) (uid : Nat) : sphinx_receiver :=
  { tr with uid := uid, parts := List.replicate SEARCH_NUM_PARTS [],
            parts_total := 0, truncate_warning := 0 }

/-- `begin_part(rx, part)`. -/
def begin_part (tr : sphinx_receiver) (part : Nat) : sphinx_receiver :=
  { tr with part := part }

/-- `append_text(rx, text)`; `text->len` is read into an `unsigned`.  `none`
is the dereference of a NULL `tr->mailbox` for the truncation diagnostic. -/
def append_text (tr : sphinx_receiver) (text : List Char) :
    Option (sphinx_receiver × List Event) :=
  if tr.part ≠ 0 then
    let len0 := text.length % 2 ^ 32
    let over : Bool := (tr.parts_total + len0) % 2 ^ 32 > MAX_PARTS_SIZE
    let warn : Bool := over && tr.truncate_warning == 0
    let tr1 := if over then { tr with truncate_warning := tr.truncate_warning + 1 } else tr
    let len := if over then (MAX_PARTS_SIZE + 2 ^ 32 - tr.parts_total) % 2 ^ 32 else len0
    let tr2 := if len ≠ 0 then
        { tr1 with parts_total := (tr1.parts_total + len) % 2 ^ 32,
                   parts := tr1.parts.modify (fun b => b ++ text.take len) tr1.part }
      else tr1
    if warn then
      match tr.mailbox with
      | none => none
      | some mb => some (tr2, [Event.truncate_warning mb.name tr.uid])
    else some (tr2, [])
  else some (tr, [])

/-- `end_part(rx, part)`. -/
def end_part (tr : sphinx_receiver) (_part : Nat) : sphinx_receiver :=
  { tr with part := 0 }

/-- The first loop of `end_message`: `,column` for every part with text. -/
def insert_columns (parts : List (List Char)) : List Char :=
  (List.range SEARCH_NUM_PARTS).foldl
    (fun q i => if (parts.getD i []).length ≠ 0
                then q ++ [','] ++ (column_by_part i).getD [] else q) []

/-- The second loop of `end_message`: `,'text'` for every part with text,
appended to `q`. -/
def insert_values (q : List Char) (parts : List (List Char)) : List Char :=
  (List.range SEARCH_NUM_PARTS).foldl
    (fun q i => if (parts.getD i []).length ≠ 0
                then append_escaped (q ++ [',']) (parts.getD i []) SQUOTE else q) q

/-- The statement `end_message` builds for document id `id`. -/
def insert_statement (mb : mailbox) (id uid : Nat) (parts : List (List Char)) : List Char :=
  insert_values
    (append_escaped
      ("INSERT INTO rt (id,cyrusid".toList ++ insert_columns parts ++ ") VALUES (".toList
        ++ fmt_u id ++ ",".toList)
      (make_cyrusid mb uid) SQUOTE)
    parts ++ ")".toList

/-- `end_message(rx)`; `ins_ok`, `upd_ok` and `commit_ok` are whether the
daemon accepts the INSERT, the `latest` statement and the commit.  `none` is
the dereference of a NULL `tr->mailbox`. -/
def end_message (E : imap_err) (ins_ok upd_ok commit_ok : Bool) (tr : sphinx_receiver) :
    Option (Int × sphinx_receiver × List Event) :=
  if tr.conn.mysql.isNone then some (E.IMAP_INTERNAL, tr, [])
  else
    match tr.mailbox with
    | none => none
    | some mb =>
      let id := (tr.lastid + 1) % 2 ^ 32
      let q := insert_statement mb id tr.uid tr.parts
      let tr1 := { tr with query := q, lastid := id }
      if !ins_ok then some (0, { tr1 with uid := 0 }, [Event.query q])
      else
        let tr2 := { tr1 with uncommitted := (tr1.uncommitted + 1) % 2 ^ 32, latest := tr1.uid }
        match flush E upd_ok commit_ok false tr2 with
        | none => none
        | some (_, tr3, ev) => some (0, { tr3 with uid := 0 }, Event.query q :: ev)

/-- `begin_mailbox(rx, mailbox, incremental)`; `gs` and `connect_ok` answer
`get_connection`, `lastid` answers `read_lastid`, `rows` and `maxid` answer
`read_latest`. -/
def begin_mailbox (E : imap_err) (gs : Int × List Char) (connect_ok : Bool)
    (lastid : Option (Option (List Char)))
    (rows : Option (List (List Char × List Char × List Char)))
    (maxid : Option (Option (List Char)))
    (tr : sphinx_receiver) (mb : mailbox) : Option (Int × sphinx_receiver × List Event) :=
  let c := get_connection E gs connect_ok mb.name tr.conn
  if c.1 ≠ 0 then some (c.1, { tr with conn := c.2.1 }, c.2.2)
  else
    let tr1 := { tr with conn := c.2.1, mailbox := some mb }
    let l := read_lastid E lastid tr1
    if l.1 ≠ 0 then some (l.1, l.2.1, c.2.2 ++ l.2.2)
    else
      match read_latest E rows maxid l.2.1 with
      | none => none
      | some (r, tr2, ev) => some (r, tr2, c.2.2 ++ l.2.2 ++ ev)

/-- `first_unindexed_uid(rx)`: `tr->latest + 1` in `uint32_t`. -/
def first_unindexed_uid (tr : sphinx_receiver) : Nat := (tr.latest + 1) % 2 ^ 32

/-- `is_indexed(rx, uid)`. -/
def is_indexed (tr : sphinx_receiver) (uid : Nat) : Bool := uid ≤ tr.latest

/-- `end_mailbox(rx, mailbox)`; `upd_ok` and `commit_ok` answer `flush`. -/
def end_mailbox (E : imap_err) (upd_ok commit_ok : Bool) (tr : sphinx_receiver) :
    Option (Int × sphinx_receiver × List Event) :=
  if tr.conn.mysql.isSome then
    match flush E upd_ok commit_ok true tr with
    | none => none
    | some (r, tr1, ev) =>
      let c := close_connection tr1.conn
      some (r, { tr1 with conn := c.1, mailbox := none }, ev ++ c.2)
  else some (0, { tr with mailbox := none }, [])

/-! ### Sessions of the indexing receiver -/

/-- One call on the `search_text_receiver_t` interface of the indexing
receiver, with the answers the outside world gives during the call. -/
inductive RxCall where
  | begin_mailbox (gs : Int × List Char) (connect_ok : Bool)
      (lastid : Option (Option (List Char)))
      (rows : Option (List (List Char × List Char × List Char)))
      (maxid : Option (Option (List Char))) (mb : mailbox)
  | begin_message (uid : Nat)
  | begin_part (part : Nat)
  | append_text (text : List Char)
  | end_part (part : Nat)
  | end_message (ins_ok upd_ok commit_ok : Bool)
  | end_mailbox (upd_ok commit_ok : Bool)

/-- The arguments of a call fit their C types: a `uint32_t` uid, uidvalidity
and last uid are below `2 ^ 32`. -/
def RxCall.fits : RxCall → Bool
  | .begin_mailbox _ _ _ _ _ mb => decide (mb.uidvalidity < 2 ^ 32 ∧ mb.last_uid < 2 ^ 32)
  | .begin_message uid => decide (uid < 2 ^ 32)
  | _ => true

/-- Apply one call: the receiver after it and the events it caused, or `none`
when the call dereferences a NULL pointer. -/
def RxCall.apply (E : imap_err) (tr : sphinx_receiver) :
    RxCall → Option (sphinx_receiver × List Event)
  | .begin_mailbox gs connect_ok lastid rows maxid mb =>
    (SearchSphinx.begin_mailbox E gs connect_ok lastid rows maxid tr mb).map (fun x => x.2)
  | .begin_message uid => some (SearchSphinx.begin_message tr uid, [])
  | .begin_part part => some (SearchSphinx.begin_part tr part, [])
  | .append_text text => SearchSphinx.append_text tr text
  | .end_part part => some (SearchSphinx.end_part tr part, [])
  | .end_message ins_ok upd_ok commit_ok =>
    (SearchSphinx.end_message E ins_ok upd_ok commit_ok tr).map (fun x => x.2)
  | .end_mailbox upd_ok commit_ok =>
    (SearchSphinx.end_mailbox E upd_ok commit_ok tr).map (fun x => x.2)

/-- Run a sequence of calls from `tr`; the run stops at a call that
dereferences a NULL pointer.  Returns the receiver reached and all events. -/
def rx_run (E : imap_err) : List RxCall → sphinx_receiver → sphinx_receiver × List Event
  | [], tr => (tr, [])
  | c :: cs, tr =>
    match c.apply E tr with
    | none => (tr, [])
    | some (tr1, ev) =>
      let rest := rx_run E cs tr1
      (rest.1, ev ++ rest.2)

/-! ## Specification-side definitions -/

/-- The escaped form of one byte as the specification words it: a single
backslash before a backslash, a single quote or a double quote, and nothing
before any other byte. -/
def escaped_byte (c : Char) : List Char :=
  if c = BACKSLASH ∨ c = SQUOTE ∨ c = DQUOTE then [BACKSLASH, c] else [c]

/-- The escaped form of a text: the escaped forms of its bytes, in order. -/
def escaped_text : List Char → List Char
  | [] => []
  | c :: cs => escaped_byte c ++ escaped_text cs

/-- A reader of quoted literals, in the middle of a literal opened by `q`;
`escaped` tells that the previous byte was an unescaped backslash, which
consumes the next byte.  It stops at the first unescaped `q` and returns the
un-escaped interior and the bytes that follow the closing quote; `none` when
the literal is not closed. -/
def scan_literal_from (q : Char) : Bool → List Char → Option (List Char × List Char)
  | _, [] => none
  | true, c :: cs => (scan_literal_from q false cs).map (fun r => (c :: r.1, r.2))
  | false, c :: cs =>
    if c = BACKSLASH then scan_literal_from q true cs
    else if c = q then some ([], cs)
    else (scan_literal_from q false cs).map (fun r => (c :: r.1, r.2))

/-- Scan the bytes that follow an opening quote `q`. -/
def scan_literal (q : Char) (s : List Char) : Option (List Char × List Char) :=
  scan_literal_from q false s

/-- The separator `begin_child` writes for the builder's current parent
group: nothing at the top level. -/
def parent_separator (bb : sphinx_builder) : List Char :=
  match bb.stack with
  | [] => []
  | top :: _ => child_separator top

/-- The negation marker of a group: `!` for NOT, nothing for AND and OR. -/
def negation_marker (op : SearchOp) : List Char :=
  if op = SearchOp.NOT then ['!'] else []

/-- The field selector `match` writes for `part`. -/
def field_selector (excl : Bool) (part : Nat) : List Char :=
  match column_by_part part with
  | some col => ['@'] ++ col ++ [' ']
  | none =>
    if excl then "@(header_from,header_to,header_cc,header_bcc,header_subject,body) ".toList
    else []

/-- The bytes of the text of a `match` call: none for a NULL `str`. -/
def match_text (str : Option (List Char)) : List Char :=
  match str with
  | none => []
  | some s => cstr s

/-- The text one `match` call contributes after the child separator. -/
def leaf_text (excl : Bool) (part : Nat) (str : Option (List Char)) : List Char :=
  field_selector excl part ++ ([DQUOTE] ++ escaped_text (match_text str) ++ [DQUOTE])

mutual
/-- The text a tree contributes to the query after its child separator. -/
def tree_text (excl : Bool) : QTree → List Char
  | .leaf part str => leaf_text excl part str
  | .group op cs =>
    negation_marker op ++ children_text excl op 0 cs ++ (if cs.isEmpty then [] else [')'])
/-- The text of the children of a group with operator `op`, the first of
them being child number `i`, each after its separator. -/
def children_text (excl : Bool) (op : SearchOp) : Nat → List QTree → List Char
  | _, [] => []
  | i, t :: ts =>
    child_separator { idx := i, op := op } ++ tree_text excl t
      ++ children_text excl op (i + 1) ts
end

mutual
/-- Number of leaves of a tree whose text is not NULL. -/
def real_leaves : QTree → Nat
  | .leaf _ str => if str.isSome then 1 else 0
  | .group _ cs => real_leaves_list cs
/-- Number of leaves with text in a list of trees. -/
def real_leaves_list : List QTree → Nat
  | [] => 0
  | t :: ts => real_leaves t + real_leaves_list ts
end

mutual
/-- The texts of the `match` calls of a tree, as `match` reads them. -/
def leaf_texts : QTree → List (List Char)
  | .leaf _ str => [match_text str]
  | .group _ cs => leaf_texts_list cs
/-- The texts of the `match` calls of a list of trees. -/
def leaf_texts_list : List QTree → List (List Char)
  | [] => []
  | t :: ts => leaf_texts t ++ leaf_texts_list ts
end

/-- A builder with `text` appended to its query and `n` more matches. -/
def emit (bb : sphinx_builder) (text : List Char) (n : Nat) : sphinx_builder :=
  { bb with query := bb.query ++ text, nmatches := bb.nmatches + n }

/-- Where a parenthesis scan stands: outside any literal, inside a
double-quoted literal, or just after a backslash inside a literal. -/
inductive ScanMode where
  | plain
  | literal
  | escaped
  deriving DecidableEq, Repr

/-- One step of the parenthesis scan.  With `aware` the scan follows the
double-quoted literals of the query language and counts only parentheses
outside them; without it every parenthesis counts.  The state is the mode and
the number of parentheses currently open; `none` is a `)` that closes
nothing. -/
def paren_step (aware : Bool) (st : ScanMode × Nat) (c : Char) : Option (ScanMode × Nat) :=
  match st.1 with
  | .plain =>
    if aware && c == DQUOTE then some (ScanMode.literal, st.2)
    else if c = '(' then some (ScanMode.plain, st.2 + 1)
    else if c = ')' then (if st.2 = 0 then none else some (ScanMode.plain, st.2 - 1))
    else some (ScanMode.plain, st.2)
  | .literal =>
    if c = BACKSLASH then some (ScanMode.escaped, st.2)
    else if c = DQUOTE then some (ScanMode.plain, st.2)
    else some (ScanMode.literal, st.2)
  | .escaped => some (ScanMode.literal, st.2)

/-- The parenthesis scan of a string from state `st`. -/
def paren_scan (aware : Bool) : ScanMode × Nat → List Char → Option (ScanMode × Nat)
  | st, [] => some st
  | st, c :: cs =>
    match paren_step aware st c with
    | none => none
    | some st1 => paren_scan aware st1 cs

/-- Every parenthesis counted: no prefix of `s` has more `)` than `(`, and
`s` has as many `(` as `)`. -/
def balanced (s : List Char) : Prop :=
  paren_scan false (ScanMode.plain, 0) s = some (ScanMode.plain, 0)

/-- The parentheses outside the double-quoted literals of `s` are balanced,
and `s` does not end inside a literal. -/
def balanced_outside_literals (s : List Char) : Prop :=
  paren_scan true (ScanMode.plain, 0) s = some (ScanMode.plain, 0)

instance (s : List Char) : Decidable (balanced s) := by
  unfold balanced; infer_instance

instance (s : List Char) : Decidable (balanced_outside_literals s) := by
  unfold balanced_outside_literals; infer_instance

/-- The uid held by the `latest` row of mailbox `name` among `rows`: the uid
column of the first row with that mailbox name, 0 when no row has it. -/
def latest_of (name : List Char) (rows : List (List Char × List Char)) : Nat :=
  match rows.find? (fun row => streq name row.1) with
  | some row => strtoul_u32 row.2
  | none => 0

/-- The rows the specification keeps: the decoded keys of the rows that
parse and that, unless several mailboxes are searched, carry the name and the
uidvalidity of the target mailbox; in row order. -/
def kept_rows (bb : sphinx_builder) (keys : List (List Char)) : List Hit :=
  (keys.filterMap parse_cyrusid).filter
    (fun h => bb.opts.multiple ||
      (streq h.1 bb.mailbox.name && h.2.1 == bb.mailbox.uidvalidity))

/-- The hits the callback is given, in order after the hits `done`, when it
is fed `kept` until it returns non-zero: either every call returned 0 and all
of `kept` was given, or the call on some `h` of `kept` returned `r ≠ 0`, every
call before it returned 0, and nothing after `h` was given. -/
def stops_at (proc : HitProc) (done kept : List Hit) (r : Int) (hits : List Hit) : Prop :=
  (r = 0 ∧ hits = done ++ kept ∧
    ∀ pre h rest, kept = pre ++ h :: rest → proc (done ++ pre) h = 0) ∨
  (r ≠ 0 ∧ ∃ pre h rest, kept = pre ++ h :: rest ∧ hits = done ++ pre ++ [h] ∧
    proc (done ++ pre) h = r ∧
    ∀ p1 h1 r1, pre = p1 ++ h1 :: r1 → proc (done ++ p1) h1 = 0)

/-- The hits for the uids `a .. m` of mailbox `mb`, ascending; none when
`m < a`. -/
def unindexed_hits (mb : mailbox) (a m : Nat) : List Hit :=
  (List.range' a (m + 1 - a)).map (fun u => (mb.name, mb.uidvalidity, u))

/-- The builder after the children of a group have been fed: the frame `top`
has counted them. -/
def after_children (bb : sphinx_builder) (top : opstack) (stk : List opstack)
    (text : List Char) (k n : Nat) : sphinx_builder :=
  { bb with query := bb.query ++ text, stack := { top with idx := top.idx + k } :: stk,
            nmatches := bb.nmatches + n }

/-- A text that leaves the scan where it was, at every depth outside
literals. -/
def Neutral (aware : Bool) (s : List Char) : Prop :=
  ∀ d, paren_scan aware (ScanMode.plain, d) s = some (ScanMode.plain, d)

/-- The `uint32_t` fields `latest` and `uid` hold 32-bit values. -/
def u32_fields (tr : sphinx_receiver) : Prop := tr.latest < 2 ^ 32 ∧ tr.uid < 2 ^ 32

/-! ### The rendering of a tree in the words of the specification -/

/-- The separator between the children of a group as the specification gives
it: a space for AND, `|` for OR; none is given for NOT, whose group has one
child. -/
def render_sep : SearchOp → List Char
  | .AND => [' ']
  | .OR => ['|']
  | .NOT => []

mutual
/-- The recursive rendering of a tree in the words of the specification: a
leaf is the field selector followed by the double-quoted escaped text; a
group is `!` when the operator is NOT, followed by nothing when it has no
child and otherwise by `(`, the renderings of the children with the separator
between them, and `)`. -/
def render (excl : Bool) : QTree → List Char
  | .leaf part str =>
    field_selector excl part ++ ([DQUOTE] ++ escaped_text (match_text str) ++ [DQUOTE])
  | .group op [] => negation_marker op
  | .group op (c :: cs) =>
    negation_marker op ++ (['('] ++ render excl c ++ render_rest excl op cs ++ [')'])
/-- The renderings of the children after the first, each after the
separator. -/
def render_rest (excl : Bool) (op : SearchOp) : List QTree → List Char
  | [] => []
  | c :: cs => render_sep op ++ render excl c ++ render_rest excl op cs
end

mutual
/-- Every NOT group of the tree has at most one child. -/
def unary_not : QTree → Bool
  | .leaf _ _ => true
  | .group op cs => (decide (op ≠ SearchOp.NOT) || decide (cs.length ≤ 1)) && unary_not_list cs
/-- Every NOT group in the trees of the list has at most one child. -/
def unary_not_list : List QTree → Bool
  | [] => true
  | t :: ts => unary_not t && unary_not_list ts
end

/-- The rendering of the children of a group from child number `i` on: the
first child (`i = 0`) comes after `(`, every other child after the
separator. -/
def render_from (excl : Bool) (op : SearchOp) (i : Nat) (cs : List QTree) : List Char :=
  if i = 0 then
    match cs with
    | [] => []
    | c :: rest => ['('] ++ render excl c ++ render_rest excl op rest
  else render_rest excl op cs

/-- The text of a selector that lists the columns `cols`. -/
def selector_of (cols : List (List Char)) : List Char :=
  ['@', '('] ++ [','].intercalate cols ++ [')', ' ']

/-- The columns of the restricted selector: every column but `headers`. -/
def restricted_columns : List (List Char) :=
  ["header_from".toList, "header_to".toList, "header_cc".toList, "header_bcc".toList,
   "header_subject".toList, "body".toList]

/-- The double-quoted literal of a `match` call. -/
def match_literal (str : Option (List Char)) : List Char :=
  [DQUOTE] ++ escaped_text (match_text str) ++ [DQUOTE]

/-- The endpoint `gs` resolved by the directory service equals the endpoint
cached in `conn`: there is a cached socket path and `strcmp` finds it equal. -/
def same_endpoint (path : List Char) (conn : connection) : Bool :=
  match conn.socket_path with
  | some old => streq path old
  | none => false

/-- Number of `connect` events in a trace. -/
def connects (ev : List Event) : Nat :=
  (ev.filter (fun e => match e with
    | Event.connect _ => true
    | _ => false)).length

/-- Number of `getsock` events (consultations of the directory service) in a
trace. -/
def consultations (ev : List Event) : Nat :=
  (ev.filter (fun e => match e with
    | Event.getsock _ => true
    | _ => false)).length

/-! ### Sessions of messages -/

/-- The calls that feed text: `begin_part`, `append_text`, `end_part`. -/
def RxCall.is_part_call : RxCall → Bool
  | .begin_part _ => true
  | .append_text _ => true
  | .end_part _ => true
  | _ => false

/-- One message as the caller feeds it: `begin_message(uid)`, calls that feed
its text, `end_message`; with the answers of the daemon to the INSERT, the
`latest` statement and the commit. -/
structure RxMessage where
  uid : Nat
  parts : List RxCall
  ins_ok : Bool
  upd_ok : Bool
  commit_ok : Bool

/-- The text of a message is fed by part calls only. -/
def RxMessage.wf (m : RxMessage) : Bool := m.parts.all RxCall.is_part_call

/-- The daemon accepts every statement and the commit of the message. -/
def RxMessage.all_ok (m : RxMessage) : Bool := m.ins_ok && m.upd_ok && m.commit_ok

/-- The calls of one message. -/
def RxMessage.calls (m : RxMessage) : List RxCall :=
  RxCall.begin_message m.uid :: (m.parts ++ [RxCall.end_message m.ins_ok m.upd_ok m.commit_ok])

/-- The calls of the messages of a session, in order. -/
def message_calls : List RxMessage → List RxCall
  | [] => []
  | m :: ms => m.calls ++ message_calls ms

/-- Number of commit statements in a trace. -/
def commits (ev : List Event) : Nat := ev.count Event.commit

/-- Number of truncation diagnostics in a trace. -/
def truncate_warnings (ev : List Event) : Nat :=
  (ev.filter (fun e => match e with
    | Event.truncate_warning _ _ => true
    | _ => false)).length

/-- The value of `latest` after each call of a run, in order (the run stops
at a call that dereferences a NULL pointer). -/
def latests (E : imap_err) : List RxCall → sphinx_receiver → List Nat
  | [], _ => []
  | c :: cs, tr =>
    match c.apply E tr with
    | none => []
    | some (tr1, _) => tr1.latest :: latests E cs tr1

/-- Some `append_text` call of the sequence, made while a part other than 0
is current, has a text that takes the accumulated total above
`MAX_PARTS_SIZE`.  `part` is the current part and `total` the number of
bytes accumulated so far, in unbounded arithmetic. -/
def exceeds_cap : Nat → Nat → List RxCall → Bool
  | _, _, [] => false
  | _, total, .begin_part p :: cs => exceeds_cap p total cs
  | _, total, .end_part _ :: cs => exceeds_cap 0 total cs
  | part, total, .append_text t :: cs =>
    if part ≠ 0 then
      decide (total + t.length > MAX_PARTS_SIZE) ||
        exceeds_cap part (min (total + t.length) MAX_PARTS_SIZE) cs
    else exceeds_cap part total cs
  | part, total, _ :: cs => exceeds_cap part total cs

/-- The texts of the `append_text` calls of a sequence are short enough for
the sum `parts_total + len` not to wrap in `unsigned` arithmetic. -/
def RxCall.no_wrap : RxCall → Bool
  | .append_text t => decide (t.length < 2 ^ 32 - MAX_PARTS_SIZE)
  | _ => true

/-- A receiver with an open connection has a mailbox. -/
def conn_has_mailbox (tr : sphinx_receiver) : Prop :=
  tr.conn.mysql.isSome = true → tr.mailbox.isSome = true

/-! ### Snippet receiver -/

/-- The arguments of one call of the snippet callback: mailbox, uid, index of
the row, text of the row. -/
abbrev SnippetCall := Option mailbox × Nat × Nat × List Char

/-- The snippet callback `snippet.proc` with its `rock`: its result may
depend on the calls made before. -/
abbrev SnippetProc := List SnippetCall → SnippetCall → Int

/-- The loop of `end_message_snippets` that lists the escaped texts of all
parts, with a comma before every part but the first. -/
def snippets_texts (q : List Char) (parts : List (List Char)) : List Char :=
  (List.range SEARCH_NUM_PARTS).foldl
    (fun q i => append_escaped (if i ≠ 0 then q ++ [','] else q) (parts.getD i []) SQUOTE) q

/-- The statement `end_message_snippets` builds; `query` is the buffer
`snippet.query`. -/
def snippets_statement (parts : List (List Char)) (query : List Char) : List Char :=
  snippets_texts "CALL SNIPPETS((".toList parts
    ++ "), ".toList ++ [SQUOTE] ++ "rt".toList ++ [SQUOTE] ++ ", ".toList ++ [SQUOTE]
    ++ query
    ++ [SQUOTE] ++ ", 1 AS query_mode, 1 AS allow_empty)".toList

/-- The row loop of `end_message_snippets` over the first column of the
rows; `i` is the index of the next row, `r` the current status, `done` the
callback invocations so far. -/
def snippet_row_loop (proc : SnippetProc) (tr : sphinx_receiver) :
    List (List Char) → Nat → Int → List SnippetCall → Int × List SnippetCall
  | [], _, r, done => (r, done)
  | row :: rows, i, r, done =>
    if cstr row ≠ [] then
      let r1 := proc done (tr.mailbox, tr.uid, i, row)
      if r1 ≠ 0 then (r1, done ++ [(tr.mailbox, tr.uid, i, row)])
      else snippet_row_loop proc tr rows (i + 1) r1 (done ++ [(tr.mailbox, tr.uid, i, row)])
    else snippet_row_loop proc tr rows (i + 1) r done

/-- `end_message_snippets(rx)`.  `snippet_query` is the field `snippet.query`
of the receiver (`none` for NULL) and `proc` its callback; `rows` answers the
statement (`none`: it fails).  Returns the status, the events and the
callback invocations. -/
def end_message_snippets (E : imap_err) (snippet_query : Option (List Char))
    (proc : SnippetProc) (rows : Option (List (List Char))) (tr : sphinx_receiver) :
    Int × List Event × List SnippetCall :=
  if tr.conn.mysql.isNone then (E.IMAP_INTERNAL, [], [])
  else
    match snippet_query with
    | none => (0, [], [])
    | some q =>
      let stmt := snippets_statement tr.parts q
      match rows with
      | none => (E.IMAP_IOERROR, [Event.query stmt], [])
      | some rs =>
        let l := snippet_row_loop proc tr rs 0 0 []
        (l.1, [Event.query stmt], l.2)

/-- The callback invocations the specification asks for: one for every
non-empty row, in row order, with the position of the row (counted from
`i`) as index. -/
def kept_snippets (tr : sphinx_receiver) (i : Nat) (rows : List (List Char)) :
    List SnippetCall :=
  ((rows.enumFrom i).filter (fun x => decide (cstr x.2 ≠ []))).map
    (fun x => (tr.mailbox, tr.uid, x.1, x.2))

/-- What a callback is given, in order after `done`, when it is fed `kept`
until it returns non-zero, and the status `r` that results: either every
call returned 0 and all of `kept` was given, or the call on some `x` of
`kept` returned `r ≠ 0`, every call before it returned 0, and nothing after
`x` was given. -/
def fed_until_stop {α : Type} (proc : List α → α → Int) (done kept : List α) (r : Int)
    (given : List α) : Prop :=
  (r = 0 ∧ given = done ++ kept ∧
    ∀ pre x rest, kept = pre ++ x :: rest → proc (done ++ pre) x = 0) ∨
  (r ≠ 0 ∧ ∃ pre x rest, kept = pre ++ x :: rest ∧ given = done ++ pre ++ [x] ∧
    proc (done ++ pre) x = r ∧
    ∀ p1 x1 r1, pre = p1 ++ x1 :: r1 → proc (done ++ p1) x1 = 0)

/-! ### Embedding of the compiled query in a single-quoted literal -/

/-- A reader of the interior of a single-quoted literal, a backslash
consuming the following byte; the flag tells that the previous byte was an
unescaped backslash.  `none` when an unescaped single quote is met, else the
flag at the end of the text. -/
def quote_scan : Bool → List Char → Option Bool
  | e, [] => some e
  | true, _ :: cs => quote_scan false cs
  | false, c :: cs =>
    if c = BACKSLASH then quote_scan true cs
    else if c = SQUOTE then none
    else quote_scan false cs

/-- The text `end_message_snippets` writes before the opening quote of the
literal that holds the query. -/
def snippets_head (parts : List (List Char)) : List Char :=
  snippets_texts "CALL SNIPPETS((".toList parts
    ++ "), ".toList ++ [SQUOTE] ++ "rt".toList ++ [SQUOTE] ++ ", ".toList

/-- The text `end_message_snippets` writes after the closing quote of the
literal that holds the query. -/
def snippets_tail : List Char := ", 1 AS query_mode, 1 AS allow_empty)".toList

/-! ### The `latest` row and the INSERT statement, as the specification words them -/

/-- A text between single quotes, escaped. -/
def quoted (text : List Char) : List Char :=
  [SQUOTE] ++ escaped_text text ++ [SQUOTE]

/-- The UPDATE of the uid of row `id` of the table `latest`. -/
def update_latest_statement (uid id : Nat) : List Char :=
  "UPDATE latest SET uid=".toList ++ fmt_u uid ++ " WHERE id=".toList ++ fmt_u id

/-- The INSERT of the row (id, mailbox name, uidvalidity, uid) into the
table `latest`. -/
def insert_latest_statement (id : Nat) (mb : mailbox) (uid : Nat) : List Char :=
  "INSERT INTO latest (id,mboxname,uidvalidity,uid) VALUES (".toList
    ++ fmt_u id ++ [','] ++ quoted (cstr mb.name) ++ [','] ++ fmt_u mb.uidvalidity
    ++ [','] ++ fmt_u uid ++ [')']

/-- The upsert of the `latest` row: an UPDATE of the row found at mailbox
open when there is one, else an INSERT whose id is the largest row id seen
plus one (in `uint32_t`). -/
def latest_statement (mb : mailbox) (tr : sphinx_receiver) : List Char :=
  if tr.latest_id ≠ 0 then update_latest_statement tr.latest tr.latest_id
  else insert_latest_statement ((tr.latest_lastid + 1) % 2 ^ 32) mb tr.latest

/-- The row id the receiver holds after the upsert; `ok` is whether the
daemon accepted the statement. -/
def upserted_id (ok : Bool) (tr : sphinx_receiver) : Nat :=
  if tr.latest_id ≠ 0 then tr.latest_id
  else if ok then (tr.latest_lastid + 1) % 2 ^ 32 else 0

/-! ### Fields of the accumulator -/

/-- The part of a `begin_part` call is inside the field range. -/
def RxCall.in_range : RxCall → Bool
  | .begin_part p => decide (p < SEARCH_NUM_PARTS)
  | _ => true

/-- The accumulator holds `SEARCH_NUM_PARTS` buffers, the current part is
inside the field range, and the buffer of part 0 is empty. -/
def fields_valid (tr : sphinx_receiver) : Prop :=
  tr.parts.length = SEARCH_NUM_PARTS ∧ tr.part < SEARCH_NUM_PARTS ∧ tr.parts.getD 0 [] = []

/-- The fields with accumulated text, in field order. -/
def filled_fields (parts : List (List Char)) : List Nat :=
  (List.range SEARCH_NUM_PARTS).filter (fun i => decide ((parts.getD i []).length ≠ 0))

/-! ### The INSERT statement of a message, as the specification words it -/

/-- The columns the INSERT statement names: `id`, `cyrusid` and the column of
every field with text, in field order. -/
def insert_column_names (parts : List (List Char)) : List (List Char) :=
  ["id".toList, "cyrusid".toList]
    ++ (filled_fields parts).map (fun i => (column_by_part i).getD [])

/-- The values of the INSERT statement: the document id, the quoted document
key and the quoted text of every field with text, in field order. -/
def insert_value_texts (mb : mailbox) (id uid : Nat) (parts : List (List Char)) :
    List (List Char) :=
  [fmt_u id, quoted (make_cyrusid mb uid)]
    ++ (filled_fields parts).map (fun i => quoted (parts.getD i []))

/-- The INSERT statement in the words of the specification: the fixed head,
`,column` for every field with text, `) VALUES (`, the document id, the
quoted document key, `,'text'` for the same fields, and `)`. -/
def insert_text (mb : mailbox) (id uid : Nat) (parts : List (List Char)) : List Char :=
  "INSERT INTO rt (id,cyrusid".toList
    ++ ((filled_fields parts).map (fun i => [','] ++ (column_by_part i).getD [])).flatten
    ++ ") VALUES (".toList ++ fmt_u id ++ [','] ++ quoted (make_cyrusid mb uid)
    ++ ((filled_fields parts).map (fun i => [','] ++ quoted (parts.getD i []))).flatten
    ++ [')']

/-- A call other than `begin_mailbox`: the calls inside a mailbox session. -/
def RxCall.in_session : RxCall → Bool
  | .begin_mailbox _ _ _ _ _ _ => false
  | _ => true

/-- The daemon accepts the `latest` statement of the call, if one is sent. -/
def RxCall.latest_ok : RxCall → Bool
  | .end_message _ upd_ok _ => upd_ok
  | .end_mailbox upd_ok _ => upd_ok
  | _ => true

/-- The event is an INSERT into the table `latest`. -/
def is_latest_insert : Event → Bool
  | .query q => "INSERT INTO latest ".toList.isPrefixOf q
  | _ => false

/-- The event is a statement on the table `latest`. -/
def is_latest_statement : Event → Bool
  | .query q =>
    "INSERT INTO latest ".toList.isPrefixOf q || "UPDATE latest ".toList.isPrefixOf q
  | _ => false

/-- What a statement of a session may be when `row` is the row of the
mailbox in `latest`: the INSERT of a message, an UPDATE of `row`, or, when
no row was found at mailbox open (`fresh`), the INSERT of `row`. -/
def names_row (row : Nat) (fresh : Bool) : Event → Prop
  | .query q =>
    (∃ mb id uid parts, q = insert_text mb id uid parts) ∨
    (∃ u, q = update_latest_statement u row) ∨
    (fresh = true ∧ ∃ u mb, q = insert_latest_statement row mb u)
  | _ => True

/-- The id read from the answer to a `SELECT max(id)`: 0 when there is no
row. -/
def max_row_id (maxid : Option (List Char)) : Nat :=
  match maxid with
  | none => 0
  | some v => strtoul_u32 v

/-! ### The uncommitted INSERT statements, as the specification counts them -/

/-- The event is the INSERT of a message into the table `rt`. -/
def is_message_insert : Event → Bool
  | .query q => "INSERT INTO rt ".toList.isPrefixOf q
  | _ => false

/-- The number of INSERT statements of messages that succeeded since the
last successful commit, after the call `c` that caused the events `ev`,
when that number was `g` before the call: 0 when the call made a commit
that succeeded, else `g` plus the INSERT of the call if it was accepted. -/
def pending_after (c : RxCall) (ev : List Event) (g : Nat) : Nat :=
  match c with
  | .end_message ins_ok _ commit_ok =>
    if commit_ok && decide (Event.commit ∈ ev) then 0
    else g + (if ins_ok then (ev.filter is_message_insert).length else 0)
  | .end_mailbox _ commit_ok =>
    if commit_ok && decide (Event.commit ∈ ev) then 0 else g
  | _ => g

/-- The same number at the end of a run of calls from `tr`, read from the
events of each call. -/
def pending_inserts (E : imap_err) : List RxCall → sphinx_receiver → Nat → Nat
  | [], _, g => g
  | c :: cs, tr, g =>
    match c.apply E tr with
    | none => g
    | some (tr1, ev) => pending_inserts E cs tr1 (pending_after c ev g)

/-! ### Sample inputs -/

/-- A sample mailbox `A` with uidvalidity 7 and last uid 3. -/
def sample_mailbox : mailbox := { name := ['A'], uidvalidity := 7, last_uid := 3 }

/-- Sample error codes. -/
def sample_err : imap_err :=
  { IMAP_INTERNAL := -1, IMAP_IOERROR := -2, IMAP_TRIVIAL_SEARCH := -3 }

/-- A sample daemon: the `latest` table says uid 1 is the last one indexed
for `A`, and the main query returns five rows, one of them malformed, one
for another uidvalidity and one for another mailbox. -/
def sample_world : search_world :=
  { getsock := (0, "/sphinx/socket".toList), connect_ok := true,
    latest_rows := some [("B".toList, "9".toList), ("A".toList, "1".toList)],
    match_rows := some ["A.7.1".toList, "A.8.2".toList, "junk".toList, "B.7.1".toList,
                        "A.7.3".toList] }

/-- A sample builder: one match on the body, with the given options. -/
def sample_builder (opts : search_opts) : sphinx_builder :=
  match_part false (begin_search sample_mailbox opts) 7 (some ['x'])

/-- A sample callback that stops with 5 at uid 3 and continues otherwise. -/
def sample_proc : HitProc := fun _ h => if h.2.2 = 3 then 5 else 0

/-- A sample indexing session: open mailbox `A` (the daemon answering that the
largest document id is 41 and that the `latest` row 3 of `A` holds uid 1),
then index the message with the largest 32-bit uid. -/
def sample_session : List RxCall :=
  [ RxCall.begin_mailbox (0, "/sphinx/socket".toList) true (some (some "41".toList))
      (some [("3".toList, "A".toList, "1".toList)]) (some (some "9".toList)) sample_mailbox,
    RxCall.begin_message 4294967295,
    RxCall.begin_part 5,
    RxCall.append_text "hello".toList,
    RxCall.end_part 5,
    RxCall.end_message true true true ]

/-- Sample messages: `n` messages with the uids 2, 3, .. each with the text
`x` in its body, every statement accepted. -/
def sample_messages (n : Nat) : List RxMessage :=
  (List.range n).map (fun i =>
    { uid := i + 2,
      parts := [RxCall.begin_part 7, RxCall.append_text ['x'], RxCall.end_part 7],
      ins_ok := true, upd_ok := true, commit_ok := true })

/-- A sample `begin_mailbox` call on mailbox `A`, every statement accepted:
the largest document id is 41, the `latest` row 3 of `A` holds uid 1. -/
def sample_begin_mailbox : RxCall :=
  RxCall.begin_mailbox (0, "/sphinx/socket".toList) true (some (some "41".toList))
    (some [("3".toList, "A".toList, "1".toList)]) (some (some "9".toList)) sample_mailbox

/-- Two sample messages whose uids are fed in descending order: 5, then 3. -/
def descending_messages : List RxMessage :=
  [ { uid := 5, parts := [RxCall.begin_part 7, RxCall.append_text ['x'], RxCall.end_part 7],
      ins_ok := true, upd_ok := true, commit_ok := true },
    { uid := 3, parts := [RxCall.begin_part 7, RxCall.append_text ['y'], RxCall.end_part 7],
      ins_ok := true, upd_ok := true, commit_ok := true } ]

/-- The receiver after the sample `begin_mailbox` on a fresh receiver. -/
def sample_open_receiver : sphinx_receiver :=
  (rx_run sample_err [sample_begin_mailbox] (begin_update 0)).1

/-- A receiver in the middle of a message with one byte of text in the body:
a fresh receiver after `begin_message(2)`, `begin_part(7)` and `append_text`
of one byte. -/
def one_byte_receiver : sphinx_receiver :=
  (rx_run sample_err [RxCall.begin_message 2, RxCall.begin_part 7, RxCall.append_text ['x']]
    (begin_update 0)).1

/-- The calls of a sample message in the sample mailbox: uid 2, subject `hi`,
body `a'b`. -/
def sample_filled_calls : List RxCall :=
  [sample_begin_mailbox, RxCall.begin_message 2, RxCall.begin_part 5,
   RxCall.append_text "hi".toList, RxCall.end_part 5, RxCall.begin_part 7,
   RxCall.append_text ['a', SQUOTE, 'b'], RxCall.end_part 7]

/-- The sample receiver with one uncommitted message: the sample
`begin_mailbox`, then one sample message whose INSERT is accepted. -/
def one_pending_receiver : sphinx_receiver :=
  (rx_run sample_err (sample_begin_mailbox :: message_calls (sample_messages 1))
    (begin_update 0)).1

/-- A sample `begin_mailbox` call on mailbox `A` when `latest` holds a row
for mailbox `B` only and the largest row id is 9. -/
def sample_unlisted_begin : RxCall :=
  RxCall.begin_mailbox (0, "/sphinx/socket".toList) true (some (some "41".toList))
    (some [("3".toList, "B".toList, "1".toList)]) (some (some "9".toList)) sample_mailbox

/-- A sample session in a mailbox that has no row in `latest` yet: 21
accepted messages, with uids 2 to 22, and `end_mailbox`. -/
def sample_first_session : List RxCall :=
  message_calls (sample_messages 21) ++ [RxCall.end_mailbox true true]

end SearchSphinx

namespace SearchSphinx

/-! ## Lemmas on the libc helpers -/

theorem digitChar_facts : ∀ d, d < 10 →
    isdigit (digitChar d) = true ∧ (digitChar d).toNat - 48 = d ∧
    isspace (digitChar d) = false ∧ digitChar d ≠ DOT ∧ digitChar d ≠ NUL ∧
    digitChar d ≠ Char.ofNat 45 ∧ digitChar d ≠ Char.ofNat 43 := by
  decide

theorem decDigits_lt (f n : Nat) : ∀ d ∈ decDigits f n, d < 10 := by
  induction f generalizing n with
  | zero => intro d hd; simp [decDigits] at hd
  | succ f ih =>
    intro d hd
    simp only [decDigits, List.mem_cons] at hd
    rcases hd with h | h
    · omega
    · split at h
      · simp at h
      · exact ih _ d h

theorem decDigits_ne_nil (f n : Nat) : decDigits (f + 1) n ≠ [] := by
  simp [decDigits]

/-- The value of a little-endian digit list. -/
theorem decDigits_value (f n : Nat) (h : n < f) :
    (decDigits f n).foldr (fun d a => a * 10 + d) 0 = n := by
  induction f generalizing n with
  | zero => omega
  | succ f ih =>
    simp only [decDigits]
    by_cases h10 : n < 10
    · simp [h10, Nat.mod_eq_of_lt h10]
    · simp only [h10, if_false, List.foldr_cons]
      rw [ih (n / 10) (by omega)]
      omega

theorem strtoul_digits_map (ds : List Nat) (hds : ∀ d ∈ ds, d < 10) (acc : Nat) :
    strtoul_digits acc (ds.map digitChar) = ds.foldl (fun a d => a * 10 + d) acc := by
  induction ds generalizing acc with
  | nil => rfl
  | cons d ds ih =>
    have hd := digitChar_facts d (hds d (List.mem_cons_self _ _))
    simp only [List.map_cons, strtoul_digits, hd.1, if_true, hd.2.1, List.foldl_cons]
    exact ih (fun x hx => hds x (List.mem_cons_of_mem _ hx)) _

theorem fmt_u_digits (n : Nat) : ∀ c ∈ fmt_u n, ∃ d, d < 10 ∧ c = digitChar d := by
  intro c hc
  simp only [fmt_u, List.mem_map, List.mem_reverse] at hc
  obtain ⟨d, hd, rfl⟩ := hc
  exact ⟨d, decDigits_lt _ _ d hd, rfl⟩

theorem fmt_u_no_dot (n : Nat) : DOT ∉ fmt_u n := by
  intro h
  obtain ⟨d, hd, hc⟩ := fmt_u_digits n _ h
  exact (digitChar_facts d hd).2.2.2.1 hc.symm

theorem fmt_u_no_nul (n : Nat) : NUL ∉ fmt_u n := by
  intro h
  obtain ⟨d, hd, hc⟩ := fmt_u_digits n _ h
  exact (digitChar_facts d hd).2.2.2.2.1 hc.symm

theorem fmt_u_cons (n : Nat) : ∃ d rest, d < 10 ∧ fmt_u n = digitChar d :: rest := by
  have hne : fmt_u n ≠ [] := by
    simp [fmt_u, decDigits]
  cases h : fmt_u n with
  | nil => exact absurd h hne
  | cons c rest =>
    obtain ⟨d, hd, hc⟩ := fmt_u_digits n c (by rw [h]; exact List.mem_cons_self _ _)
    exact ⟨d, rest, hd, by rw [hc]⟩

theorem strtoul_digits_fmt_u (n : Nat) : strtoul_digits 0 (fmt_u n) = n := by
  unfold fmt_u
  rw [strtoul_digits_map _ (fun d hd => decDigits_lt _ _ d (List.mem_reverse.mp hd)),
    List.foldl_reverse]
  exact decDigits_value (n + 1) n (Nat.lt_succ_self n)

/-- Reading back a printed unsigned number. -/
theorem strtoul_fmt_u (n : Nat) (h : n ≤ ULONG_MAX) : strtoul (fmt_u n) = n := by
  obtain ⟨d, rest, hd, hcons⟩ := fmt_u_cons n
  have hf := digitChar_facts d hd
  have hdig := strtoul_digits_fmt_u n
  have h1 : (fmt_u n).dropWhile isspace = fmt_u n := by
    rw [hcons, List.dropWhile_cons, hf.2.2.1]; rfl
  unfold strtoul
  simp only [h1]
  have h2 : ((fmt_u n).head? == some (Char.ofNat 45)) = false := by
    rw [hcons]; simpa using hf.2.2.2.2.2.1
  have h3 : ((fmt_u n).head? == some (Char.ofNat 43)) = false := by
    rw [hcons]; simpa using hf.2.2.2.2.2.2
  simp only [h2, h3, Bool.or_self, Bool.false_eq_true, if_false, hdig]
  have : ¬ n > ULONG_MAX := by omega
  simp [this]

theorem strtoul_u32_fmt_u (n : Nat) (h : n < 2 ^ 32) : strtoul_u32 (fmt_u n) = n := by
  unfold strtoul_u32
  rw [strtoul_fmt_u n (by unfold ULONG_MAX; omega)]
  exact Nat.mod_eq_of_lt h

theorem cstr_of_no_nul (s : List Char) (h : NUL ∉ s) : cstr s = s := by
  unfold cstr
  rw [List.takeWhile_eq_self_iff]
  intro c hc
  simp only [bne_iff_ne, ne_eq]
  rintro rfl
  exact h hc

theorem cstr_no_nul (s : List Char) : NUL ∉ cstr s := by
  intro h
  have := List.mem_takeWhile_imp h
  simp at this

theorem cstr_idem (s : List Char) : cstr (cstr s) = cstr s :=
  cstr_of_no_nul _ (cstr_no_nul s)

/-! ## Lemmas on `strrchr_split` -/

theorem strrchr_split_none (c : Char) (s : List Char) :
    strrchr_split c s = none ↔ c ∉ s := by
  induction s with
  | nil => simp [strrchr_split]
  | cons x xs ih =>
    simp only [strrchr_split, List.mem_cons, not_or]
    cases h : strrchr_split c xs with
    | none =>
      have hxs := ih.mp h
      by_cases hx : x = c
      · simp [hx]
      · simp [hx, hxs, Ne.symm hx]
    | some r =>
      have : ¬ c ∉ xs := fun hn => by
        rw [ih.mpr hn] at h; cases h
      simp [this]

theorem strrchr_split_append (c : Char) (a b : List Char) (hb : c ∉ b) :
    strrchr_split c (a ++ c :: b) = some (a, b) := by
  induction a with
  | nil =>
    simp [strrchr_split, (strrchr_split_none c b).mpr hb]
  | cons x xs ih =>
    simp [strrchr_split, ih]

theorem strrchr_split_some (c : Char) (s a b : List Char)
    (h : strrchr_split c s = some (a, b)) : s = a ++ c :: b ∧ c ∉ b := by
  induction s generalizing a with
  | nil => simp [strrchr_split] at h
  | cons x xs ih =>
    simp only [strrchr_split] at h
    cases hx : strrchr_split c xs with
    | none =>
      rw [hx] at h
      simp only at h
      split at h
      · rename_i hxc
        simp only [Option.some.injEq, Prod.mk.injEq] at h
        obtain ⟨rfl, rfl⟩ := h
        exact ⟨by simp [hxc], (strrchr_split_none c xs).mp hx⟩
      · cases h
    | some r =>
      obtain ⟨a1, b1⟩ := r
      rw [hx] at h
      simp only [Option.some.injEq, Prod.mk.injEq] at h
      obtain ⟨rfl, rfl⟩ := h
      obtain ⟨h1, h2⟩ := ih a1 hx
      exact ⟨by rw [h1]; simp, h2⟩

theorem parse_cyrusid_of_fields (a g u : List Char) (ha : NUL ∉ a) (hg : NUL ∉ g)
    (hu : NUL ∉ u) (hgd : DOT ∉ g) (hud : DOT ∉ u) :
    parse_cyrusid (a ++ DOT :: (g ++ DOT :: u)) = some (a, strtoul_u32 g, strtoul_u32 u) := by
  have hn : NUL ∉ a ++ DOT :: (g ++ DOT :: u) := by
    have h0 : NUL ≠ DOT := by decide
    simp [ha, hg, hu, h0]
  unfold parse_cyrusid
  rw [cstr_of_no_nul _ hn]
  have e1 : a ++ DOT :: (g ++ DOT :: u) = (a ++ DOT :: g) ++ DOT :: u := by simp
  rw [e1, strrchr_split_append DOT _ u hud]
  simp only
  rw [strrchr_split_append DOT a g hgd]

/-! ## The document key codec (C1, C2) -/

/-- C1: round trip of the document key.  For every NUL-free mailbox name
(names with `.` included), every 32-bit uidvalidity and every 32-bit uid,
`parse_cyrusid` applied to the key built by `make_cyrusid` succeeds and
returns exactly that mailbox name, uidvalidity and uid. -/
theorem parse_make_cyrusid (mb : mailbox) (uid : Nat) (hname : NUL ∉ mb.name)
    (hv : mb.uidvalidity < 2 ^ 32) (hu : uid < 2 ^ 32) :
    parse_cyrusid (make_cyrusid mb uid) = some (mb.name, mb.uidvalidity, uid) := by
  unfold make_cyrusid
  rw [cstr_of_no_nul _ hname]
  have e : mb.name ++ [DOT] ++ fmt_u mb.uidvalidity ++ [DOT] ++ fmt_u uid
      = mb.name ++ DOT :: (fmt_u mb.uidvalidity ++ DOT :: fmt_u uid) := by simp
  rw [e, parse_cyrusid_of_fields _ _ _ hname (fmt_u_no_nul _) (fmt_u_no_nul _)
    (fmt_u_no_dot _) (fmt_u_no_dot _), strtoul_u32_fmt_u _ hv, strtoul_u32_fmt_u _ hu]

/-- Witness of C1 on the key `user.cassandane.1320711192.196715`. -/
theorem parse_make_cyrusid_witness :
    NUL ∉ "user.cassandane".toList ∧ 1320711192 < 2 ^ 32 ∧ 196715 < 2 ^ 32 ∧
    parse_cyrusid (make_cyrusid ⟨"user.cassandane".toList, 1320711192, 196715⟩ 196715)
      = some ("user.cassandane".toList, 1320711192, 196715) :=
  ⟨by decide, by decide, by decide,
    parse_make_cyrusid ⟨"user.cassandane".toList, 1320711192, 196715⟩ 196715
      (by decide) (by decide) (by decide)⟩

/-- C2: `parse_cyrusid` fails exactly when its input C string has fewer than
two `.` separators; with at least two it succeeds, the mailbox name returned
is the text before the second-to-last `.`, and uidvalidity and uid are read
(by `strtoul`, into an `unsigned int`) from the two rightmost fields. -/
theorem parse_cyrusid_fails_iff (s : List Char) :
    (parse_cyrusid s = none ↔ (cstr s).count DOT < 2) ∧
    (2 ≤ (cstr s).count DOT →
      ∃ a g u, cstr s = a ++ DOT :: (g ++ DOT :: u) ∧ DOT ∉ g ∧ DOT ∉ u ∧
        parse_cyrusid s = some (a, strtoul_u32 g, strtoul_u32 u)) := by
  unfold parse_cyrusid
  cases h1 : strrchr_split DOT (cstr s) with
  | none =>
    have hc : (cstr s).count DOT = 0 :=
      List.count_eq_zero.mpr ((strrchr_split_none _ _).mp h1)
    exact ⟨⟨fun _ => by omega, fun _ => rfl⟩, fun h => by omega⟩
  | some r1 =>
    obtain ⟨s1, p1⟩ := r1
    obtain ⟨e1, hp1⟩ := strrchr_split_some _ _ _ _ h1
    have hc1 : (cstr s).count DOT = s1.count DOT + 1 := by
      rw [e1, List.count_append, List.count_cons_self, List.count_eq_zero.mpr hp1]
    simp only
    cases h2 : strrchr_split DOT s1 with
    | none =>
      have hc : s1.count DOT = 0 :=
        List.count_eq_zero.mpr ((strrchr_split_none _ _).mp h2)
      exact ⟨⟨fun _ => by omega, fun _ => rfl⟩, fun h => by omega⟩
    | some r2 =>
      obtain ⟨s2, p2⟩ := r2
      obtain ⟨e2, hp2⟩ := strrchr_split_some _ _ _ _ h2
      have hc2 : s1.count DOT = s2.count DOT + 1 := by
        rw [e2, List.count_append, List.count_cons_self, List.count_eq_zero.mpr hp2]
      refine ⟨⟨fun h => (by cases h), fun h => (by omega)⟩, fun _ => ?_⟩
      refine ⟨s2, p2, p1, ?_, hp2, hp1, rfl⟩
      rw [e1, e2]; simp

/-! ## The text escaper (C5, C6) -/

theorem escape_loop_eq (buf text : List Char) :
    escape_loop buf text = buf ++ escaped_text text := by
  induction text generalizing buf with
  | nil => simp [escape_loop, escaped_text]
  | cons c cs ih =>
    simp only [escape_loop, escaped_text, escaped_byte]
    rw [ih]
    split <;> simp

theorem append_escaped_map_eq (buf text : List Char) (q : Char) :
    append_escaped_map buf text q = buf ++ [q] ++ escaped_text text ++ [q] := by
  unfold append_escaped_map
  rw [escape_loop_eq]

theorem scan_literal_escaped (q : Char) (hq : q = SQUOTE ∨ q = DQUOTE)
    (text rest : List Char) :
    scan_literal q (escaped_text text ++ q :: rest) = some (text, rest) := by
  have hqb : q ≠ BACKSLASH := by
    rcases hq with rfl | rfl <;> decide
  unfold scan_literal
  induction text with
  | nil => simp [escaped_text, scan_literal_from, hqb]
  | cons c cs ih =>
    by_cases hc : c = BACKSLASH ∨ c = SQUOTE ∨ c = DQUOTE
    · simp only [escaped_text, escaped_byte, if_pos hc, List.cons_append, List.nil_append,
        scan_literal_from, if_true, ih, Option.map_some']
    · have h1 : c ≠ BACKSLASH := fun h => hc (Or.inl h)
      have h2 : c ≠ q := by
        rcases hq with rfl | rfl
        · exact fun h => hc (Or.inr (Or.inl h))
        · exact fun h => hc (Or.inr (Or.inr h))
      simp only [escaped_text, escaped_byte, if_neg hc, List.cons_append, List.nil_append,
        scan_literal_from, if_neg h1, if_neg h2, ih, Option.map_some']

/-- C5: for every byte string `text` and quote `q`, `append_escaped_map`
appends to the buffer exactly `q`, then the bytes of `text` in order with a
single backslash before each backslash, single quote and double quote and
before no other byte, then `q`; the previous content of the buffer stays as
a prefix, and there is no failure case (the function is total). -/
theorem append_escaped_map_spec (buf text : List Char) (q : Char) :
    append_escaped_map buf text q = buf ++ ([q] ++ escaped_text text ++ [q]) := by
  rw [append_escaped_map_eq]; simp

/-- C6: the escaped literal is injection-safe for both quote characters.  For
`q` the single or the double quote, the literal starts with `q`, and a reader
that scans what follows the opening quote, a backslash consuming the byte
after it, finds the first unescaped `q` at the last byte of the literal
(what it leaves unread is exactly the text `rest` put after the literal) and
un-escapes the interior to the input text. -/
theorem escaped_literal_scan (q : Char) (hq : q = SQUOTE ∨ q = DQUOTE)
    (text rest : List Char) :
    (append_escaped [] text q).head? = some q ∧
    scan_literal q ((append_escaped [] text q).tail ++ rest) = some (text, rest) := by
  unfold append_escaped
  rw [append_escaped_map_eq]
  refine ⟨by simp, ?_⟩
  have := scan_literal_escaped q hq text rest
  simpa using this

/-- Witness of C6: a text holding both quotes and a backslash, escaped with
the single quote and followed by more statement text. -/
theorem escaped_literal_scan_witness :
    (SQUOTE = SQUOTE ∨ SQUOTE = DQUOTE) ∧
    (append_escaped [] [Char.ofNat 97, SQUOTE, DQUOTE, BACKSLASH] SQUOTE).head? = some SQUOTE ∧
    scan_literal SQUOTE
      ((append_escaped [] [Char.ofNat 97, SQUOTE, DQUOTE, BACKSLASH] SQUOTE).tail
        ++ [Char.ofNat 41]) = some ([Char.ofNat 97, SQUOTE, DQUOTE, BACKSLASH], [Char.ofNat 41]) :=
  ⟨Or.inl rfl, escaped_literal_scan SQUOTE (Or.inl rfl) _ _⟩

end SearchSphinx

namespace SearchSphinx

/-! ## The query builder (C3, C4) -/

theorem odd_headers_selector (q : List Char) :
    ((List.range SEARCH_NUM_PARTS).foldl odd_headers_step (q ++ ['@'], ['('])).1 ++ [')', ' ']
      = q ++ "@(header_from,header_to,header_cc,header_bcc,header_subject,body) ".toList := by
  simp [SEARCH_NUM_PARTS, List.range, List.range.loop, odd_headers_step, column_by_part,
    column_table, SEARCH_PART_HEADERS]

theorem match_part_eq (excl : Bool) (bb : sphinx_builder) (part : Nat)
    (str : Option (List Char)) :
    match_part excl bb part str
      = emit (begin_child bb) (leaf_text excl part str) (if str.isSome then 1 else 0) := by
  unfold match_part emit leaf_text field_selector match_text append_escaped
  simp only [append_escaped_map_eq]
  cases hcol : column_by_part part with
  | some col => cases str <;> simp
  | none =>
    cases excl
    · cases str <;> simp
    · simp only [if_true, odd_headers_selector]
      cases str <;> simp

theorem run_append (excl : Bool) (cs ds : List Call) (bb : sphinx_builder) :
    run excl (cs ++ ds) bb = (run excl cs bb).bind (run excl ds) := by
  induction cs generalizing bb with
  | nil => simp [run]
  | cons c cs ih =>
    simp only [List.cons_append, run]
    cases c.apply excl bb with
    | none => simp
    | some bb1 => simpa using ih bb1

mutual
/-- Feeding a tree equals appending its text after the child separator. -/
theorem run_calls (excl : Bool) : ∀ (t : QTree) (bb : sphinx_builder),
    run excl t.calls bb = some (emit (begin_child bb) (tree_text excl t) (real_leaves t))
  | .leaf part str, bb => by
    simp [QTree.calls, run, Call.apply, match_part_eq, tree_text, real_leaves]
  | .group op cs, bb => by
    have hcs := run_callsList excl cs (begin_boolean bb op) { idx := 0, op := op }
      (begin_child bb).stack (by simp [begin_boolean]; split <;> rfl)
    rw [QTree.calls, run]
    simp only [Call.apply]
    rw [run_append, hcs]
    simp only [run, Call.apply, Option.bind_some, Option.some_bind, end_boolean, after_children]
    simp only [tree_text, real_leaves, emit, begin_boolean, negation_marker]
    cases cs with
    | nil => by_cases hop : op = SearchOp.NOT <;> simp [hop, children_text, real_leaves_list]
    | cons c cs' => by_cases hop : op = SearchOp.NOT <;> simp [hop]
/-- Feeding the children of a group whose frame is `top`. -/
theorem run_callsList (excl : Bool) : ∀ (ts : List QTree) (bb : sphinx_builder)
    (top : opstack) (stk : List opstack), bb.stack = top :: stk →
    run excl (QTree.callsList ts) bb
      = some (after_children bb top stk (children_text excl top.op top.idx ts) ts.length
          (real_leaves_list ts))
  | [], bb, top, stk, h => by
    cases bb
    simp only at h
    simp [QTree.callsList, run, after_children, children_text, real_leaves_list, h]
  | t :: ts, bb, top, stk, h => by
    have ht := run_calls excl t bb
    have hbc : (emit (begin_child bb) (tree_text excl t) (real_leaves t)).stack
        = { top with idx := top.idx + 1 } :: stk := by
      simp [emit, begin_child, h]
    have hts := run_callsList excl ts _ _ stk hbc
    rw [QTree.callsList, run_append, ht, Option.some_bind, hts]
    cases bb
    simp only at h
    simp [after_children, emit, begin_child, h, children_text, real_leaves_list,
      Nat.add_assoc, Nat.add_comm 1]
end

/-! ### Parenthesis scans -/

theorem paren_scan_append (aware : Bool) (s t : List Char) (st : ScanMode × Nat) :
    paren_scan aware st (s ++ t)
      = (paren_scan aware st s).bind (fun st1 => paren_scan aware st1 t) := by
  induction s generalizing st with
  | nil => simp [paren_scan]
  | cons c cs ih =>
    simp only [List.cons_append, paren_scan]
    cases paren_step aware st c with
    | none => simp
    | some st1 => simpa using ih st1

theorem paren_step_shift (aware : Bool) (m m1 : ScanMode) (d d1 k : Nat) (c : Char)
    (h : paren_step aware (m, d) c = some (m1, d1)) :
    paren_step aware (m, d + k) c = some (m1, d1 + k) := by
  unfold paren_step at h ⊢
  cases m <;> simp only at h ⊢
  · by_cases hq : (aware && c == DQUOTE) = true
    · simp only [hq, ↓reduceIte, Option.some.injEq, Prod.mk.injEq] at h ⊢
      exact ⟨h.1, by omega⟩
    · simp only [hq, Bool.false_eq_true, ↓reduceIte] at h ⊢
      by_cases hc : c = '('
      · simp only [hc, ↓reduceIte, Option.some.injEq, Prod.mk.injEq] at h ⊢
        exact ⟨h.1, by omega⟩
      · simp only [hc, ↓reduceIte] at h ⊢
        by_cases hc2 : c = ')'
        · simp only [hc2, ↓reduceIte] at h ⊢
          by_cases hd : d = 0
          · simp [hd] at h
          · have hdk : ¬ d + k = 0 := by omega
            simp only [hd, hdk, ↓reduceIte, Option.some.injEq, Prod.mk.injEq] at h ⊢
            exact ⟨h.1, by omega⟩
        · simp only [hc2, ↓reduceIte, Option.some.injEq, Prod.mk.injEq] at h ⊢
          exact ⟨h.1, by omega⟩
  · by_cases hb : c = BACKSLASH
    · simp only [hb, ↓reduceIte, Option.some.injEq, Prod.mk.injEq] at h ⊢
      exact ⟨h.1, by omega⟩
    · simp only [hb, ↓reduceIte] at h ⊢
      by_cases hq : c = DQUOTE
      · simp only [hq, ↓reduceIte, Option.some.injEq, Prod.mk.injEq] at h ⊢
        exact ⟨h.1, by omega⟩
      · simp only [hq, ↓reduceIte, Option.some.injEq, Prod.mk.injEq] at h ⊢
        exact ⟨h.1, by omega⟩
  · simp only [Option.some.injEq, Prod.mk.injEq] at h ⊢
    exact ⟨h.1, by omega⟩

theorem paren_scan_shift (aware : Bool) (s : List Char) (m m1 : ScanMode) (d d1 k : Nat)
    (h : paren_scan aware (m, d) s = some (m1, d1)) :
    paren_scan aware (m, d + k) s = some (m1, d1 + k) := by
  induction s generalizing m d with
  | nil =>
    simp only [paren_scan, Option.some.injEq, Prod.mk.injEq] at h ⊢
    exact ⟨h.1, by omega⟩
  | cons c cs ih =>
    simp only [paren_scan] at h ⊢
    cases hs : paren_step aware (m, d) c with
    | none => rw [hs] at h; cases h
    | some st1 =>
      obtain ⟨m2, d2⟩ := st1
      rw [hs] at h
      rw [paren_step_shift aware m m2 d d2 k c hs]
      exact ih m2 d2 h

theorem neutral_of_zero (aware : Bool) (s : List Char)
    (h : paren_scan aware (ScanMode.plain, 0) s = some (ScanMode.plain, 0)) :
    Neutral aware s := by
  intro d
  simpa using paren_scan_shift aware s _ _ 0 0 d h

theorem neutral_append (aware : Bool) (s t : List Char) (hs : Neutral aware s)
    (ht : Neutral aware t) : Neutral aware (s ++ t) := by
  intro d
  rw [paren_scan_append, hs d]
  exact ht d

theorem neutral_nil (aware : Bool) : Neutral aware [] := fun _ => rfl

theorem neutral_parens (aware : Bool) (s : List Char) (hs : Neutral aware s) :
    Neutral aware (['('] ++ s ++ [')']) := by
  intro d
  have h1 : paren_scan aware (ScanMode.plain, d) ['('] = some (ScanMode.plain, d + 1) := by
    have h0 : paren_scan aware (ScanMode.plain, 0) ['('] = some (ScanMode.plain, 1) := by
      cases aware <;> decide
    simpa [Nat.add_comm] using paren_scan_shift aware _ _ _ 0 1 d h0
  have h2 : paren_scan aware (ScanMode.plain, d + 1) [')'] = some (ScanMode.plain, d) := by
    have h0 : paren_scan aware (ScanMode.plain, 1) [')'] = some (ScanMode.plain, 0) := by
      cases aware <;> decide
    simpa [Nat.add_comm] using paren_scan_shift aware _ _ _ 1 0 d h0
  rw [paren_scan_append, paren_scan_append, h1]
  simp only [Option.some_bind, hs (d + 1), h2]

theorem paren_scan_no_parens (s : List Char) (h1 : '(' ∉ s) (h2 : ')' ∉ s) :
    Neutral false s := by
  intro d
  induction s with
  | nil => rfl
  | cons c cs ih =>
    have hc1 : c ≠ '(' := fun h => h1 (by simp [h])
    have hc2 : c ≠ ')' := fun h => h2 (by simp [h])
    simp only [paren_scan, paren_step, Bool.false_and, Bool.false_eq_true, ↓reduceIte, hc1, hc2]
    exact ih (fun h => h1 (List.mem_cons_of_mem _ h)) (fun h => h2 (List.mem_cons_of_mem _ h))

theorem mem_escaped_text (c : Char) (t : List Char) (h : c ∈ escaped_text t) :
    c = BACKSLASH ∨ c ∈ t := by
  induction t with
  | nil => simp [escaped_text] at h
  | cons x xs ih =>
    simp only [escaped_text, escaped_byte, List.mem_append] at h
    rcases h with h | h
    · split at h
      · simp only [List.mem_cons, List.mem_singleton, List.not_mem_nil, or_false] at h
        rcases h with h | h
        · exact Or.inl h
        · exact Or.inr (by simp [h])
      · simp only [List.mem_singleton] at h
        exact Or.inr (by simp [h])
    · rcases ih h with h | h
      · exact Or.inl h
      · exact Or.inr (List.mem_cons_of_mem _ h)

theorem literal_scan_escaped (t : List Char) (d : Nat) :
    paren_scan true (ScanMode.literal, d) (escaped_text t) = some (ScanMode.literal, d) := by
  induction t with
  | nil => rfl
  | cons c cs ih =>
    simp only [escaped_text, escaped_byte]
    by_cases hc : c = BACKSLASH ∨ c = SQUOTE ∨ c = DQUOTE
    · simp only [if_pos hc, List.cons_append, List.nil_append, paren_scan, paren_step,
        ↓reduceIte, ih]
    · have h1 : c ≠ BACKSLASH := fun h => hc (Or.inl h)
      have h2 : c ≠ DQUOTE := fun h => hc (Or.inr (Or.inr h))
      rw [if_neg hc]
      show paren_scan true (ScanMode.literal, d) (c :: escaped_text cs) = _
      simp only [paren_scan, paren_step, ↓reduceIte, h1, h2, ih]

/-- The quoted literal of a `match` call leaves the literal-aware scan where
it was. -/
theorem neutral_literal_aware (t : List Char) :
    Neutral true ([DQUOTE] ++ escaped_text t ++ [DQUOTE]) := by
  intro d
  have h1 : paren_scan true (ScanMode.plain, d) [DQUOTE] = some (ScanMode.literal, d) := by
    simp [paren_scan, paren_step]
  have h2 : paren_scan true (ScanMode.literal, d) [DQUOTE] = some (ScanMode.plain, d) := by
    have hb : DQUOTE ≠ BACKSLASH := by decide
    simp [paren_scan, paren_step, hb]
  rw [paren_scan_append, paren_scan_append, h1]
  simp only [Option.some_bind, literal_scan_escaped, h2]

theorem mem_quoted (c : Char) (t : List Char)
    (h : c ∈ [DQUOTE] ++ escaped_text t ++ [DQUOTE]) :
    c = DQUOTE ∨ c = BACKSLASH ∨ c ∈ t := by
  rcases List.mem_append.mp h with h | h
  · rcases List.mem_append.mp h with h | h
    · exact Or.inl (List.mem_singleton.mp h)
    · exact Or.inr (mem_escaped_text _ _ h)
  · exact Or.inl (List.mem_singleton.mp h)

/-- The quoted literal of a text without parentheses holds no parenthesis. -/
theorem neutral_literal_plain (t : List Char) (h1 : '(' ∉ t) (h2 : ')' ∉ t) :
    Neutral false ([DQUOTE] ++ escaped_text t ++ [DQUOTE]) := by
  apply paren_scan_no_parens
  · intro h
    rcases mem_quoted _ _ h with h | h | h
    · exact absurd h (by decide)
    · exact absurd h (by decide)
    · exact h1 h
  · intro h
    rcases mem_quoted _ _ h with h | h | h
    · exact absurd h (by decide)
    · exact absurd h (by decide)
    · exact h2 h

theorem neutral_singleton (aware : Bool) (c : Char) (h1 : c ≠ '(') (h2 : c ≠ ')')
    (h3 : c ≠ DQUOTE) : Neutral aware [c] := by
  intro d
  simp [paren_scan, paren_step, h1, h2, h3]

theorem field_selector_small : ∀ part, part < 9 → ∀ excl aware : Bool,
    paren_scan aware (ScanMode.plain, 0) (field_selector excl part)
      = some (ScanMode.plain, 0) := by
  decide

theorem field_selector_large (excl : Bool) (part : Nat) (h : 8 ≤ part) :
    field_selector excl part = field_selector excl 8 := by
  have h1 : column_by_part part = none := by
    unfold column_by_part
    rw [List.getD_eq_default]
    simpa [column_table] using h
  have h2 : column_by_part 8 = none := by decide
  unfold field_selector
  rw [h1, h2]

theorem neutral_field_selector (aware excl : Bool) (part : Nat) :
    Neutral aware (field_selector excl part) := by
  apply neutral_of_zero
  by_cases h : part < 9
  · exact field_selector_small part h excl aware
  · rw [field_selector_large excl part (by omega)]
    exact field_selector_small 8 (by omega) excl aware

theorem neutral_child_separator (aware : Bool) (i : Nat) (op : SearchOp) :
    Neutral aware (child_separator { idx := i + 1, op := op }) := by
  unfold child_separator
  simp only [Nat.add_one_ne_zero, ↓reduceIte]
  split
  · exact neutral_singleton aware _ (by decide) (by decide) (by decide)
  · exact neutral_singleton aware _ (by decide) (by decide) (by decide)

theorem neutral_negation_marker (aware : Bool) (op : SearchOp) :
    Neutral aware (negation_marker op) := by
  unfold negation_marker
  split
  · exact neutral_singleton aware _ (by decide) (by decide) (by decide)
  · exact neutral_nil aware

theorem neutral_leaf_text (aware excl : Bool) (part : Nat) (str : Option (List Char))
    (h : aware = true ∨ ('(' ∉ match_text str ∧ ')' ∉ match_text str)) :
    Neutral aware (leaf_text excl part str) := by
  unfold leaf_text
  apply neutral_append _ _ _ (neutral_field_selector aware excl part)
  cases aware with
  | true => exact neutral_literal_aware _
  | false =>
    rcases h with h | h
    · cases h
    · exact neutral_literal_plain _ h.1 h.2

theorem scan_open_paren (aware : Bool) (d : Nat) :
    paren_scan aware (ScanMode.plain, d) ['('] = some (ScanMode.plain, d + 1) := by
  cases aware <;> simp [paren_scan, paren_step, DQUOTE]

theorem scan_close_paren (aware : Bool) (d : Nat) :
    paren_scan aware (ScanMode.plain, d + 1) [')'] = some (ScanMode.plain, d) := by
  cases aware <;> simp [paren_scan, paren_step, DQUOTE]

mutual
/-- The text of a tree leaves the scan where it was: with the literal-aware
scan always, with the plain scan when no match text holds a parenthesis. -/
theorem neutral_tree_text (aware excl : Bool) : ∀ (t : QTree),
    (aware = true ∨ ∀ s ∈ leaf_texts t, '(' ∉ s ∧ ')' ∉ s) →
    Neutral aware (tree_text excl t)
  | .leaf part str, h => by
    simp only [tree_text]
    apply neutral_leaf_text
    rcases h with h | h
    · exact Or.inl h
    · exact Or.inr (h _ (by simp [leaf_texts]))
  | .group op cs, h => by
    have hcs := scan_children_text aware excl op cs
      (by simpa [leaf_texts] using h) 0
    intro d
    simp only [tree_text]
    rw [paren_scan_append, paren_scan_append, neutral_negation_marker aware op d]
    simp only [Option.some_bind, hcs d]
    cases hc : cs.isEmpty
    · simpa using scan_close_paren aware d
    · simp [paren_scan]
/-- The scan of the children of a group: the first child opens the
parenthesis of the group. -/
theorem scan_children_text (aware excl : Bool) (op : SearchOp) : ∀ (ts : List QTree),
    (aware = true ∨ ∀ s ∈ leaf_texts_list ts, '(' ∉ s ∧ ')' ∉ s) →
    ∀ i d, paren_scan aware (ScanMode.plain, d) (children_text excl op i ts)
      = some (ScanMode.plain, if i = 0 ∧ ts.isEmpty = false then d + 1 else d)
  | [], _ => by
    intro i d
    simp [children_text, paren_scan]
  | t :: ts, h => by
    have ht := neutral_tree_text aware excl t
      (by rcases h with h | h
          · exact Or.inl h
          · exact Or.inr (fun s hs => h s (by simp [leaf_texts_list, hs])))
    have hts := scan_children_text aware excl op ts
      (by rcases h with h | h
          · exact Or.inl h
          · exact Or.inr (fun s hs => h s (by simp [leaf_texts_list, hs])))
    intro i d
    simp only [children_text]
    rw [paren_scan_append, paren_scan_append]
    cases i with
    | zero =>
      have hsep : child_separator { idx := 0, op := op } = ['('] := by simp [child_separator]
      rw [hsep, scan_open_paren]
      simp [ht (d + 1), hts 1 (d + 1)]
    | succ j =>
      rw [neutral_child_separator aware j op d]
      simp [ht d, hts (j + 1 + 1) d]
end

/-! ### C3 and C4 -/

theorem run_tree_query (excl : Bool) (mb : mailbox) (opts : search_opts) (t : QTree) :
    run excl t.calls (begin_search mb opts)
      = some { mailbox := mb, opts := opts, query := tree_text excl t, stack := [],
               nmatches := real_leaves t } := by
  rw [run_calls]
  simp [emit, begin_child, begin_search]

/-- C3 (amended): for every boolean tree and every choice of match texts,
feeding the tree to a fresh builder succeeds, leaves the operator stack
empty, and leaves a query whose parentheses outside the double-quoted match
literals are balanced; when no match text holds a parenthesis, the
parentheses of the whole string are balanced (no prefix has more `)` than
`(`, and there are as many `(` as `)`). -/
theorem compiled_query_balanced (excl : Bool) (mb : mailbox) (opts : search_opts)
    (t : QTree) :
    ∃ bb, run excl t.calls (begin_search mb opts) = some bb ∧ bb.stack = [] ∧
      balanced_outside_literals bb.query ∧
      ((∀ s ∈ leaf_texts t, '(' ∉ s ∧ ')' ∉ s) → balanced bb.query) := by
  refine ⟨_, run_tree_query excl mb opts t, rfl, ?_, ?_⟩
  · exact neutral_tree_text true excl t (Or.inl rfl) 0
  · intro h
    exact neutral_tree_text false excl t (Or.inr h) 0

/-- Witness of C3 (amended): an AND group holding a leaf, a NOT group and an
OR group, none of the texts with a parenthesis. -/
theorem compiled_query_balanced_witness :
    (run false (QTree.group SearchOp.AND
        [QTree.leaf 7 (some "x".toList),
         QTree.group SearchOp.NOT [QTree.leaf 0 (some [DQUOTE, 'b'])],
         QTree.group SearchOp.OR [QTree.leaf 1 none, QTree.leaf 5 (some "q".toList)]]).calls
      (begin_search ⟨[], 0, 0⟩ ⟨false, false, false, 0⟩)).isSome = true ∧
    balanced (tree_text false
      (QTree.group SearchOp.AND
        [QTree.leaf 7 (some "x".toList),
         QTree.group SearchOp.NOT [QTree.leaf 0 (some [DQUOTE, 'b'])],
         QTree.group SearchOp.OR [QTree.leaf 1 none, QTree.leaf 5 (some "q".toList)]])) := by
  refine ⟨by decide, ?_⟩
  obtain ⟨bb, hrun, _, _, hbal⟩ := compiled_query_balanced false ⟨[], 0, 0⟩ ⟨false, false, false, 0⟩
    (QTree.group SearchOp.AND
        [QTree.leaf 7 (some "x".toList),
         QTree.group SearchOp.NOT [QTree.leaf 0 (some [DQUOTE, 'b'])],
         QTree.group SearchOp.OR [QTree.leaf 1 none, QTree.leaf 5 (some "q".toList)]])
  rw [run_tree_query] at hrun
  cases hrun
  exact hbal (by decide)

/-- Counterexample to C3 as stated: the AND group with the single leaf
`body` matching the text `)` compiles to `(@body ")")`, which has one `(` and
two `)`. -/
theorem compiled_query_unbalanced :
    (run false (QTree.group SearchOp.AND [QTree.leaf 7 (some [')'])]).calls
        (begin_search ⟨['A'], 7, 3⟩ ⟨false, false, false, 0⟩)).map (fun bb => bb.query)
      = some ("(@body ".toList ++ [DQUOTE, ')', DQUOTE, ')']) ∧
    ¬ balanced ("(@body ".toList ++ [DQUOTE, ')', DQUOTE, ')']) := by
  constructor
  · decide
  · decide

/-- C4: every NOT group is immediately preceded by the negation marker.
For every builder state, operator and children, `begin_boolean` appends to
the query the child separator of the parent and then `!` exactly when the
operator is NOT (nothing for AND and OR); the rest of the group's calls then
succeed and append the text of the group, which is empty or starts with the
opening parenthesis of the group, so the `!` stands directly before it. -/
theorem not_group_marker (excl : Bool) (bb : sphinx_builder) (op : SearchOp)
    (cs : List QTree) :
    (begin_boolean bb op).query
      = bb.query ++ parent_separator bb ++ (if op = SearchOp.NOT then ['!'] else []) ∧
    ∃ bb1 body,
      run excl (QTree.callsList cs ++ [Call.end_boolean op]) (begin_boolean bb op) = some bb1 ∧
      run excl (QTree.group op cs).calls bb = some bb1 ∧
      bb1.query = (begin_boolean bb op).query ++ body ∧
      (body = [] ∨ body.head? = some '(') := by
  have hq : (begin_boolean bb op).query
      = bb.query ++ parent_separator bb ++ (if op = SearchOp.NOT then ['!'] else []) := by
    unfold begin_boolean begin_child parent_separator
    cases hs : bb.stack <;> by_cases hop : op = SearchOp.NOT <;> simp [hop]
  have hstk : (begin_boolean bb op).stack = { idx := 0, op := op } :: (begin_child bb).stack := by
    simp [begin_boolean]; split <;> rfl
  have hcs := run_callsList excl cs (begin_boolean bb op) _ _ hstk
  have hrest : run excl (QTree.callsList cs ++ [Call.end_boolean op]) (begin_boolean bb op)
      = some { after_children (begin_boolean bb op) { idx := 0, op := op } (begin_child bb).stack
                (children_text excl op 0 cs) cs.length (real_leaves_list cs) with
               query := (begin_boolean bb op).query
                  ++ (children_text excl op 0 cs ++ (if cs.isEmpty then [] else [')'])),
               stack := (begin_child bb).stack } := by
    rw [run_append, hcs]
    simp only [Option.some_bind, run, Call.apply, end_boolean, after_children]
    cases cs <;> simp [children_text]
  refine ⟨hq, _, children_text excl op 0 cs ++ (if cs.isEmpty then [] else [')']), hrest, ?_,
    rfl, ?_⟩
  · rw [QTree.calls, run]
    simp only [Call.apply]
    exact hrest
  · cases cs with
    | nil => left; simp [children_text]
    | cons c cs' => right; simp [children_text, child_separator]

/-! ## The search executor (C7, C8, C9) -/

theorem run_forest (excl : Bool) (ts : List QTree) (bb : sphinx_builder)
    (h : bb.stack = []) :
    ∃ bb1, run excl (QTree.callsList ts) bb = some bb1 ∧ bb1.stack = [] ∧
      bb1.nmatches = bb.nmatches + real_leaves_list ts ∧ bb1.opts = bb.opts ∧
      bb1.mailbox = bb.mailbox := by
  induction ts generalizing bb with
  | nil => exact ⟨bb, by simp [QTree.callsList, run], h, by simp [real_leaves_list], rfl, rfl⟩
  | cons t ts ih =>
    have hb : begin_child bb = bb := by simp [begin_child, h]
    obtain ⟨bb1, h1, h2, h3, h4, h5⟩ := ih (emit bb (tree_text excl t) (real_leaves t))
      (by simp [emit, h])
    refine ⟨bb1, ?_, h2, ?_, ?_, ?_⟩
    · rw [QTree.callsList, run_append, run_calls, hb]
      exact h1
    · rw [h3]; simp [emit, real_leaves_list, Nat.add_assoc]
    · rw [h4]; simp [emit]
    · rw [h5]; simp [emit]

/-- C7 (amended): a query built with zero real match leaves, whatever the
nesting of its groups, makes `end_search` invoke the hit callback zero times
and return `IMAP_TRIVIAL_SEARCH` when `SEARCH_DRYRUN` is not set; with
`SEARCH_DRYRUN` set it returns 0, again with no callback. -/
theorem trivial_search (E : imap_err) (W : search_world) (proc : HitProc) (fuel : Nat)
    (excl : Bool) (mb : mailbox) (opts : search_opts) (ts : List QTree)
    (h : real_leaves_list ts = 0) :
    ∃ bb, run excl (QTree.callsList ts) (begin_search mb opts) = some bb ∧
      end_search E W proc fuel bb
        = some (if opts.dryrun then 0 else E.IMAP_TRIVIAL_SEARCH, []) := by
  obtain ⟨bb, h1, _, h3, h4, _⟩ := run_forest excl ts (begin_search mb opts) rfl
  refine ⟨bb, h1, ?_⟩
  have hn : bb.nmatches = 0 := by rw [h3, h]; rfl
  have ho : bb.opts = opts := h4
  unfold end_search
  rw [ho, hn]
  cases opts.dryrun <;> simp

/-- Witness of C7 (amended): nested groups around two matches of the NULL
text, search not dry. -/
theorem trivial_search_witness :
    real_leaves_list [QTree.group SearchOp.AND
        [QTree.leaf 7 none, QTree.group SearchOp.NOT [QTree.leaf 0 none]]] = 0 ∧
    ∃ bb, run true (QTree.callsList [QTree.group SearchOp.AND
        [QTree.leaf 7 none, QTree.group SearchOp.NOT [QTree.leaf 0 none]]])
          (begin_search ⟨['A'], 7, 3⟩ ⟨false, true, false, 0⟩) = some bb ∧
      end_search ⟨-1, -2, -3⟩ ⟨(0, ['s']), true, some [], some []⟩ (fun _ _ => 0) 10 bb
        = some (if (search_opts.mk false true false 0).dryrun then 0
                else (imap_err.mk (-1) (-2) (-3)).IMAP_TRIVIAL_SEARCH, []) :=
  ⟨by decide, trivial_search _ _ _ _ _ _ _ _ (by decide)⟩

/-- Counterexample to C7 as stated: with `SEARCH_DRYRUN` set, a query with no
match leaf makes `end_search` return 0, not `IMAP_TRIVIAL_SEARCH`. -/
theorem trivial_search_dryrun :
    (run false (QTree.callsList [QTree.group SearchOp.AND [QTree.leaf 7 none]])
        (begin_search ⟨['A'], 7, 3⟩ ⟨true, false, false, 0⟩)).bind
      (end_search ⟨-1, -2, -3⟩ ⟨(0, ['s']), true, some [], some []⟩ (fun _ _ => 0) 10)
      = some (0, []) ∧
    (0 : Int) ≠ (imap_err.mk (-1) (-2) (-3)).IMAP_TRIVIAL_SEARCH := by
  constructor
  · decide
  · decide

/-! ### The row loop -/

theorem stops_at_cons_zero (proc : HitProc) (done kept : List Hit) (x : Hit) (r : Int)
    (hits : List Hit) (hx : proc done x = 0)
    (h : stops_at proc (done ++ [x]) kept r hits) :
    stops_at proc done (x :: kept) r hits := by
  rcases h with ⟨h1, h2, h3⟩ | ⟨h1, pre, y, rest, h2, h3, h4, h5⟩
  · refine Or.inl ⟨h1, by simp [h2], ?_⟩
    intro pre y rest hk
    cases pre with
    | nil =>
      simp only [List.nil_append, List.cons.injEq] at hk
      rw [← hk.1]; simpa using hx
    | cons p ps =>
      simp only [List.cons_append, List.cons.injEq] at hk
      have := h3 ps y rest hk.2
      rw [← hk.1]
      simpa using this
  · refine Or.inr ⟨h1, x :: pre, y, rest, by simp [h2], by simp [h3], by simpa using h4, ?_⟩
    intro p1 y1 r1 hk
    cases p1 with
    | nil =>
      simp only [List.nil_append, List.cons.injEq] at hk
      rw [← hk.1]; simpa using hx
    | cons p ps =>
      simp only [List.cons_append, List.cons.injEq] at hk
      have := h5 ps y1 r1 hk.2
      rw [← hk.1]
      simpa using this

theorem stops_at_cons_stop (proc : HitProc) (done kept : List Hit) (x : Hit)
    (hx : proc done x ≠ 0) :
    stops_at proc done (x :: kept) (proc done x) (done ++ [x]) := by
  refine Or.inr ⟨hx, [], x, kept, rfl, by simp, by simp, ?_⟩
  intro p1 h1 r1 hk
  simp at hk

theorem kept_rows_cons (bb : sphinx_builder) (row : List Char) (rows : List (List Char)) :
    kept_rows bb (row :: rows) =
      match parse_cyrusid row with
      | none => kept_rows bb rows
      | some h =>
        if (bb.opts.multiple ||
            (streq h.1 bb.mailbox.name && h.2.1 == bb.mailbox.uidvalidity)) = true
        then h :: kept_rows bb rows else kept_rows bb rows := by
  unfold kept_rows
  cases hp : parse_cyrusid row with
  | none => simp [List.filterMap_cons, hp]
  | some h =>
    simp only [List.filterMap_cons, hp, List.filter_cons]

theorem row_loop_stops_at (proc : HitProc) (bb : sphinx_builder) (rows : List (List Char))
    (done : List Hit) :
    stops_at proc done (kept_rows bb rows) (row_loop proc bb rows done).1
      (row_loop proc bb rows done).2 := by
  induction rows generalizing done with
  | nil =>
    refine Or.inl ⟨rfl, by simp [row_loop, kept_rows], ?_⟩
    intro pre h rest hk
    simp [kept_rows] at hk
  | cons row rows ih =>
    rw [kept_rows_cons]
    cases hp : parse_cyrusid row with
    | none =>
      simp only [row_loop, hp]
      exact ih done
    | some h =>
      obtain ⟨name, uv, uid⟩ := h
      simp only [row_loop, hp]
      by_cases hk : (bb.opts.multiple ||
          (streq name bb.mailbox.name && uv == bb.mailbox.uidvalidity)) = true
      · have hskip : (!bb.opts.multiple &&
            (!streq name bb.mailbox.name || uv != bb.mailbox.uidvalidity)) = false := by
          cases hm : bb.opts.multiple <;> cases hs : streq name bb.mailbox.name <;>
            cases hu : (uv == bb.mailbox.uidvalidity) <;> simp_all [bne]
        simp only [hskip, Bool.false_eq_true, ↓reduceIte, hk]
        by_cases hr : proc done (name, uv, uid) = 0
        · simp only [hr, ne_eq, not_true_eq_false, ↓reduceIte]
          exact stops_at_cons_zero proc done _ _ _ _ hr (ih _)
        · simp only [ne_eq, hr, not_false_eq_true, ↓reduceIte]
          exact stops_at_cons_stop proc done _ _ hr
      · have hskip : (!bb.opts.multiple &&
            (!streq name bb.mailbox.name || uv != bb.mailbox.uidvalidity)) = true := by
          cases hm : bb.opts.multiple <;> cases hs : streq name bb.mailbox.name <;>
            cases hu : (uv == bb.mailbox.uidvalidity) <;> simp_all [bne]
        simp only [hskip, ↓reduceIte, hk, Bool.false_eq_true]
        exact ih done

theorem get_connection_fresh (E : imap_err) (gs : Int × List Char) (name : List Char)
    (h : gs.1 = 0) :
    (get_connection E gs true name CONNECTION_INITIALIZER).1 = 0 := by
  simp [get_connection, h, CONNECTION_INITIALIZER]

/-- The row loop is reached: the part of `end_search` before it succeeds. -/
theorem end_search_reaches_rows (E : imap_err) (W : search_world) (proc : HitProc)
    (fuel : Nat) (bb : sphinx_builder) (keys : List (List Char))
    (hdry : bb.opts.dryrun = false) (hn : bb.nmatches ≠ 0)
    (hgs : W.getsock.1 = 0) (hco : W.connect_ok = true)
    (hl : bb.opts.unindexed = true → W.latest_rows.isSome = true)
    (hk : W.match_rows = some keys) :
    end_search E W proc fuel bb =
      if (row_loop proc bb keys []).1 ≠ 0 then some (row_loop proc bb keys [])
      else if bb.opts.unindexed then
        unindexed_loop proc bb.mailbox fuel
          ((latest_row_loop bb.mailbox.name 0 (W.latest_rows.getD []) + 1) % 2 ^ 32)
          (row_loop proc bb keys []).2
      else some (0, (row_loop proc bb keys []).2) := by
  unfold end_search
  simp only [hdry, Bool.false_eq_true, ↓reduceIte, hn, hco, get_connection_fresh E _ _ hgs,
    ne_eq, not_true_eq_false, hk]
  cases hu : bb.opts.unindexed with
  | false => simp
  | true =>
    have := hl hu
    cases hr : W.latest_rows with
    | none => rw [hr] at this; cases this
    | some rows => simp [read_latest_search]

/-- C9: row filtering in `end_search`.  When the row loop is reached (the
search is not a dry run, has a match leaf, the connection opens, the `latest`
query succeeds if it is made and the main query succeeds with the rows
`keys`), the callback invocations for those rows are, in row order, the
decoded keys of exactly the rows that parse and, unless `SEARCH_MULTIPLE` is
set, carry the name and the uidvalidity of the target mailbox; a key that
does not parse is skipped; the first non-zero callback result stops the
stream, is the result of `end_search`, and no further callback is made. -/
theorem row_filtering (E : imap_err) (W : search_world) (proc : HitProc)
    (fuel : Nat) (bb : sphinx_builder) (keys : List (List Char))
    (hdry : bb.opts.dryrun = false) (hn : bb.nmatches ≠ 0)
    (hgs : W.getsock.1 = 0) (hco : W.connect_ok = true)
    (hl : bb.opts.unindexed = true → W.latest_rows.isSome = true)
    (hk : W.match_rows = some keys) :
    stops_at proc [] (kept_rows bb keys) (row_loop proc bb keys []).1
      (row_loop proc bb keys []).2 ∧
    ((row_loop proc bb keys []).1 ≠ 0 →
      end_search E W proc fuel bb = some (row_loop proc bb keys [])) ∧
    (bb.opts.unindexed = false →
      end_search E W proc fuel bb = some (row_loop proc bb keys [])) := by
  have hreach := end_search_reaches_rows E W proc fuel bb keys hdry hn hgs hco hl hk
  refine ⟨row_loop_stops_at proc bb keys [], ?_, ?_⟩
  · intro hr
    rw [hreach, if_pos hr]
  · intro hu
    rw [hreach]
    by_cases hr : (row_loop proc bb keys []).1 ≠ 0
    · rw [if_pos hr]
    · rw [if_neg hr]
      simp only [hu, Bool.false_eq_true, ↓reduceIte]
      have h0 : (row_loop proc bb keys []).1 = 0 := by simpa using hr
      rw [← h0]

/-! ### The unindexed tail -/

theorem latest_row_loop_eq (name : List Char) (rows : List (List Char × List Char)) :
    latest_row_loop name 0 rows = latest_of name rows := by
  unfold latest_of
  induction rows with
  | nil => rfl
  | cons row rows ih =>
    simp only [latest_row_loop, List.find?_cons]
    cases h : streq name row.1 with
    | true => simp
    | false => simpa using ih

theorem latest_of_lt (name : List Char) (rows : List (List Char × List Char)) :
    latest_of name rows < 2 ^ 32 := by
  unfold latest_of
  split
  · exact Nat.mod_lt _ (by norm_num)
  · norm_num

theorem unindexed_hits_cons (mb : mailbox) (a m : Nat) (h : a ≤ m) :
    unindexed_hits mb a m = (mb.name, mb.uidvalidity, a) :: unindexed_hits mb (a + 1) m := by
  unfold unindexed_hits
  have e : m + 1 - a = (m + 1 - (a + 1)) + 1 := by omega
  rw [e, List.range'_succ]
  rfl

theorem unindexed_hits_nil (mb : mailbox) (a m : Nat) (h : m < a) :
    unindexed_hits mb a m = [] := by
  unfold unindexed_hits
  have e : m + 1 - a = 0 := by omega
  rw [e]; rfl

/-- With `last_uid = 2 ^ 32 - 1` the test `uid <= last_uid` never fails, so
the loop never ends with status 0. -/
theorem unindexed_loop_never_zero (proc : HitProc) (mb : mailbox)
    (hM : mb.last_uid = 2 ^ 32 - 1) (fuel : Nat) :
    ∀ uid hits0 hits, uid < 2 ^ 32 →
      unindexed_loop proc mb fuel uid hits0 ≠ some (0, hits) := by
  induction fuel with
  | zero => intro uid hits0 hits _ h; simp [unindexed_loop] at h
  | succ f ih =>
    intro uid hits0 hits hu h
    have hle : uid ≤ mb.last_uid := by omega
    simp only [unindexed_loop, hle, ↓reduceIte] at h
    by_cases hr : proc hits0 (mb.name, mb.uidvalidity, uid) = 0
    · simp only [hr, ne_eq, not_true_eq_false, ↓reduceIte] at h
      exact ih _ _ _ (Nat.mod_lt _ (by norm_num)) h
    · simp only [ne_eq, hr, not_false_eq_true, ↓reduceIte, Option.some.injEq,
        Prod.mk.injEq] at h
      exact h.1

theorem unindexed_loop_spec (proc : HitProc) (mb : mailbox) (hM : mb.last_uid < 2 ^ 32)
    (fuel : Nat) :
    ∀ uid hits0 hits, unindexed_loop proc mb fuel uid hits0 = some (0, hits) →
      hits = hits0 ++ unindexed_hits mb uid mb.last_uid := by
  induction fuel with
  | zero => intro uid hits0 hits h; simp [unindexed_loop] at h
  | succ f ih =>
    intro uid hits0 hits h
    by_cases hle : uid ≤ mb.last_uid
    · simp only [unindexed_loop, hle, ↓reduceIte] at h
      by_cases hr : proc hits0 (mb.name, mb.uidvalidity, uid) = 0
      · simp only [hr, ne_eq, not_true_eq_false, ↓reduceIte] at h
        by_cases hw : uid + 1 < 2 ^ 32
        · rw [Nat.mod_eq_of_lt hw] at h
          rw [ih _ _ _ h, unindexed_hits_cons mb uid _ hle]
          simp
        · exfalso
          exact unindexed_loop_never_zero proc mb (by omega) f _ _ _
            (Nat.mod_lt _ (by norm_num)) h
      · simp only [ne_eq, hr, not_false_eq_true, ↓reduceIte, Option.some.injEq,
          Prod.mk.injEq] at h
        exact h.1.elim
    · simp only [unindexed_loop, hle, ↓reduceIte, Option.some.injEq, Prod.mk.injEq,
        true_and] at h
      rw [unindexed_hits_nil mb uid _ (by omega), ← h]
      simp

theorem unindexed_loop_total (proc : HitProc) (mb : mailbox) (hM : mb.last_uid < 2 ^ 32 - 1)
    (fuel : Nat) :
    ∀ uid hits0, mb.last_uid + 1 < fuel + uid → 0 < fuel →
      (unindexed_loop proc mb fuel uid hits0).isSome = true := by
  induction fuel with
  | zero => intro uid hits0 _ h; omega
  | succ f ih =>
    intro uid hits0 h1 _
    by_cases hle : uid ≤ mb.last_uid
    · simp only [unindexed_loop, hle, ↓reduceIte]
      by_cases hr : proc hits0 (mb.name, mb.uidvalidity, uid) = 0
      · simp only [hr, ne_eq, not_true_eq_false, ↓reduceIte]
        rw [Nat.mod_eq_of_lt (by omega)]
        exact ih _ _ (by omega) (by omega)
      · simp [hr]
    · simp [unindexed_loop, hle]

theorem end_search_total (E : imap_err) (W : search_world) (proc : HitProc)
    (bb : sphinx_builder) (hM : bb.mailbox.last_uid < 2 ^ 32 - 1) (fuel : Nat)
    (hf : bb.mailbox.last_uid + 2 ≤ fuel) :
    (end_search E W proc fuel bb).isSome = true := by
  have hloop : ∀ uid hits0, (unindexed_loop proc bb.mailbox fuel uid hits0).isSome = true :=
    fun uid hits0 => unindexed_loop_total proc _ hM fuel uid hits0 (by omega) (by omega)
  unfold end_search
  by_cases hdry : bb.opts.dryrun = true
  · simp [hdry]
  · by_cases hn : bb.nmatches = 0
    · simp [hdry, hn]
    · simp only [hdry, Bool.false_eq_true, ↓reduceIte, hn]
      by_cases hc : (get_connection E W.getsock W.connect_ok bb.mailbox.name
          CONNECTION_INITIALIZER).1 = 0
      · simp only [hc, ne_eq, not_true_eq_false, ↓reduceIte]
        generalize (if bb.opts.unindexed = true then read_latest_search E W.latest_rows bb 0
            else (0, 0)) = l
        by_cases hl : l.1 = 0
        · simp only [hl, ne_eq, not_true_eq_false, ↓reduceIte]
          cases W.match_rows with
          | none => rfl
          | some rows =>
            simp only
            by_cases hr : (row_loop proc bb rows []).1 = 0
            · simp only [hr, ne_eq, not_true_eq_false, ↓reduceIte]
              cases bb.opts.unindexed
              · rfl
              · simp only [↓reduceIte]
                exact hloop _ _
            · simp [hr]
        · simp [hl]
      · simp [hc]

theorem unindexed_hits_mem (mb : mailbox) (a m u : Nat) (h1 : a ≤ u) (h2 : u ≤ m) :
    (mb.name, mb.uidvalidity, u) ∈ unindexed_hits mb a m := by
  unfold unindexed_hits
  simp only [List.mem_map, List.mem_range'_1]
  exact ⟨u, ⟨h1, by omega⟩, rfl⟩

theorem unindexed_hits_ascending (mb : mailbox) (a m : Nat) :
    (unindexed_hits mb a m).Pairwise (fun x y => x.2.2 < y.2.2) := by
  unfold unindexed_hits
  rw [List.pairwise_map]
  exact List.pairwise_lt_range' a _

/-- Witness of C9: the sample daemon's five rows, of which the rows for uid 1
and uid 3 of the target mailbox are kept, the callback stopping at uid 3. -/
theorem row_filtering_witness :
    end_search sample_err sample_world sample_proc 10
        (sample_builder ⟨false, false, false, 0⟩)
      = some (5, [(['A'], 7, 1), (['A'], 7, 3)]) ∧
    kept_rows (sample_builder ⟨false, false, false, 0⟩)
        ["A.7.1".toList, "A.8.2".toList, "junk".toList, "B.7.1".toList, "A.7.3".toList]
      = [(['A'], 7, 1), (['A'], 7, 3)] := by
  have h := row_filtering sample_err sample_world sample_proc 10
    (sample_builder ⟨false, false, false, 0⟩)
    ["A.7.1".toList, "A.8.2".toList, "junk".toList, "B.7.1".toList, "A.7.3".toList]
    (by decide) (by decide) (by decide) (by decide) (by decide) (by decide)
  refine ⟨?_, by decide⟩
  rw [h.2.2 (by decide)]
  decide

/-- C8 (amended): a search with `SEARCH_UNINDEXED` set and `SEARCH_DRYRUN`
not set, over a mailbox whose `latest` row holds `L` (0 when no row has the
mailbox name) and whose last assigned uid is `M`.  Every run of `end_search`
that returns success has invoked the hit callback first for the kept rows of
the daemon and then with (mailbox name, mailbox uidvalidity, `u`) once for
every `u` from `L + 1` (computed in `uint32_t`) to `M`, in ascending order;
so every `u` in `[L + 1, M]` is reported.  For `M < 2 ^ 32 - 1` the run
returns when given enough fuel. -/
theorem unindexed_tail (E : imap_err) (W : search_world) (proc : HitProc)
    (bb : sphinx_builder)
    (hE1 : E.IMAP_IOERROR ≠ 0) (hE2 : E.IMAP_TRIVIAL_SEARCH ≠ 0)
    (hdry : bb.opts.dryrun = false) (hun : bb.opts.unindexed = true)
    (hM : bb.mailbox.last_uid < 2 ^ 32) :
    (∀ fuel hits, end_search E W proc fuel bb = some (0, hits) →
      ∃ rows keys, W.latest_rows = some rows ∧ W.match_rows = some keys ∧
        hits = kept_rows bb keys ++
          unindexed_hits bb.mailbox ((latest_of bb.mailbox.name rows + 1) % 2 ^ 32)
            bb.mailbox.last_uid ∧
        (∀ u, latest_of bb.mailbox.name rows + 1 ≤ u → u ≤ bb.mailbox.last_uid →
          (bb.mailbox.name, bb.mailbox.uidvalidity, u) ∈
            unindexed_hits bb.mailbox ((latest_of bb.mailbox.name rows + 1) % 2 ^ 32)
              bb.mailbox.last_uid) ∧
        (unindexed_hits bb.mailbox ((latest_of bb.mailbox.name rows + 1) % 2 ^ 32)
            bb.mailbox.last_uid).Pairwise (fun x y => x.2.2 < y.2.2)) ∧
    (bb.mailbox.last_uid < 2 ^ 32 - 1 → ∀ fuel, bb.mailbox.last_uid + 2 ≤ fuel →
      (end_search E W proc fuel bb).isSome = true) := by
  refine ⟨?_, fun hlt fuel hf => end_search_total E W proc bb hlt fuel hf⟩
  intro fuel hits h
  unfold end_search at h
  simp only [hdry, Bool.false_eq_true, ↓reduceIte, hun] at h
  by_cases hn : bb.nmatches = 0
  · simp only [hn, ↓reduceIte, Option.some.injEq, Prod.mk.injEq] at h
    exact absurd h.1 hE2
  simp only [hn, ↓reduceIte] at h
  by_cases hc : (get_connection E W.getsock W.connect_ok bb.mailbox.name
      CONNECTION_INITIALIZER).1 = 0
  swap
  · simp only [ne_eq, hc, not_false_eq_true, ↓reduceIte, Option.some.injEq,
      Prod.mk.injEq] at h
    exact h.1.elim
  simp only [hc, ne_eq, not_true_eq_false, ↓reduceIte] at h
  cases hrows : W.latest_rows with
  | none =>
    simp only [hrows, read_latest_search, hE1, not_false_eq_true, ↓reduceIte,
      Option.some.injEq, Prod.mk.injEq] at h
    exact h.1.elim
  | some rows =>
    simp only [hrows, read_latest_search, not_true_eq_false, ↓reduceIte] at h
    cases hkeys : W.match_rows with
    | none =>
      simp only [hkeys, Option.some.injEq, Prod.mk.injEq] at h
      exact absurd h.1 hE1
    | some keys =>
      simp only [hkeys] at h
      by_cases hr : (row_loop proc bb keys []).1 = 0
      swap
      · simp only [hr, not_false_eq_true, ↓reduceIte, Option.some.injEq] at h
        rw [h] at hr
        exact absurd rfl hr
      simp only [hr, not_true_eq_false, ↓reduceIte, latest_row_loop_eq] at h
      have hkept : (row_loop proc bb keys []).2 = kept_rows bb keys := by
        rcases row_loop_stops_at proc bb keys [] with ⟨_, h2, _⟩ | ⟨h1, _⟩
        · simpa using h2
        · exact absurd hr h1
      refine ⟨rows, keys, rfl, rfl, ?_, ?_, unindexed_hits_ascending _ _ _⟩
      · rw [unindexed_loop_spec proc bb.mailbox hM fuel _ _ _ h, hkept]
      · intro u hu1 hu2
        have hL := latest_of_lt bb.mailbox.name rows
        rw [Nat.mod_eq_of_lt (by omega)]
        exact unindexed_hits_mem _ _ _ _ hu1 hu2

/-- Witness of C8 (amended): the sample daemon, whose `latest` row for `A`
holds 1, and the mailbox `A` with last uid 3: after the kept rows for uid 1
and uid 3 come the hits for uid 2 and uid 3. -/
theorem unindexed_tail_witness :
    end_search sample_err sample_world (fun _ _ => 0) 10
        (sample_builder ⟨false, true, false, 0⟩)
      = some (0, [(['A'], 7, 1), (['A'], 7, 3), (['A'], 7, 2), (['A'], 7, 3)]) ∧
    (∃ rows keys, sample_world.latest_rows = some rows ∧ sample_world.match_rows = some keys ∧
      [(['A'], 7, 1), (['A'], 7, 3), (['A'], 7, 2), (['A'], 7, 3)]
        = kept_rows (sample_builder ⟨false, true, false, 0⟩) keys ++
          unindexed_hits sample_mailbox ((latest_of ['A'] rows + 1) % 2 ^ 32) 3) := by
  have hrun : end_search sample_err sample_world (fun _ _ => 0) 10
        (sample_builder ⟨false, true, false, 0⟩)
      = some (0, [(['A'], 7, 1), (['A'], 7, 3), (['A'], 7, 2), (['A'], 7, 3)]) := by decide
  obtain ⟨rows, keys, h1, h2, h3, _⟩ :=
    (unindexed_tail sample_err sample_world (fun _ _ => 0)
      (sample_builder ⟨false, true, false, 0⟩)
      (by decide) (by decide) (by decide) (by decide) (by decide)).1 10 _ hrun
  exact ⟨hrun, rows, keys, h1, h2, h3⟩

/-- Counterexample to C8 as stated: with `SEARCH_DRYRUN` set together with
`SEARCH_UNINDEXED`, `end_search` returns success without invoking the
callback, although uid 2 and uid 3 lie in `[L + 1, M]` for `L = 1`, `M = 3`. -/
theorem unindexed_tail_dryrun :
    end_search sample_err sample_world (fun _ _ => 0) 10
        (sample_builder ⟨true, true, false, 0⟩) = some (0, []) ∧
    latest_of sample_mailbox.name [("B".toList, "9".toList), ("A".toList, "1".toList)] = 1 ∧
    sample_mailbox.last_uid = 3 ∧
    (sample_mailbox.name, sample_mailbox.uidvalidity, 2) ∉ ([] : List Hit) := by
  refine ⟨by decide, by decide, by decide, by simp⟩

/-! ## The indexing receiver (C10) -/

theorem write_latest_frame (E : imap_err) (ok : Bool) (tr tr1 : sphinx_receiver) (r : Int)
    (ev : List Event) (h : write_latest E ok tr = some (r, tr1, ev)) :
    tr1.latest = tr.latest ∧ tr1.uid = tr.uid := by
  unfold write_latest at h
  simp only at h
  split at h
  · simp only [Option.some.injEq, Prod.mk.injEq] at h
    obtain ⟨_, rfl, _⟩ := h
    cases ok <;> simp
  · split at h
    · cases h
    · simp only [Option.some.injEq, Prod.mk.injEq] at h
      obtain ⟨_, rfl, _⟩ := h
      cases ok <;> simp

theorem flush_frame (E : imap_err) (upd_ok commit_ok force : Bool) (tr tr1 : sphinx_receiver)
    (r : Int) (ev : List Event) (h : flush E upd_ok commit_ok force tr = some (r, tr1, ev)) :
    tr1.latest = tr.latest ∧ tr1.uid = tr.uid := by
  unfold flush at h
  split at h
  · simp only [Option.some.injEq, Prod.mk.injEq] at h
    obtain ⟨_, rfl, _⟩ := h
    exact ⟨rfl, rfl⟩
  · simp only at h
    have hw : ∀ r0 t0 e0,
        (if tr.uncommitted ≠ 0 then write_latest E upd_ok tr else some (0, tr, []))
          = some (r0, t0, e0) → t0.latest = tr.latest ∧ t0.uid = tr.uid := by
      intro r0 t0 e0 h0
      split at h0
      · exact write_latest_frame E upd_ok tr t0 r0 e0 h0
      · simp only [Option.some.injEq, Prod.mk.injEq] at h0
        obtain ⟨_, rfl, _⟩ := h0
        exact ⟨rfl, rfl⟩
    cases hwr : (if tr.uncommitted ≠ 0 then write_latest E upd_ok tr else some (0, tr, [])) with
    | none => rw [hwr] at h; cases h
    | some res =>
      obtain ⟨r0, t0, e0⟩ := res
      have h0 := hw r0 t0 e0 hwr
      rw [hwr] at h
      simp only at h
      split at h
      · simp only [Option.some.injEq, Prod.mk.injEq] at h
        obtain ⟨_, rfl, _⟩ := h
        exact h0
      · split at h
        · simp only [Option.some.injEq, Prod.mk.injEq] at h
          obtain ⟨_, rfl, _⟩ := h
          exact h0
        · split at h
          · cases h
          · simp only [Option.some.injEq, Prod.mk.injEq] at h
            obtain ⟨_, rfl, _⟩ := h
            exact h0

theorem end_message_u32 (E : imap_err) (ins_ok upd_ok commit_ok : Bool)
    (tr tr1 : sphinx_receiver) (r : Int) (ev : List Event) (hinv : u32_fields tr)
    (h : end_message E ins_ok upd_ok commit_ok tr = some (r, tr1, ev)) :
    u32_fields tr1 := by
  unfold end_message at h
  split at h
  · simp only [Option.some.injEq, Prod.mk.injEq] at h
    obtain ⟨_, rfl, _⟩ := h
    exact hinv
  · split at h
    · cases h
    · simp only at h
      split at h
      · simp only [Option.some.injEq, Prod.mk.injEq] at h
        obtain ⟨_, rfl, _⟩ := h
        exact ⟨hinv.1, by norm_num⟩
      · split at h
        · cases h
        · rename_i r3 tr3 ev3 hfl
          simp only [Option.some.injEq, Prod.mk.injEq] at h
          obtain ⟨_, rfl, _⟩ := h
          have hf := flush_frame E upd_ok commit_ok false _ tr3 r3 ev3 hfl
          refine ⟨?_, by norm_num⟩
          show tr3.latest < 2 ^ 32
          rw [hf.1]
          exact hinv.2

theorem read_latest_loop_lt (name : List Char)
    (rows : List (List Char × List Char × List Char)) :
    (read_latest_loop name rows).2 < 2 ^ 32 := by
  induction rows with
  | nil => simp [read_latest_loop]
  | cons row rows ih =>
    simp only [read_latest_loop]
    split
    · exact Nat.mod_lt _ (by norm_num)
    · exact ih

theorem read_latest_u32 (E : imap_err)
    (rows : Option (List (List Char × List Char × List Char)))
    (maxid : Option (Option (List Char))) (tr tr1 : sphinx_receiver) (r : Int)
    (ev : List Event) (h : read_latest E rows maxid tr = some (r, tr1, ev)) :
    tr1.latest < 2 ^ 32 ∧ tr1.uid = tr.uid := by
  unfold read_latest at h
  split at h
  · cases h
  · rename_i mb _
    simp only at h
    cases rows with
    | none =>
      simp only [Option.some.injEq, Prod.mk.injEq] at h
      obtain ⟨_, rfl, _⟩ := h
      exact ⟨by norm_num, rfl⟩
    | some rs =>
      have hl := read_latest_loop_lt mb.name rs
      cases maxid with
      | none =>
        simp only [Option.some.injEq, Prod.mk.injEq] at h
        obtain ⟨_, rfl, _⟩ := h
        exact ⟨hl, rfl⟩
      | some m =>
        cases m with
        | none =>
          simp only [Option.some.injEq, Prod.mk.injEq] at h
          obtain ⟨_, rfl, _⟩ := h
          exact ⟨hl, rfl⟩
        | some v =>
          simp only [Option.some.injEq, Prod.mk.injEq] at h
          obtain ⟨_, rfl, _⟩ := h
          exact ⟨hl, rfl⟩

theorem read_lastid_frame (E : imap_err) (maxid : Option (Option (List Char)))
    (tr : sphinx_receiver) :
    (read_lastid E maxid tr).2.1.latest = tr.latest ∧
    (read_lastid E maxid tr).2.1.uid = tr.uid := by
  unfold read_lastid
  cases maxid with
  | none => exact ⟨rfl, rfl⟩
  | some m => cases m <;> exact ⟨rfl, rfl⟩

theorem begin_mailbox_u32 (E : imap_err) (gs : Int × List Char) (connect_ok : Bool)
    (lastid : Option (Option (List Char)))
    (rows : Option (List (List Char × List Char × List Char)))
    (maxid : Option (Option (List Char))) (tr tr1 : sphinx_receiver) (mb : mailbox)
    (r : Int) (ev : List Event) (hinv : u32_fields tr)
    (h : begin_mailbox E gs connect_ok lastid rows maxid tr mb = some (r, tr1, ev)) :
    u32_fields tr1 := by
  unfold begin_mailbox at h
  simp only at h
  split at h
  · simp only [Option.some.injEq, Prod.mk.injEq] at h
    obtain ⟨_, rfl, _⟩ := h
    exact hinv
  · split at h
    · simp only [Option.some.injEq, Prod.mk.injEq] at h
      obtain ⟨_, rfl, _⟩ := h
      have hf := read_lastid_frame E lastid
        { tr with conn := (get_connection E gs connect_ok mb.name tr.conn).2.1,
                  mailbox := some mb }
      exact ⟨by rw [hf.1]; exact hinv.1, by rw [hf.2]; exact hinv.2⟩
    · split at h
      · cases h
      · rename_i r2 tr2 ev2 hrl
        simp only [Option.some.injEq, Prod.mk.injEq] at h
        obtain ⟨_, rfl, _⟩ := h
        have hf := read_lastid_frame E lastid
          { tr with conn := (get_connection E gs connect_ok mb.name tr.conn).2.1,
                    mailbox := some mb }
        have h2 := read_latest_u32 E rows maxid _ tr2 r2 ev2 hrl
        exact ⟨h2.1, by rw [h2.2, hf.2]; exact hinv.2⟩

theorem append_text_frame (tr tr1 : sphinx_receiver) (text : List Char) (ev : List Event)
    (h : append_text tr text = some (tr1, ev)) :
    tr1.latest = tr.latest ∧ tr1.uid = tr.uid := by
  unfold append_text at h
  split at h
  · simp only at h
    have key : ∀ (b : Bool) (n : Nat) (t : sphinx_receiver),
        t = (if b = true then { tr with truncate_warning := tr.truncate_warning + 1 } else tr) →
        (if n ≠ 0 then
            { t with parts_total := (t.parts_total + n) % 2 ^ 32,
                     parts := t.parts.modify (fun b => b ++ text.take n) t.part }
          else t).latest = tr.latest ∧
        (if n ≠ 0 then
            { t with parts_total := (t.parts_total + n) % 2 ^ 32,
                     parts := t.parts.modify (fun b => b ++ text.take n) t.part }
          else t).uid = tr.uid := by
      intro b n t ht
      subst ht
      cases b <;> by_cases hn : n = 0 <;> simp [hn]
    split at h
    · split at h
      · cases h
      · simp only [Option.some.injEq, Prod.mk.injEq] at h
        obtain ⟨rfl, _⟩ := h
        exact key _ _ _ rfl
    · simp only [Option.some.injEq, Prod.mk.injEq] at h
      obtain ⟨rfl, _⟩ := h
      exact key _ _ _ rfl
  · simp only [Option.some.injEq, Prod.mk.injEq] at h
    obtain ⟨rfl, _⟩ := h
    exact ⟨rfl, rfl⟩

theorem end_mailbox_frame (E : imap_err) (upd_ok commit_ok : Bool) (tr tr1 : sphinx_receiver)
    (r : Int) (ev : List Event) (h : end_mailbox E upd_ok commit_ok tr = some (r, tr1, ev)) :
    tr1.latest = tr.latest ∧ tr1.uid = tr.uid := by
  unfold end_mailbox at h
  split at h
  · split at h
    · cases h
    · rename_i r2 tr2 ev2 hfl
      simp only [Option.some.injEq, Prod.mk.injEq] at h
      obtain ⟨_, rfl, _⟩ := h
      exact flush_frame E upd_ok commit_ok true tr tr2 r2 ev2 hfl
  · simp only [Option.some.injEq, Prod.mk.injEq] at h
    obtain ⟨_, rfl, _⟩ := h
    exact ⟨rfl, rfl⟩

theorem apply_u32 (E : imap_err) (c : RxCall) (hc : c.fits = true) (tr tr1 : sphinx_receiver)
    (ev : List Event) (hinv : u32_fields tr) (h : c.apply E tr = some (tr1, ev)) :
    u32_fields tr1 := by
  cases c with
  | begin_mailbox gs connect_ok lastid rows maxid mb =>
    simp only [RxCall.apply, Option.map_eq_some'] at h
    obtain ⟨⟨r, t, e⟩, h1, h2⟩ := h
    simp only [Prod.mk.injEq] at h2
    obtain ⟨rfl, rfl⟩ := h2
    exact begin_mailbox_u32 E gs connect_ok lastid rows maxid tr _ mb r _ hinv h1
  | begin_message uid =>
    simp only [RxCall.apply, Option.some.injEq, Prod.mk.injEq] at h
    obtain ⟨rfl, _⟩ := h
    simp only [RxCall.fits, decide_eq_true_eq] at hc
    exact ⟨hinv.1, hc⟩
  | begin_part part =>
    simp only [RxCall.apply, Option.some.injEq, Prod.mk.injEq] at h
    obtain ⟨rfl, _⟩ := h
    exact hinv
  | append_text text =>
    simp only [RxCall.apply] at h
    have hf := append_text_frame tr tr1 text ev h
    exact ⟨by rw [hf.1]; exact hinv.1, by rw [hf.2]; exact hinv.2⟩
  | end_part part =>
    simp only [RxCall.apply, Option.some.injEq, Prod.mk.injEq] at h
    obtain ⟨rfl, _⟩ := h
    exact hinv
  | end_message ins_ok upd_ok commit_ok =>
    simp only [RxCall.apply, Option.map_eq_some'] at h
    obtain ⟨⟨r, t, e⟩, h1, h2⟩ := h
    simp only [Prod.mk.injEq] at h2
    obtain ⟨rfl, rfl⟩ := h2
    exact end_message_u32 E ins_ok upd_ok commit_ok tr _ r _ hinv h1
  | end_mailbox upd_ok commit_ok =>
    simp only [RxCall.apply, Option.map_eq_some'] at h
    obtain ⟨⟨r, t, e⟩, h1, h2⟩ := h
    simp only [Prod.mk.injEq] at h2
    obtain ⟨rfl, rfl⟩ := h2
    have hf := end_mailbox_frame E upd_ok commit_ok tr _ r _ h1
    exact ⟨by rw [hf.1]; exact hinv.1, by rw [hf.2]; exact hinv.2⟩

theorem rx_run_u32 (E : imap_err) (calls : List RxCall) (hfit : ∀ c ∈ calls, c.fits = true)
    (tr : sphinx_receiver) (hinv : u32_fields tr) :
    u32_fields (rx_run E calls tr).1 := by
  induction calls generalizing tr with
  | nil => exact hinv
  | cons c cs ih =>
    simp only [rx_run]
    cases h : c.apply E tr with
    | none => exact hinv
    | some res =>
      obtain ⟨tr1, ev⟩ := res
      simp only
      exact ih (fun x hx => hfit x (List.mem_cons_of_mem _ hx)) tr1
        (apply_u32 E c (hfit c (List.mem_cons_self _ _)) tr tr1 ev hinv h)

/-- C10: in every receiver state reached from a fresh receiver by receiver
calls (`end_message` among them) whose arguments are 32-bit values, and for
every uid `s` (the 32-bit ones in particular), `is_indexed(s)` holds exactly when
`s <= first_unindexed_uid() - 1`, with `first_unindexed_uid()` being
`latest + 1` and the subtraction both computed in `uint32_t` arithmetic; the
state `latest = 2 ^ 32 - 1` is included. -/
theorem is_indexed_iff (E : imap_err) (verbose : Nat) (calls : List RxCall)
    (hfit : ∀ c ∈ calls, c.fits = true) (s : Nat) :
    is_indexed (rx_run E calls (begin_update verbose)).1 s = true ↔
      s ≤ (first_unindexed_uid (rx_run E calls (begin_update verbose)).1 + 2 ^ 32 - 1)
            % 2 ^ 32 := by
  have hinv := rx_run_u32 E calls hfit (begin_update verbose)
    ⟨by simp [begin_update], by simp [begin_update]⟩
  generalize (rx_run E calls (begin_update verbose)).1 = tr at hinv
  have hl := hinv.1
  unfold is_indexed first_unindexed_uid
  simp only [decide_eq_true_eq]
  by_cases hmax : tr.latest = 2 ^ 32 - 1
  · rw [hmax]
    norm_num
  · have h1 : (tr.latest + 1) % 2 ^ 32 = tr.latest + 1 := Nat.mod_eq_of_lt (by omega)
    rw [h1]
    have h2 : (tr.latest + 1 + 2 ^ 32 - 1) % 2 ^ 32 = tr.latest := by
      have : tr.latest + 1 + 2 ^ 32 - 1 = tr.latest + 2 ^ 32 := by omega
      rw [this, Nat.add_mod_right]
      exact Nat.mod_eq_of_lt hl
    rw [h2]

/-- Witness of C10: after the sample session `latest` is `2 ^ 32 - 1`, where
`first_unindexed_uid()` wraps to 0, and uid 5 is indexed. -/
theorem is_indexed_iff_witness :
    (∀ c ∈ sample_session, c.fits = true) ∧
    (rx_run sample_err sample_session (begin_update 0)).1.latest = 2 ^ 32 - 1 ∧
    first_unindexed_uid (rx_run sample_err sample_session (begin_update 0)).1 = 0 ∧
    (is_indexed (rx_run sample_err sample_session (begin_update 0)).1 5 = true ↔
      5 ≤ (first_unindexed_uid (rx_run sample_err sample_session (begin_update 0)).1
            + 2 ^ 32 - 1) % 2 ^ 32) :=
  ⟨by decide, by decide, by decide,
    is_indexed_iff sample_err 0 sample_session (by decide) 5⟩

/-! ## The query builder, continued (C18, C19, C20) -/

theorem child_separator_succ (i : Nat) (op : SearchOp) (h : op ≠ SearchOp.NOT) :
    child_separator { idx := i + 1, op := op } = render_sep op := by
  cases op
  · rfl
  · rfl
  · exact absurd rfl h

mutual
/-- The text the push-down builder writes for a tree is its rendering, when
every NOT group has at most one child. -/
theorem tree_text_eq_render (excl : Bool) : ∀ (t : QTree), unary_not t = true →
    tree_text excl t = render excl t
  | .leaf part str, _ => by
    simp [tree_text, render, leaf_text]
  | .group op cs, h => by
    simp only [unary_not, Bool.and_eq_true, Bool.or_eq_true, decide_eq_true_eq] at h
    have hcs := children_text_eq_render excl op cs h.2 0
      (by intro hop; rcases h.1 with h1 | h1
          · exact absurd hop h1
          · simpa using h1)
    simp only [tree_text, hcs, render_from, ↓reduceIte]
    cases cs with
    | nil => simp [render]
    | cons c rest => simp [render]
/-- The text of the children of a group is their rendering. -/
theorem children_text_eq_render (excl : Bool) (op : SearchOp) : ∀ (cs : List QTree),
    unary_not_list cs = true → ∀ i,
    (op = SearchOp.NOT → cs.length + (if i = 0 then 0 else 1) ≤ 1) →
    children_text excl op i cs = render_from excl op i cs
  | [], _, i, _ => by
    simp [children_text, render_from, render_rest]
  | c :: rest, h, i, hn => by
    simp only [unary_not_list, Bool.and_eq_true] at h
    have hc := tree_text_eq_render excl c h.1
    have hrest := children_text_eq_render excl op rest h.2 (i + 1)
      (by intro hop
          have h1 := hn hop
          simp only [List.length_cons] at h1
          have h2 : rest.length = 0 := by split at h1 <;> omega
          simp [h2])
    simp only [children_text, hc, hrest, render_from, Nat.add_one_ne_zero, ↓reduceIte]
    cases i with
    | zero => simp [child_separator]
    | succ j =>
      have hop : op ≠ SearchOp.NOT := by
        intro hop
        have := hn hop
        simp at this
      simp [render_rest, child_separator_succ j op hop]
end

/-- C18: the push-down compiler equals the recursive rendering of the tree.
For every boolean tree whose NOT groups have at most one child, the call
sequence of the tree run on a fresh builder succeeds, the query it builds is
`render` of the tree, and the operator stack is empty again (depth 0). -/
theorem compiler_refines_render (excl : Bool) (mb : mailbox) (opts : search_opts)
    (t : QTree) (h : unary_not t = true) :
    ∃ bb, run excl t.calls (begin_search mb opts) = some bb ∧
      bb.query = render excl t ∧ bb.stack.length = 0 := by
  refine ⟨_, run_tree_query excl mb opts t, ?_, rfl⟩
  exact tree_text_eq_render excl t h

/-- Witness of C18: an AND group of a leaf, a NOT group with one child and an
empty OR group. -/
theorem compiler_refines_render_witness :
    unary_not (QTree.group SearchOp.AND
      [QTree.leaf 7 (some ['x']), QTree.group SearchOp.NOT [QTree.leaf 1 none],
       QTree.group SearchOp.OR []]) = true ∧
    ∃ bb, run false (QTree.group SearchOp.AND
        [QTree.leaf 7 (some ['x']), QTree.group SearchOp.NOT [QTree.leaf 1 none],
         QTree.group SearchOp.OR []]).calls
        (begin_search sample_mailbox ⟨false, false, false, 0⟩) = some bb ∧
      bb.query = render false (QTree.group SearchOp.AND
        [QTree.leaf 7 (some ['x']), QTree.group SearchOp.NOT [QTree.leaf 1 none],
         QTree.group SearchOp.OR []]) ∧
      bb.stack.length = 0 :=
  ⟨by decide, compiler_refines_render false sample_mailbox ⟨false, false, false, 0⟩ _
    (by decide)⟩

theorem field_selector_generic (excl : Bool) (part : Nat) (h : column_by_part part = none) :
    field_selector excl part = if excl then selector_of restricted_columns else [] := by
  unfold field_selector
  rw [h]
  cases excl
  · rfl
  · simp only [↓reduceIte]
    decide

/-- C19 (amended): for a match on a part with no column name, when the
exclude-odd-headers flag is set the selector `match` writes lists exactly the
columns `header_from`, `header_to`, `header_cc`, `header_bcc`,
`header_subject` and `body` (every column but `headers`); when the flag is not
set no field selector is written, the literal directly follows the child
separator. -/
theorem generic_selector (bb : sphinx_builder) (part : Nat) (str : Option (List Char))
    (h : column_by_part part = none) :
    (match_part true bb part str).query
      = bb.query ++ parent_separator bb ++ selector_of restricted_columns
          ++ match_literal str ∧
    (match_part false bb part str).query
      = bb.query ++ parent_separator bb ++ match_literal str := by
  have hq : (begin_child bb).query = bb.query ++ parent_separator bb := by
    unfold begin_child parent_separator
    cases bb.stack <;> simp
  constructor
  · rw [match_part_eq]
    simp only [emit, leaf_text, field_selector_generic true part h, ↓reduceIte, hq,
      match_literal]
    simp
  · rw [match_part_eq]
    simp only [emit, leaf_text, field_selector_generic false part h, hq, match_literal]
    simp

/-- Witness of C19 (amended): a match of `x` on part 0, the part without a
column. -/
theorem generic_selector_witness :
    column_by_part 0 = none ∧
    (match_part true (begin_search sample_mailbox ⟨false, false, false, 0⟩) 0
        (some ['x'])).query
      = "@(header_from,header_to,header_cc,header_bcc,header_subject,body) ".toList
          ++ [DQUOTE, 'x', DQUOTE] := by
  refine ⟨by decide, ?_⟩
  rw [(generic_selector (begin_search sample_mailbox ⟨false, false, false, 0⟩) 0
    (some ['x']) (by decide)).1]
  decide

/-- Counterexample to C19 as stated: with the flag set, the selector written
for part 0 is not the list of the five header columns; it names `body` too. -/
theorem generic_selector_lists_body :
    (match_part true (begin_search sample_mailbox ⟨false, false, false, 0⟩) 0
        (some ['x'])).query
      ≠ selector_of ["header_from".toList, "header_to".toList, "header_cc".toList,
          "header_bcc".toList, "header_subject".toList] ++ [DQUOTE, 'x', DQUOTE] ∧
    (match_part true (begin_search sample_mailbox ⟨false, false, false, 0⟩) 0
        (some ['x'])).query
      = "@(header_from,header_to,header_cc,header_bcc,header_subject,body) ".toList
          ++ [DQUOTE, 'x', DQUOTE] := by
  constructor
  · decide
  · decide

/-- C20 (amended): for every builder state and part, a `match` call writes
the child separator of the parent group and increments the parent's child
index, then writes the field selector of the part and a double-quoted
literal.  With the NULL text the literal is the empty literal `""` and
`nmatches` is unchanged; with a text that is not NULL `nmatches` grows by
exactly one. -/
theorem match_null_text (excl : Bool) (bb : sphinx_builder) (part : Nat)
    (str : Option (List Char)) :
    (match_part excl bb part str).stack = (begin_child bb).stack ∧
    (begin_child bb).stack
      = (match bb.stack with
        | [] => []
        | top :: rest => { top with idx := top.idx + 1 } :: rest) ∧
    (match_part excl bb part str).query
      = bb.query ++ parent_separator bb ++ field_selector excl part ++ match_literal str ∧
    match_literal none = [DQUOTE, DQUOTE] ∧
    (match_part excl bb part none).nmatches = bb.nmatches ∧
    (∀ s, (match_part excl bb part (some s)).nmatches = bb.nmatches + 1) := by
  have hq : (begin_child bb).query = bb.query ++ parent_separator bb := by
    unfold begin_child parent_separator
    cases bb.stack <;> simp
  have hn : (begin_child bb).nmatches = bb.nmatches := by
    unfold begin_child
    cases bb.stack <;> simp
  refine ⟨by rw [match_part_eq]; rfl, ?_, ?_, by decide, ?_, ?_⟩
  · unfold begin_child
    cases hs : bb.stack <;> simp [hs]
  · rw [match_part_eq]
    simp only [emit, leaf_text, hq, match_literal]
    simp
  · rw [match_part_eq]
    simp [emit, hn]
  · intro s
    rw [match_part_eq]
    simp [emit, hn]

/-- Counterexample to C20 as stated: inside an AND group, a match of the
NULL text on the body writes `@body ""` after the separator `(`, so it does
contribute a literal. -/
theorem match_null_text_literal :
    (match_part false
        (begin_boolean (begin_search sample_mailbox ⟨false, false, false, 0⟩) SearchOp.AND)
        7 none).query
      = "(@body ".toList ++ [DQUOTE, DQUOTE] ∧
    (match_part false
        (begin_boolean (begin_search sample_mailbox ⟨false, false, false, 0⟩) SearchOp.AND)
        7 none).query
      ≠ (begin_child
          (begin_boolean (begin_search sample_mailbox ⟨false, false, false, 0⟩)
            SearchOp.AND)).query := by
  constructor
  · decide
  · decide

/-! ## The connection manager (C16) -/

/-- C16: `get_connection` on the explicit state (cached endpoint,
connection).  Every call consults the directory service, once and first.
When the service resolves an endpoint equal to the cached one, the cached
connection and endpoint are unchanged and no connect is attempted.  When it
resolves a different one (or none is cached), the old connection is closed
if there is one and exactly one connect, to the new endpoint, is attempted;
if that connect fails the result is `IMAP_IOERROR` with the cached endpoint
and the connection both cleared, and if it succeeds both hold the new
endpoint. -/
theorem get_connection_spec (E : imap_err) (gs : Int × List Char) (connect_ok : Bool)
    (mboxname : List Char) (conn : connection) :
    (get_connection E gs connect_ok mboxname conn).2.2.head? = some (Event.getsock mboxname) ∧
    consultations (get_connection E gs connect_ok mboxname conn).2.2 = 1 ∧
    (gs.1 = 0 → same_endpoint gs.2 conn = true →
      get_connection E gs connect_ok mboxname conn = (0, conn, [Event.getsock mboxname])) ∧
    (gs.1 = 0 → same_endpoint gs.2 conn = false →
      (get_connection E gs connect_ok mboxname conn).2.2
        = [Event.getsock mboxname] ++ (if conn.mysql.isSome then [Event.close] else [])
            ++ [Event.connect gs.2] ∧
      connects (get_connection E gs connect_ok mboxname conn).2.2 = 1 ∧
      (connect_ok = false →
        (get_connection E gs connect_ok mboxname conn).1 = E.IMAP_IOERROR ∧
        (get_connection E gs connect_ok mboxname conn).2.1
          = { mysql := none, socket_path := none }) ∧
      (connect_ok = true →
        (get_connection E gs connect_ok mboxname conn).1 = 0 ∧
        (get_connection E gs connect_ok mboxname conn).2.1
          = { mysql := some gs.2, socket_path := some gs.2 })) := by
  unfold get_connection same_endpoint
  by_cases hgs : gs.1 = 0
  · simp only [hgs, ne_eq, not_true_eq_false, ↓reduceIte, true_implies]
    cases hsame : (match conn.socket_path with
        | some old => streq gs.2 old
        | none => false)
    · cases connect_ok <;> cases hm : conn.mysql <;>
        simp [consultations, connects]
    · simp [consultations]
  · simp [hgs, consultations]

/-- Witness of C16: a connection cached for the socket `a`, the directory
service resolving `b`, the connect failing: the old connection is closed,
one connect to `b` is attempted, and the result is `IMAP_IOERROR` with the
cached endpoint and the connection cleared. -/
theorem get_connection_spec_witness :
    same_endpoint ['b'] { mysql := some ['a'], socket_path := some ['a'] } = false ∧
    (get_connection sample_err (0, ['b']) false ['A']
        { mysql := some ['a'], socket_path := some ['a'] }).2.2
      = [Event.getsock ['A'], Event.close, Event.connect ['b']] ∧
    (get_connection sample_err (0, ['b']) false ['A']
        { mysql := some ['a'], socket_path := some ['a'] }).1 = sample_err.IMAP_IOERROR ∧
    (get_connection sample_err (0, ['b']) false ['A']
        { mysql := some ['a'], socket_path := some ['a'] }).2.1
      = { mysql := none, socket_path := none } :=
  have hs : same_endpoint ['b'] { mysql := some ['a'], socket_path := some ['a'] } = false := by
    decide
  have h := (get_connection_spec sample_err (0, ['b']) false ['A']
    { mysql := some ['a'], socket_path := some ['a'] }).2.2.2 rfl hs
  ⟨hs, h.1, h.2.2.1 rfl⟩

/-! ## The indexing receiver, continued (C11 to C15) -/

theorem write_latest_props (E : imap_err) (ok : Bool) (tr : sphinx_receiver)
    (h : tr.mailbox.isSome = true) :
    ∃ tr1 q, write_latest E ok tr = some (0, tr1, [Event.query q]) ∧
      tr1.mailbox = tr.mailbox ∧ tr1.conn = tr.conn ∧ tr1.latest = tr.latest ∧
      tr1.uid = tr.uid ∧ tr1.uncommitted = tr.uncommitted := by
  unfold write_latest
  simp only
  split
  · cases ok <;> exact ⟨_, _, rfl, rfl, rfl, rfl, rfl, rfl⟩
  · cases hm : tr.mailbox with
    | none => rw [hm] at h; cases h
    | some mb => cases ok <;> exact ⟨_, _, rfl, by simp [hm], rfl, rfl, rfl, rfl⟩

theorem commits_query (q : List Char) : commits [Event.query q] = 0 := by
  simp [commits]

theorem commits_nil : commits [] = 0 := rfl

theorem commits_commit : commits [Event.commit] = 1 := by
  simp [commits]

theorem commits_append (a b : List Event) : commits (a ++ b) = commits a + commits b := by
  simp [commits]

theorem flush_props (E : imap_err) (upd_ok commit_ok force : Bool) (tr : sphinx_receiver)
    (h : tr.mailbox.isSome = true) :
    ∃ r tr1 ev, flush E upd_ok commit_ok force tr = some (r, tr1, ev) ∧
      tr1.mailbox = tr.mailbox ∧ tr1.conn = tr.conn ∧ tr1.latest = tr.latest ∧
      tr1.uid = tr.uid ∧
      (if force = false ∧ tr.uncommitted < MAX_UNCOMMITTED
       then r = 0 ∧ tr1.uncommitted = tr.uncommitted ∧ commits ev = 0
       else commits ev = 1 ∧
        (if commit_ok = true then r = 0 ∧ tr1.uncommitted = 0
         else r = E.IMAP_IOERROR ∧ tr1.uncommitted = tr.uncommitted)) := by
  unfold flush
  by_cases hskip : force = false ∧ tr.uncommitted < MAX_UNCOMMITTED
  · have : (!force && decide (tr.uncommitted < MAX_UNCOMMITTED)) = true := by
      simp [hskip.1, hskip.2]
    simp only [this, ↓reduceIte]
    exact ⟨0, tr, [], rfl, rfl, rfl, rfl, rfl, by simp [hskip, commits]⟩
  · have : (!force && decide (tr.uncommitted < MAX_UNCOMMITTED)) = false := by
      cases force <;> simp_all
    simp only [this, Bool.false_eq_true, ↓reduceIte, hskip]
    have hw : ∃ tr0 ev0,
        (if tr.uncommitted ≠ 0 then write_latest E upd_ok tr else some (0, tr, []))
          = some (0, tr0, ev0) ∧ tr0.mailbox = tr.mailbox ∧ tr0.conn = tr.conn ∧
          tr0.latest = tr.latest ∧ tr0.uid = tr.uid ∧ tr0.uncommitted = tr.uncommitted ∧
          commits ev0 = 0 := by
      by_cases hu : tr.uncommitted = 0
      · exact ⟨tr, [], by simp [hu], rfl, rfl, rfl, rfl, rfl, rfl⟩
      · obtain ⟨tr0, q, h1, h2, h3, h4, h5, h6⟩ := write_latest_props E upd_ok tr h
        exact ⟨tr0, _, by simp [hu, h1], h2, h3, h4, h5, h6, commits_query q⟩
    obtain ⟨tr0, ev0, hw1, hw2, hw3, hw4, hw5, hw6, hw7⟩ := hw
    rw [hw1]
    simp only [ne_eq, not_true_eq_false, ↓reduceIte]
    cases commit_ok with
    | true =>
      simp only [↓reduceIte]
      exact ⟨_, _, _, rfl, hw2, hw3, hw4, hw5, by rw [commits_append, hw7, commits_commit],
        rfl, rfl⟩
    | false =>
      simp only [Bool.false_eq_true, ↓reduceIte]
      cases hm : tr0.mailbox with
      | none => rw [← hw2, hm] at h; cases h
      | some mb =>
        simp only
        exact ⟨_, _, _, rfl, hw2, hw3, hw4, hw5,
          by rw [commits_append, hw7, commits_commit], rfl, hw6⟩

theorem end_message_props (E : imap_err) (ins_ok upd_ok commit_ok : Bool)
    (tr : sphinx_receiver) (hc : tr.conn.mysql.isSome = true)
    (hm : tr.mailbox.isSome = true) :
    ∃ tr1 ev, end_message E ins_ok upd_ok commit_ok tr = some (0, tr1, ev) ∧
      tr1.mailbox = tr.mailbox ∧ tr1.conn = tr.conn ∧ tr1.uid = 0 ∧
      (ins_ok = false →
        tr1.latest = tr.latest ∧ tr1.uncommitted = tr.uncommitted ∧ commits ev = 0) ∧
      (ins_ok = true →
        tr1.latest = tr.uid ∧
        (if (tr.uncommitted + 1) % 2 ^ 32 < MAX_UNCOMMITTED
         then tr1.uncommitted = (tr.uncommitted + 1) % 2 ^ 32 ∧ commits ev = 0
         else commits ev = 1 ∧
          (if commit_ok = true then tr1.uncommitted = 0
           else tr1.uncommitted = (tr.uncommitted + 1) % 2 ^ 32))) := by
  unfold end_message
  have hc' : tr.conn.mysql.isNone = false := by
    cases h : tr.conn.mysql with
    | none => rw [h] at hc; cases hc
    | some _ => rfl
  simp only [hc', Bool.false_eq_true, ↓reduceIte]
  cases hmb : tr.mailbox with
  | none => rw [hmb] at hm; cases hm
  | some mb =>
    simp only
    cases ins_ok with
    | false =>
      simp only [Bool.not_false, ↓reduceIte]
      exact ⟨_, _, rfl, by simp [hmb], rfl, rfl, fun _ => ⟨rfl, rfl, by simp [commits]⟩,
        fun h => by cases h⟩
    | true =>
      simp only [Bool.not_true, Bool.false_eq_true, ↓reduceIte]
      obtain ⟨r, tr3, ev, hf, h1, h2, h3, _, h5⟩ := flush_props E upd_ok commit_ok false
        { tr with mailbox := some mb,
                  query := insert_statement mb ((tr.lastid + 1) % 2 ^ 32) tr.uid tr.parts,
                  lastid := (tr.lastid + 1) % 2 ^ 32,
                  uncommitted := (tr.uncommitted + 1) % 2 ^ 32, latest := tr.uid }
        rfl
      rw [hf]
      simp only
      refine ⟨_, _, rfl, by simp [h1], by simp [h2], rfl, (fun h => by cases h), fun _ => ?_⟩
      refine ⟨by simp [h3], ?_⟩
      simp only [true_and] at h5
      by_cases hlt : (tr.uncommitted + 1) % 2 ^ 32 < MAX_UNCOMMITTED
      · simp only [hlt, ↓reduceIte] at h5 ⊢
        refine ⟨h5.2.1, ?_⟩
        show commits ([Event.query _] ++ ev) = 0
        rw [commits_append, commits_query, h5.2.2]
      · simp only [hlt, ↓reduceIte] at h5 ⊢
        refine ⟨?_, ?_⟩
        · show commits ([Event.query _] ++ ev) = 1
          rw [commits_append, commits_query, h5.1]
        · cases commit_ok with
          | true => simpa using h5.2.2
          | false => simpa using h5.2.2

theorem append_text_keeps (tr tr1 : sphinx_receiver) (text : List Char) (ev : List Event)
    (h : append_text tr text = some (tr1, ev)) :
    tr1.conn = tr.conn ∧ tr1.mailbox = tr.mailbox ∧ tr1.uncommitted = tr.uncommitted ∧
    tr1.part = tr.part ∧ tr1.uid = tr.uid ∧ tr1.latest = tr.latest := by
  unfold append_text at h
  split at h
  · simp only at h
    have key : ∀ (b : Bool) (n : Nat) (t : sphinx_receiver),
        t = (if b = true then { tr with truncate_warning := tr.truncate_warning + 1 } else tr) →
        ∀ t2, t2 = (if n ≠ 0 then
            { t with parts_total := (t.parts_total + n) % 2 ^ 32,
                     parts := t.parts.modify (fun b => b ++ text.take n) t.part }
          else t) →
        t2.conn = tr.conn ∧ t2.mailbox = tr.mailbox ∧ t2.uncommitted = tr.uncommitted ∧
        t2.part = tr.part ∧ t2.uid = tr.uid ∧ t2.latest = tr.latest := by
      intro b n t ht t2 ht2
      subst ht ht2
      cases b <;> by_cases hn : n = 0 <;> simp [hn]
    split at h
    · split at h
      · cases h
      · simp only [Option.some.injEq, Prod.mk.injEq] at h
        obtain ⟨rfl, _⟩ := h
        exact key _ _ _ rfl _ rfl
    · simp only [Option.some.injEq, Prod.mk.injEq] at h
      obtain ⟨rfl, _⟩ := h
      exact key _ _ _ rfl _ rfl
  · simp only [Option.some.injEq, Prod.mk.injEq] at h
    obtain ⟨rfl, _⟩ := h
    exact ⟨rfl, rfl, rfl, rfl, rfl, rfl⟩

theorem read_lastid_keeps (E : imap_err) (maxid : Option (Option (List Char)))
    (tr : sphinx_receiver) :
    (read_lastid E maxid tr).2.1.conn = tr.conn ∧
    (read_lastid E maxid tr).2.1.mailbox = tr.mailbox := by
  unfold read_lastid
  cases maxid with
  | none => exact ⟨rfl, rfl⟩
  | some m => cases m <;> exact ⟨rfl, rfl⟩

theorem read_latest_keeps (E : imap_err)
    (rows : Option (List (List Char × List Char × List Char)))
    (maxid : Option (Option (List Char))) (tr tr1 : sphinx_receiver) (r : Int)
    (ev : List Event) (h : read_latest E rows maxid tr = some (r, tr1, ev)) :
    tr1.conn = tr.conn ∧ tr1.mailbox = tr.mailbox := by
  unfold read_latest at h
  split at h
  · cases h
  · simp only at h
    cases rows with
    | none =>
      simp only [Option.some.injEq, Prod.mk.injEq] at h
      obtain ⟨_, rfl, _⟩ := h
      exact ⟨rfl, rfl⟩
    | some rs =>
      cases maxid with
      | none =>
        simp only [Option.some.injEq, Prod.mk.injEq] at h
        obtain ⟨_, rfl, _⟩ := h
        exact ⟨rfl, rfl⟩
      | some m =>
        cases m with
        | none =>
          simp only [Option.some.injEq, Prod.mk.injEq] at h
          obtain ⟨_, rfl, _⟩ := h
          exact ⟨rfl, rfl⟩
        | some v =>
          simp only [Option.some.injEq, Prod.mk.injEq] at h
          obtain ⟨_, rfl, _⟩ := h
          exact ⟨rfl, rfl⟩

theorem get_connection_failed (E : imap_err) (gs : Int × List Char) (connect_ok : Bool)
    (name : List Char) (conn : connection)
    (h : (get_connection E gs connect_ok name conn).1 ≠ 0) :
    (get_connection E gs connect_ok name conn).2.1 = conn ∨
    (get_connection E gs connect_ok name conn).2.1.mysql = none := by
  unfold get_connection at h ⊢
  by_cases hgs : gs.1 = 0
  · simp only [hgs, ne_eq, not_true_eq_false, ↓reduceIte] at h ⊢
    cases hsame : (match conn.socket_path with
        | some old => streq gs.2 old
        | none => false)
    · rw [hsame] at h
      cases connect_ok
      · right; simp
      · simp at h
    · left; simp
  · left
    simp [hgs]

theorem begin_mailbox_conn_has_mailbox (E : imap_err) (gs : Int × List Char)
    (connect_ok : Bool) (lastid : Option (Option (List Char)))
    (rows : Option (List (List Char × List Char × List Char)))
    (maxid : Option (Option (List Char))) (tr tr1 : sphinx_receiver) (mb : mailbox)
    (r : Int) (ev : List Event) (hinv : conn_has_mailbox tr)
    (h : begin_mailbox E gs connect_ok lastid rows maxid tr mb = some (r, tr1, ev)) :
    conn_has_mailbox tr1 := by
  unfold begin_mailbox at h
  simp only at h
  split at h
  · rename_i hc
    simp only [Option.some.injEq, Prod.mk.injEq] at h
    obtain ⟨_, rfl, _⟩ := h
    rcases get_connection_failed E gs connect_ok mb.name tr.conn hc with h1 | h1
    · intro ho
      simp only [h1] at ho
      exact hinv ho
    · intro ho
      simp only [h1] at ho
      cases ho
  · split at h
    · simp only [Option.some.injEq, Prod.mk.injEq] at h
      obtain ⟨_, rfl, _⟩ := h
      intro _
      rw [(read_lastid_keeps E lastid _).2]
      rfl
    · split at h
      · cases h
      · rename_i r2 tr2 ev2 hrl
        simp only [Option.some.injEq, Prod.mk.injEq] at h
        obtain ⟨_, rfl, _⟩ := h
        intro _
        rw [(read_latest_keeps E rows maxid _ tr2 r2 ev2 hrl).2,
          (read_lastid_keeps E lastid _).2]
        rfl

theorem end_message_unopened (E : imap_err) (ins_ok upd_ok commit_ok : Bool)
    (tr : sphinx_receiver) (h : tr.conn.mysql = none) :
    end_message E ins_ok upd_ok commit_ok tr = some (E.IMAP_INTERNAL, tr, []) := by
  simp [end_message, h]

theorem end_mailbox_closed (E : imap_err) (upd_ok commit_ok : Bool) (tr tr1 : sphinx_receiver)
    (r : Int) (ev : List Event) (h : end_mailbox E upd_ok commit_ok tr = some (r, tr1, ev)) :
    tr1.conn.mysql = none := by
  unfold end_mailbox at h
  split at h
  · split at h
    · cases h
    · simp only [Option.some.injEq, Prod.mk.injEq] at h
      obtain ⟨_, rfl, _⟩ := h
      rfl
  · rename_i hc
    simp only [Option.some.injEq, Prod.mk.injEq] at h
    obtain ⟨_, rfl, _⟩ := h
    cases hm : tr.conn.mysql with
    | none => simp [hm]
    | some p => simp [hm] at hc

theorem apply_conn_has_mailbox (E : imap_err) (c : RxCall) (tr tr1 : sphinx_receiver)
    (ev : List Event) (hinv : conn_has_mailbox tr) (h : c.apply E tr = some (tr1, ev)) :
    conn_has_mailbox tr1 := by
  cases c with
  | begin_mailbox gs connect_ok lastid rows maxid mb =>
    simp only [RxCall.apply, Option.map_eq_some'] at h
    obtain ⟨⟨r, t, e⟩, h1, h2⟩ := h
    simp only [Prod.mk.injEq] at h2
    obtain ⟨rfl, rfl⟩ := h2
    exact begin_mailbox_conn_has_mailbox E gs connect_ok lastid rows maxid tr _ mb r _ hinv h1
  | begin_message uid =>
    simp only [RxCall.apply, Option.some.injEq, Prod.mk.injEq] at h
    obtain ⟨rfl, _⟩ := h
    exact hinv
  | begin_part part =>
    simp only [RxCall.apply, Option.some.injEq, Prod.mk.injEq] at h
    obtain ⟨rfl, _⟩ := h
    exact hinv
  | append_text text =>
    simp only [RxCall.apply] at h
    have hf := append_text_keeps tr tr1 text ev h
    intro ho
    rw [hf.2.1]
    rw [hf.1] at ho
    exact hinv ho
  | end_part part =>
    simp only [RxCall.apply, Option.some.injEq, Prod.mk.injEq] at h
    obtain ⟨rfl, _⟩ := h
    exact hinv
  | end_message ins_ok upd_ok commit_ok =>
    simp only [RxCall.apply, Option.map_eq_some'] at h
    obtain ⟨⟨r, t, e⟩, h1, h2⟩ := h
    simp only [Prod.mk.injEq] at h2
    obtain ⟨rfl, rfl⟩ := h2
    cases hm : tr.conn.mysql with
    | none =>
      rw [end_message_unopened E ins_ok upd_ok commit_ok tr hm] at h1
      simp only [Option.some.injEq, Prod.mk.injEq] at h1
      obtain ⟨_, rfl, _⟩ := h1
      exact hinv
    | some p =>
      have ho : tr.conn.mysql.isSome = true := by simp [hm]
      obtain ⟨t2, e2, h3, h4, h5, _⟩ := end_message_props E ins_ok upd_ok commit_ok tr ho
        (hinv ho)
      rw [h3] at h1
      simp only [Option.some.injEq, Prod.mk.injEq] at h1
      obtain ⟨_, rfl, _⟩ := h1
      intro _
      rw [h4]
      exact hinv ho
  | end_mailbox upd_ok commit_ok =>
    simp only [RxCall.apply, Option.map_eq_some'] at h
    obtain ⟨⟨r, t, e⟩, h1, h2⟩ := h
    simp only [Prod.mk.injEq] at h2
    obtain ⟨rfl, rfl⟩ := h2
    intro ho
    rw [end_mailbox_closed E upd_ok commit_ok tr _ r _ h1] at ho
    cases ho

theorem rx_run_conn_has_mailbox (E : imap_err) (calls : List RxCall) (tr : sphinx_receiver)
    (hinv : conn_has_mailbox tr) : conn_has_mailbox (rx_run E calls tr).1 := by
  induction calls generalizing tr with
  | nil => exact hinv
  | cons c cs ih =>
    simp only [rx_run]
    cases h : c.apply E tr with
    | none => exact hinv
    | some res =>
      obtain ⟨tr1, ev⟩ := res
      exact ih tr1 (apply_conn_has_mailbox E c tr tr1 ev hinv h)

/-- C15: in every receiver state reached from a fresh receiver,
`end_message` returns `IMAP_INTERNAL` exactly when no daemon connection is
open; when a connection is open it returns 0 whatever the daemon answers to
the INSERT, the `latest` statement and the commit, and when the INSERT fails
it changes neither `latest` nor the uncommitted counter. -/
theorem end_message_status (E : imap_err) (hE : E.IMAP_INTERNAL ≠ 0) (verbose : Nat)
    (calls : List RxCall) (ins_ok upd_ok commit_ok : Bool) :
    ∃ r tr1 ev,
      end_message E ins_ok upd_ok commit_ok (rx_run E calls (begin_update verbose)).1
        = some (r, tr1, ev) ∧
      (r = E.IMAP_INTERNAL ↔ (rx_run E calls (begin_update verbose)).1.conn.mysql = none) ∧
      ((rx_run E calls (begin_update verbose)).1.conn.mysql ≠ none → r = 0) ∧
      ((rx_run E calls (begin_update verbose)).1.conn.mysql ≠ none → ins_ok = false →
        tr1.latest = (rx_run E calls (begin_update verbose)).1.latest ∧
        tr1.uncommitted = (rx_run E calls (begin_update verbose)).1.uncommitted) := by
  have hinv := rx_run_conn_has_mailbox E calls (begin_update verbose)
    (by intro h; simp [begin_update, CONNECTION_INITIALIZER] at h)
  generalize (rx_run E calls (begin_update verbose)).1 = tr at hinv
  cases hm : tr.conn.mysql with
  | none =>
    exact ⟨_, _, _, end_message_unopened E ins_ok upd_ok commit_ok tr hm, by simp,
      fun h => absurd rfl h, fun h => absurd rfl h⟩
  | some p =>
    have ho : tr.conn.mysql.isSome = true := by simp [hm]
    obtain ⟨t2, e2, h3, _, _, _, h7, _⟩ := end_message_props E ins_ok upd_ok commit_ok tr ho
      (hinv ho)
    refine ⟨0, t2, e2, h3, ?_, fun _ => rfl, fun _ hi => ⟨(h7 hi).1, (h7 hi).2.1⟩⟩
    constructor
    · intro h
      exact absurd h.symm hE
    · intro h
      cases h

/-- Witness of C15: in the sample session, with the connection open, the
daemon refuses the INSERT of one more message. -/
theorem end_message_status_witness :
    sample_err.IMAP_INTERNAL ≠ 0 ∧
    (rx_run sample_err sample_session (begin_update 0)).1.conn.mysql ≠ none ∧
    ∃ r tr1 ev,
      end_message sample_err false true true (rx_run sample_err sample_session (begin_update 0)).1
        = some (r, tr1, ev) ∧ r = 0 ∧
      tr1.latest = (rx_run sample_err sample_session (begin_update 0)).1.latest ∧
      tr1.uncommitted = (rx_run sample_err sample_session (begin_update 0)).1.uncommitted := by
  have hopen : (rx_run sample_err sample_session (begin_update 0)).1.conn.mysql ≠ none := by
    decide
  obtain ⟨r, tr1, ev, h1, _, h3, h4⟩ :=
    end_message_status sample_err (by decide) 0 sample_session false true true
  exact ⟨by decide, hopen, r, tr1, ev, h1, h3 hopen, h4 hopen rfl⟩

/-! ### Commits of a session (C11) -/

theorem append_text_total (tr : sphinx_receiver) (text : List Char)
    (h : tr.mailbox.isSome = true) :
    ∃ tr1 ev, append_text tr text = some (tr1, ev) ∧ commits ev = 0 := by
  unfold append_text
  split
  · simp only
    split
    · cases hm : tr.mailbox with
      | none => rw [hm] at h; cases h
      | some mb => exact ⟨_, _, rfl, by simp [commits]⟩
    · exact ⟨_, _, rfl, by simp [commits]⟩
  · exact ⟨_, _, rfl, by simp [commits]⟩

theorem part_call_apply (E : imap_err) (c : RxCall) (hc : c.is_part_call = true)
    (tr : sphinx_receiver) (h : tr.mailbox.isSome = true) :
    ∃ tr1 ev, c.apply E tr = some (tr1, ev) ∧ commits ev = 0 ∧
      tr1.conn = tr.conn ∧ tr1.mailbox = tr.mailbox ∧ tr1.uncommitted = tr.uncommitted ∧
      tr1.uid = tr.uid ∧ tr1.latest = tr.latest := by
  cases c with
  | begin_mailbox gs connect_ok lastid rows maxid mb => cases hc
  | begin_message uid => cases hc
  | begin_part part => exact ⟨_, _, rfl, by simp [commits], rfl, rfl, rfl, rfl, rfl⟩
  | append_text text =>
    obtain ⟨tr1, ev, h1, h2⟩ := append_text_total tr text h
    have hk := append_text_keeps tr tr1 text ev h1
    exact ⟨tr1, ev, h1, h2, hk.1, hk.2.1, hk.2.2.1, hk.2.2.2.2.1, hk.2.2.2.2.2⟩
  | end_part part => exact ⟨_, _, rfl, by simp [commits], rfl, rfl, rfl, rfl, rfl⟩
  | end_message ins_ok upd_ok commit_ok => cases hc
  | end_mailbox upd_ok commit_ok => cases hc

theorem part_calls_run (E : imap_err) (ps : List RxCall)
    (hps : ps.all RxCall.is_part_call = true) (tr : sphinx_receiver)
    (h : tr.mailbox.isSome = true) :
    ∃ tr1 ev, (∀ rest, rx_run E (ps ++ rest) tr
        = ((rx_run E rest tr1).1, ev ++ (rx_run E rest tr1).2)) ∧
      commits ev = 0 ∧ tr1.conn = tr.conn ∧ tr1.mailbox = tr.mailbox ∧
      tr1.uncommitted = tr.uncommitted ∧ tr1.uid = tr.uid ∧ tr1.latest = tr.latest := by
  induction ps generalizing tr with
  | nil => exact ⟨tr, [], fun rest => by simp, rfl, rfl, rfl, rfl, rfl, rfl⟩
  | cons c cs ih =>
    simp only [List.all_cons, Bool.and_eq_true] at hps
    obtain ⟨tr1, ev1, ha, hc1, h1, h2, h3, h4, h5⟩ := part_call_apply E c hps.1 tr h
    obtain ⟨tr2, ev2, hb, hc2, k1, k2, k3, k4, k5⟩ := ih hps.2 tr1 (by rw [h2]; exact h)
    refine ⟨tr2, ev1 ++ ev2, ?_, ?_, by rw [k1, h1], by rw [k2, h2], by rw [k3, h3],
      by rw [k4, h4], by rw [k5, h5]⟩
    · intro rest
      show rx_run E (c :: (cs ++ rest)) tr = _
      simp only [rx_run, ha]
      rw [hb rest]
      simp only [List.append_assoc]
    · rw [commits_append, hc1, hc2]

theorem end_mailbox_props (E : imap_err) (tr : sphinx_receiver)
    (hc : tr.conn.mysql.isSome = true) (hm : tr.mailbox.isSome = true) :
    ∃ tr1 ev, end_mailbox E true true tr = some (0, tr1, ev) ∧ commits ev = 1 := by
  unfold end_mailbox
  simp only [hc, ↓reduceIte]
  obtain ⟨r, tr1, ev, hf, _, _, _, _, h5⟩ := flush_props E true true true tr hm
  rw [hf]
  simp only [Bool.true_eq_false, false_and, ↓reduceIte] at h5
  refine ⟨_, _, by rw [h5.2.1], ?_⟩
  rw [commits_append, h5.1]
  unfold close_connection
  split <;> simp [commits]

theorem message_run (E : imap_err) (m : RxMessage) (hwf : m.wf = true)
    (hok : m.all_ok = true) (tr : sphinx_receiver) (hc : tr.conn.mysql.isSome = true)
    (hm : tr.mailbox.isSome = true) (hu : tr.uncommitted < MAX_UNCOMMITTED) :
    ∃ tr1 ev, (∀ rest, rx_run E (m.calls ++ rest) tr
        = ((rx_run E rest tr1).1, ev ++ (rx_run E rest tr1).2)) ∧
      tr1.conn.mysql.isSome = true ∧ tr1.mailbox.isSome = true ∧
      (if tr.uncommitted + 1 < MAX_UNCOMMITTED
       then tr1.uncommitted = tr.uncommitted + 1 ∧ commits ev = 0
       else tr1.uncommitted = 0 ∧ commits ev = 1) := by
  obtain ⟨tr1, ev1, ha, hc1, h1, h2, h3, _, _⟩ := part_calls_run E m.parts hwf
    (begin_message tr m.uid) hm
  have hi : m.ins_ok = true ∧ m.upd_ok = true ∧ m.commit_ok = true := by
    simpa [RxMessage.all_ok, and_assoc] using hok
  have hc' : tr1.conn.mysql.isSome = true := by rw [h1]; exact hc
  have hm' : tr1.mailbox.isSome = true := by rw [h2]; exact hm
  obtain ⟨tr2, ev2, hb, k1, k2, _, _, k5⟩ :=
    end_message_props E m.ins_ok m.upd_ok m.commit_ok tr1 hc' hm'
  have hu1 : tr1.uncommitted = tr.uncommitted := h3
  have hmod : (tr1.uncommitted + 1) % 2 ^ 32 = tr.uncommitted + 1 := by
    rw [hu1]
    apply Nat.mod_eq_of_lt
    unfold MAX_UNCOMMITTED at hu
    omega
  refine ⟨tr2, ev1 ++ ([] ++ ev2), ?_, by rw [k2]; exact hc', by rw [k1]; exact hm', ?_⟩
  · intro rest
    have e : m.calls ++ rest = RxCall.begin_message m.uid ::
        (m.parts ++ (RxCall.end_message m.ins_ok m.upd_ok m.commit_ok :: rest)) := by
      simp [RxMessage.calls]
    rw [e]
    simp only [rx_run, RxCall.apply, ha, hb, Option.map_some', List.append_assoc,
      List.nil_append]
  · have h5 := k5 hi.1
    rw [hmod] at h5
    rw [commits_append, commits_append, hc1]
    by_cases hlt : tr.uncommitted + 1 < MAX_UNCOMMITTED
    · simp only [hlt, ↓reduceIte] at h5 ⊢
      exact ⟨h5.2.1, by rw [commits_nil, h5.2.2]⟩
    · simp only [hlt, ↓reduceIte, hi.2.2] at h5 ⊢
      exact ⟨h5.2.2, by rw [commits_nil, h5.2.1]⟩

theorem session_commits (E : imap_err) (ms : List RxMessage)
    (hms : ∀ m ∈ ms, m.wf = true ∧ m.all_ok = true) (tr : sphinx_receiver)
    (hc : tr.conn.mysql.isSome = true) (hm : tr.mailbox.isSome = true)
    (hu : tr.uncommitted < MAX_UNCOMMITTED) :
    commits (rx_run E (message_calls ms ++ [RxCall.end_mailbox true true]) tr).2
      = (tr.uncommitted + ms.length) / MAX_UNCOMMITTED + 1 := by
  induction ms generalizing tr with
  | nil =>
    obtain ⟨tr1, ev, h1, h2⟩ := end_mailbox_props E tr hc hm
    simp only [message_calls, List.nil_append, rx_run, RxCall.apply, h1, Option.map_some',
      List.append_nil, List.length_nil, Nat.add_zero, h2]
    rw [Nat.div_eq_of_lt hu]
  | cons m ms ih =>
    obtain ⟨tr1, ev, hrun, hc1, hm1, hcase⟩ := message_run E m
      (hms m (List.mem_cons_self _ _)).1 (hms m (List.mem_cons_self _ _)).2 tr hc hm hu
    have e : message_calls (m :: ms) ++ [RxCall.end_mailbox true true]
        = m.calls ++ (message_calls ms ++ [RxCall.end_mailbox true true]) := by
      simp [message_calls]
    rw [e, hrun, commits_append]
    unfold MAX_UNCOMMITTED at hu hcase ⊢
    by_cases hlt : tr.uncommitted + 1 < 20
    · simp only [hlt, ↓reduceIte] at hcase
      have := ih (fun x hx => hms x (List.mem_cons_of_mem _ hx)) tr1 hc1 hm1
        (by unfold MAX_UNCOMMITTED; omega)
      unfold MAX_UNCOMMITTED at this
      rw [this, hcase.1, hcase.2, List.length_cons]
      have : tr.uncommitted + 1 + ms.length = tr.uncommitted + (ms.length + 1) := by omega
      rw [this]
      omega
    · simp only [hlt, ↓reduceIte] at hcase
      have := ih (fun x hx => hms x (List.mem_cons_of_mem _ hx)) tr1 hc1 hm1
        (by unfold MAX_UNCOMMITTED; omega)
      unfold MAX_UNCOMMITTED at this
      rw [this, hcase.1, hcase.2, List.length_cons]
      have hu20 : tr.uncommitted = 19 := by omega
      rw [hu20]
      omega

theorem begin_mailbox_fresh (E : imap_err) (verbose : Nat) (gs : Int × List Char)
    (hgs : gs.1 = 0) (lastid : Option (List Char))
    (rows : List (List Char × List Char × List Char)) (maxid : Option (List Char))
    (mb : mailbox) :
    ∃ tr1 ev, begin_mailbox E gs true (some lastid) (some rows) (some maxid)
        (begin_update verbose) mb = some (0, tr1, ev) ∧
      tr1.conn.mysql.isSome = true ∧ tr1.mailbox.isSome = true ∧ tr1.uncommitted = 0 ∧
      commits ev = 0 := by
  unfold begin_mailbox get_connection read_lastid read_latest
  cases lastid <;> cases maxid <;>
    simp [hgs, begin_update, CONNECTION_INITIALIZER, commits] <;>
    exact ⟨_, _, ⟨rfl, rfl⟩, rfl, rfl, rfl, by simp⟩

/-- C11 (amended): a mailbox session `begin_mailbox`, `N` messages whose
INSERT, `latest` statement and commit all succeed, `end_mailbox`, run on a
fresh receiver with every statement accepted, issues exactly
`N / MAX_UNCOMMITTED + 1` commit statements (`MAX_UNCOMMITTED = 20`): one at
each message that fills a batch of 20, and one forced commit at mailbox end,
which is issued whether or not the last batch was partial. -/
theorem commits_of_session (E : imap_err) (verbose : Nat) (gs : Int × List Char)
    (hgs : gs.1 = 0) (lastid : Option (List Char))
    (rows : List (List Char × List Char × List Char)) (maxid : Option (List Char))
    (mb : mailbox) (ms : List RxMessage)
    (hms : ∀ m ∈ ms, m.wf = true ∧ m.all_ok = true) :
    commits (rx_run E
        (RxCall.begin_mailbox gs true (some lastid) (some rows) (some maxid) mb ::
          (message_calls ms ++ [RxCall.end_mailbox true true]))
        (begin_update verbose)).2
      = ms.length / MAX_UNCOMMITTED + 1 := by
  obtain ⟨tr1, ev, h1, h2, h3, h4, h5⟩ :=
    begin_mailbox_fresh E verbose gs hgs lastid rows maxid mb
  simp only [rx_run, RxCall.apply, h1, Option.map_some']
  rw [commits_append, h5, session_commits E ms hms tr1 h2 h3 (by rw [h4]; decide), h4]
  simp

/-- Witness of C11 (amended): a session of 45 messages issues 3 commits. -/
theorem commits_of_session_witness :
    (∀ m ∈ sample_messages 45, m.wf = true ∧ m.all_ok = true) ∧
    commits (rx_run sample_err
        (RxCall.begin_mailbox (0, "/sphinx/socket".toList) true (some (some "41".toList))
            (some [("3".toList, "A".toList, "1".toList)]) (some (some "9".toList))
            sample_mailbox ::
          (message_calls (sample_messages 45) ++ [RxCall.end_mailbox true true]))
        (begin_update 0)).2 = 3 := by
  have hms : ∀ m ∈ sample_messages 45, m.wf = true ∧ m.all_ok = true := by
    intro m hm
    simp only [sample_messages, List.mem_map] at hm
    obtain ⟨i, _, rfl⟩ := hm
    exact ⟨rfl, rfl⟩
  refine ⟨hms, ?_⟩
  rw [commits_of_session sample_err 0 _ rfl _ _ _ sample_mailbox (sample_messages 45) hms]
  simp [sample_messages, MAX_UNCOMMITTED]

/-- Counterexample to C11 as stated: a session without any message issues one
commit, and a session of 20 messages issues two, where `ceil(N / 20)` is 0
and 1. -/
theorem commits_of_full_batches :
    commits (rx_run sample_err
        (sample_begin_mailbox :: (message_calls (sample_messages 0)
          ++ [RxCall.end_mailbox true true])) (begin_update 0)).2 = 1 ∧
    (0 + 20 - 1) / 20 = 0 ∧
    commits (rx_run sample_err
        (sample_begin_mailbox :: (message_calls (sample_messages 20)
          ++ [RxCall.end_mailbox true true])) (begin_update 0)).2 = 2 ∧
    (20 + 20 - 1) / 20 = 1 := by
  have hms : ∀ n, ∀ m ∈ sample_messages n, m.wf = true ∧ m.all_ok = true := by
    intro n m hm
    simp only [sample_messages, List.mem_map] at hm
    obtain ⟨i, _, rfl⟩ := hm
    exact ⟨rfl, rfl⟩
  have key : ∀ n, commits (rx_run sample_err
        (sample_begin_mailbox :: (message_calls (sample_messages n)
          ++ [RxCall.end_mailbox true true])) (begin_update 0)).2 = n / 20 + 1 := by
    intro n
    obtain ⟨tr1, ev, h1, h2, h3, h4, h5⟩ :=
      begin_mailbox_fresh sample_err 0 (0, "/sphinx/socket".toList) rfl (some "41".toList)
        [("3".toList, "A".toList, "1".toList)] (some "9".toList) sample_mailbox
    simp only [sample_begin_mailbox, rx_run, RxCall.apply, h1, Option.map_some']
    rw [commits_append, h5, session_commits sample_err _ (hms n) tr1 h2 h3
      (by rw [h4]; decide), h4]
    simp [sample_messages, MAX_UNCOMMITTED]
  exact ⟨key 0, by decide, key 20, by decide⟩

/-! ### Monotonicity of `latest` (C14) -/

theorem end_message_latest (E : imap_err) (ins_ok upd_ok commit_ok : Bool)
    (tr tr1 : sphinx_receiver) (r : Int) (ev : List Event)
    (h : end_message E ins_ok upd_ok commit_ok tr = some (r, tr1, ev)) :
    tr1.latest = tr.latest ∨ tr1.latest = tr.uid := by
  unfold end_message at h
  split at h
  · simp only [Option.some.injEq, Prod.mk.injEq] at h
    obtain ⟨_, rfl, _⟩ := h
    exact Or.inl rfl
  · split at h
    · cases h
    · simp only at h
      split at h
      · simp only [Option.some.injEq, Prod.mk.injEq] at h
        obtain ⟨_, rfl, _⟩ := h
        exact Or.inl rfl
      · split at h
        · cases h
        · rename_i r3 tr3 ev3 hfl
          simp only [Option.some.injEq, Prod.mk.injEq] at h
          obtain ⟨_, rfl, _⟩ := h
          have hf := flush_frame E upd_ok commit_ok false _ tr3 r3 ev3 hfl
          right
          show tr3.latest = tr.uid
          rw [hf.1]

theorem chain_le_head (a b : Nat) (l : List Nat) (hab : a ≤ b)
    (h : List.Chain (· ≤ ·) b l) : List.Chain (· ≤ ·) a l := by
  cases l with
  | nil => exact List.Chain.nil
  | cons x xs =>
    rw [List.chain_cons] at h ⊢
    exact ⟨Nat.le_trans hab h.1, h.2⟩

theorem latests_part_calls (E : imap_err) (ps : List RxCall)
    (hps : ps.all RxCall.is_part_call = true) (rest : List RxCall) (tr : sphinx_receiver)
    (hrest : ∀ tr1, tr1.latest = tr.latest → tr1.uid = tr.uid →
      List.Chain (· ≤ ·) tr.latest (latests E rest tr1)) :
    List.Chain (· ≤ ·) tr.latest (latests E (ps ++ rest) tr) := by
  induction ps generalizing tr with
  | nil => exact hrest tr rfl rfl
  | cons c cs ih =>
    simp only [List.all_cons, Bool.and_eq_true] at hps
    show List.Chain (· ≤ ·) tr.latest (latests E (c :: (cs ++ rest)) tr)
    simp only [latests]
    cases ha : c.apply E tr with
    | none => exact List.Chain.nil
    | some res =>
      obtain ⟨tr1, ev⟩ := res
      simp only
      have hk : tr1.latest = tr.latest ∧ tr1.uid = tr.uid := by
        cases c with
        | begin_mailbox gs connect_ok lastid rows maxid mb => cases hps.1
        | begin_message uid => cases hps.1
        | begin_part part =>
          simp only [RxCall.apply, Option.some.injEq, Prod.mk.injEq] at ha
          obtain ⟨rfl, _⟩ := ha
          exact ⟨rfl, rfl⟩
        | append_text text =>
          simp only [RxCall.apply] at ha
          exact append_text_frame tr tr1 text ev ha
        | end_part part =>
          simp only [RxCall.apply, Option.some.injEq, Prod.mk.injEq] at ha
          obtain ⟨rfl, _⟩ := ha
          exact ⟨rfl, rfl⟩
        | end_message ins_ok upd_ok commit_ok => cases hps.1
        | end_mailbox upd_ok commit_ok => cases hps.1
      rw [List.chain_cons]
      refine ⟨by rw [hk.1], ?_⟩
      have := ih hps.2 tr1 (fun t2 h1 h2 => by
        rw [hk.1]
        exact hrest t2 (by rw [h1, hk.1]) (by rw [h2, hk.2]))
      exact this

/-- C14 (amended): `end_message` sets `latest` to the uid of the message it
ends.  For every receiver state and every sequence of messages, each fed as
`begin_message(uid)`, part calls and `end_message`, whose uids are in
non-decreasing order and not below the current `latest`, the value of
`latest` after each call is greater than or equal to its value before the
call: the values after the calls form a non-decreasing chain that starts at
the value before the first call. -/
theorem latest_monotone (E : imap_err) (ms : List RxMessage)
    (hwf : ∀ m ∈ ms, m.wf = true) (tr : sphinx_receiver)
    (hu : List.Chain (· ≤ ·) tr.latest (ms.map (fun m => m.uid))) :
    List.Chain (· ≤ ·) tr.latest (latests E (message_calls ms) tr) := by
  induction ms generalizing tr with
  | nil => exact List.Chain.nil
  | cons m ms ih =>
    simp only [List.map_cons, List.chain_cons] at hu
    have e : message_calls (m :: ms) = RxCall.begin_message m.uid ::
        (m.parts ++ (RxCall.end_message m.ins_ok m.upd_ok m.commit_ok :: message_calls ms)) := by
      simp [message_calls, RxMessage.calls]
    rw [e]
    simp only [latests, RxCall.apply]
    rw [List.chain_cons]
    refine ⟨Nat.le_refl _, ?_⟩
    have hp := latests_part_calls E m.parts (hwf m (List.mem_cons_self _ _))
      (RxCall.end_message m.ins_ok m.upd_ok m.commit_ok :: message_calls ms)
      (begin_message tr m.uid) (fun tr1 h1 h2 => by
        simp only [latests, RxCall.apply]
        cases he : end_message E m.ins_ok m.upd_ok m.commit_ok tr1 with
        | none => exact List.Chain.nil
        | some res =>
          obtain ⟨r, tr2, ev⟩ := res
          simp only [Option.map_some']
          have hl := end_message_latest E _ _ _ tr1 tr2 r ev he
          have h1' : tr1.latest = tr.latest := h1
          have h2' : tr1.uid = m.uid := h2
          have hle : tr.latest ≤ tr2.latest ∧ tr2.latest ≤ m.uid := by
            rcases hl with hl | hl
            · rw [hl, h1']; exact ⟨Nat.le_refl _, hu.1⟩
            · rw [hl, h2']; exact ⟨hu.1, Nat.le_refl _⟩
          rw [List.chain_cons]
          refine ⟨hle.1, ?_⟩
          exact ih (fun x hx => hwf x (List.mem_cons_of_mem _ hx)) tr2
            (chain_le_head _ _ _ hle.2 hu.2))
    exact hp

/-- Witness of C14 (amended): two messages with the uids 2 and 3 fed to the
sample receiver, whose `latest` is 1. -/
theorem latest_monotone_witness :
    (∀ m ∈ sample_messages 2, m.wf = true) ∧
    List.Chain (· ≤ ·) sample_open_receiver.latest
      ((sample_messages 2).map (fun m => m.uid)) ∧
    latests sample_err (message_calls (sample_messages 2)) sample_open_receiver
      = [1, 1, 1, 1, 2, 2, 2, 2, 2, 3] ∧
    List.Chain (· ≤ ·) sample_open_receiver.latest
      (latests sample_err (message_calls (sample_messages 2)) sample_open_receiver) := by
  have h1 : ∀ m ∈ sample_messages 2, m.wf = true := by decide
  have h2 : List.Chain (· ≤ ·) sample_open_receiver.latest
      ((sample_messages 2).map (fun m => m.uid)) := by
    have e : sample_open_receiver.latest = 1 := by decide
    rw [e]
    simp [sample_messages, List.range, List.range.loop]
  exact ⟨h1, h2, by decide, latest_monotone sample_err (sample_messages 2) h1 _ h2⟩

/-- Counterexample to C14 as stated: with the uids 5 and then 3, the second
`end_message` takes `latest` from 5 down to 3. -/
theorem latest_decreases :
    sample_open_receiver.latest = 1 ∧
    latests sample_err (message_calls descending_messages) sample_open_receiver
      = [1, 1, 1, 1, 5, 5, 5, 5, 5, 3] ∧
    ¬ List.Chain (· ≤ ·) 1 [1, 1, 1, 1, 5, 5, 5, 5, 5, 3] := by
  refine ⟨by decide, by decide, ?_⟩
  simp

/-! ### The byte cap (C12, C13) -/

theorem append_text_wrap_eq (tr : sphinx_receiver) (text : List Char) (hp : tr.part ≠ 0)
    (hpt : tr.parts_total < 2 ^ 32) (hlen : text.length < 2 ^ 32) (hpos : text.length ≠ 0)
    (hw : 2 ^ 32 ≤ tr.parts_total + text.length)
    (hle : tr.parts_total + text.length - 2 ^ 32 ≤ MAX_PARTS_SIZE) :
    append_text tr text
      = some ({ tr with parts_total := tr.parts_total + text.length - 2 ^ 32,
                        parts := tr.parts.modify (fun b => b ++ text) tr.part }, []) := by
  have h0 : text.length % 2 ^ 32 = text.length := Nat.mod_eq_of_lt hlen
  have h1 : (tr.parts_total + text.length) % 2 ^ 32 = tr.parts_total + text.length - 2 ^ 32 := by
    omega
  unfold append_text
  simp only [hp, ne_eq, not_false_eq_true, ↓reduceIte, h0, h1]
  have h2 : decide (tr.parts_total + text.length - 2 ^ 32 > MAX_PARTS_SIZE) = false := by
    simp only [gt_iff_lt, decide_eq_false_iff_not, Nat.not_lt]
    exact hle
  simp only [h2, Bool.false_and, Bool.false_eq_true, ↓reduceIte, hpos, not_false_eq_true,
    List.take_length, h1]

theorem body_after_append (text : List Char) :
    (([[], [], [], [], [], [], [], ['x']] : List (List Char)).modify
        (fun b => b ++ text) 7).getD 7 [] = 'x' :: text := by
  simp [List.modify, List.getD]

theorem append_text_wrap_one_byte (text : List Char) (hlen : text.length = 2 ^ 32 - 1) :
    one_byte_receiver.part = 7 ∧ one_byte_receiver.parts_total = 1 ∧
    ∃ tr1, append_text one_byte_receiver text = some (tr1, []) ∧
      tr1.parts_total = 0 ∧ (tr1.parts.getD 7 []).length = 2 ^ 32 ∧
      MAX_PARTS_SIZE < (tr1.parts.getD 7 []).length := by
  have hpart : one_byte_receiver.part = 7 := by decide
  have htot : one_byte_receiver.parts_total = 1 := by decide
  have hparts : one_byte_receiver.parts = [[], [], [], [], [], [], [], ['x']] := by decide
  refine ⟨hpart, htot, ?_⟩
  have h := append_text_wrap_eq one_byte_receiver text
    (by rw [hpart]; decide) (by rw [htot]; norm_num) (by rw [hlen]; norm_num)
    (by rw [hlen]; norm_num) (by rw [hlen, htot]; norm_num)
    (by rw [hlen, htot]; norm_num [MAX_PARTS_SIZE])
  have hbody : ((one_byte_receiver.parts.modify (fun b => b ++ text)
      one_byte_receiver.part).getD 7 []).length = 2 ^ 32 := by
    rw [hparts, hpart, body_after_append, List.length_cons, hlen]
    norm_num
  refine ⟨_, h, ?_, hbody, ?_⟩
  · show one_byte_receiver.parts_total + text.length - 2 ^ 32 = 0
    rw [htot, hlen]
    norm_num
  · show MAX_PARTS_SIZE < ((one_byte_receiver.parts.modify (fun b => b ++ text)
      one_byte_receiver.part).getD 7 []).length
    rw [hbody]
    norm_num [MAX_PARTS_SIZE]

/-- C12, evaluation at the failing input: the receiver holds one byte in the
body; `append_text` of a text of `2 ^ 32 - 1` bytes stores all of it, so the
body then holds `2 ^ 32` bytes, far above `MAX_PARTS_SIZE`, while
`parts_total` has wrapped to 0 and no diagnostic is written. -/
theorem append_text_wraps :
    one_byte_receiver.part = 7 ∧ one_byte_receiver.parts_total = 1 ∧
    ∃ tr1, append_text one_byte_receiver (List.replicate (2 ^ 32 - 1) 'y') = some (tr1, []) ∧
      tr1.parts_total = 0 ∧ (tr1.parts.getD 7 []).length = 2 ^ 32 ∧
      MAX_PARTS_SIZE < (tr1.parts.getD 7 []).length :=
  append_text_wrap_one_byte _ (List.length_replicate _ _)

theorem truncate_warnings_append (a b : List Event) :
    truncate_warnings (a ++ b) = truncate_warnings a + truncate_warnings b := by
  simp [truncate_warnings]

theorem append_text_no_wrap (tr : sphinx_receiver) (text : List Char) (hp : tr.part ≠ 0)
    (hpt : tr.parts_total ≤ MAX_PARTS_SIZE) (hlen : text.length < 2 ^ 32 - MAX_PARTS_SIZE)
    (hm : tr.mailbox.isSome = true) :
    ∃ tr1 ev, append_text tr text = some (tr1, ev) ∧
      tr1.parts_total = min (tr.parts_total + text.length) MAX_PARTS_SIZE ∧
      tr1.part = tr.part ∧ tr1.mailbox = tr.mailbox ∧
      tr1.truncate_warning = tr.truncate_warning +
        (if tr.parts_total + text.length > MAX_PARTS_SIZE then 1 else 0) ∧
      truncate_warnings ev =
        (if tr.parts_total + text.length > MAX_PARTS_SIZE ∧ tr.truncate_warning = 0
         then 1 else 0) := by
  obtain ⟨mb, hmb⟩ := Option.isSome_iff_exists.mp hm
  unfold MAX_PARTS_SIZE at hpt hlen
  have h0 : text.length % 2 ^ 32 = text.length := Nat.mod_eq_of_lt (by omega)
  have h1 : (tr.parts_total + text.length) % 2 ^ 32 = tr.parts_total + text.length :=
    Nat.mod_eq_of_lt (by omega)
  unfold append_text
  simp only [hp, ne_eq, not_false_eq_true, ↓reduceIte, h0, h1, hmb]
  by_cases hover : tr.parts_total + text.length > MAX_PARTS_SIZE
  · have hd : decide (tr.parts_total + text.length > MAX_PARTS_SIZE) = true := by
      simpa using hover
    have hlen2 : (MAX_PARTS_SIZE + 2 ^ 32 - tr.parts_total) % 2 ^ 32
        = MAX_PARTS_SIZE - tr.parts_total := by
      unfold MAX_PARTS_SIZE
      omega
    simp only [hd, Bool.true_and, ↓reduceIte, hlen2, hover, true_and]
    have hmin : min (tr.parts_total + text.length) MAX_PARTS_SIZE = MAX_PARTS_SIZE := by
      unfold MAX_PARTS_SIZE at hover ⊢
      omega
    rw [hmin]
    by_cases hfull : MAX_PARTS_SIZE - tr.parts_total = 0
    · have hpt2 : tr.parts_total = MAX_PARTS_SIZE := by
        unfold MAX_PARTS_SIZE at hfull ⊢
        omega
      by_cases htw : tr.truncate_warning = 0
      · simp [hfull, htw, truncate_warnings, hpt2]
        exact ⟨_, _, ⟨rfl, rfl⟩, by simp⟩
      · simp [hfull, htw, truncate_warnings, hpt2]
        exact ⟨_, _, ⟨rfl, rfl⟩, by simp⟩
    · have hsum : (tr.parts_total + (MAX_PARTS_SIZE - tr.parts_total)) % 2 ^ 32
          = MAX_PARTS_SIZE := by
        unfold MAX_PARTS_SIZE
        omega
      have hsum2 : (tr.parts_total + (MAX_PARTS_SIZE - tr.parts_total)) % 4294967296
          = MAX_PARTS_SIZE := hsum
      by_cases htw : tr.truncate_warning = 0
      · simp [hfull, htw, truncate_warnings, hsum]
        exact ⟨_, _, ⟨rfl, rfl⟩, by simp [hsum2]⟩
      · simp [hfull, htw, truncate_warnings, hsum]
        exact ⟨_, _, ⟨rfl, rfl⟩, by simp [hsum2]⟩
  · have hd : decide (tr.parts_total + text.length > MAX_PARTS_SIZE) = false := by
      simpa using hover
    have hmin : min (tr.parts_total + text.length) MAX_PARTS_SIZE
        = tr.parts_total + text.length := by
      unfold MAX_PARTS_SIZE at hover ⊢
      omega
    simp only [hd, Bool.false_and, Bool.false_eq_true, ↓reduceIte, hover, false_and, hmin]
    by_cases hz : text.length = 0
    · simp [hz, truncate_warnings]
      exact ⟨_, _, ⟨rfl, rfl⟩, by simp [hmb]⟩
    · have h3 : (tr.parts_total + text.length) % 4294967296
          = tr.parts_total + text.length := h1
      simp [hz, truncate_warnings, h1]
      exact ⟨_, _, ⟨rfl, rfl⟩, by simp [h3, hmb]⟩

theorem append_text_part_zero (tr : sphinx_receiver) (text : List Char) (hp : tr.part = 0) :
    append_text tr text = some (tr, []) := by
  simp [append_text, hp]

theorem truncate_warnings_of_parts (E : imap_err) (ps : List RxCall)
    (hps : ps.all RxCall.is_part_call = true) (hnw : ps.all RxCall.no_wrap = true)
    (tr : sphinx_receiver) (hm : tr.mailbox.isSome = true)
    (hpt : tr.parts_total ≤ MAX_PARTS_SIZE) :
    truncate_warnings (rx_run E ps tr).2
      = if tr.truncate_warning = 0 ∧ exceeds_cap tr.part tr.parts_total ps = true
        then 1 else 0 := by
  induction ps generalizing tr with
  | nil => simp [rx_run, truncate_warnings, exceeds_cap]
  | cons c cs ih =>
    simp only [List.all_cons, Bool.and_eq_true] at hps hnw
    cases c with
    | begin_mailbox gs connect_ok lastid rows maxid mb => cases hps.1
    | begin_message uid => cases hps.1
    | end_message ins_ok upd_ok commit_ok => cases hps.1
    | end_mailbox upd_ok commit_ok => cases hps.1
    | begin_part part =>
      simp only [rx_run, RxCall.apply, List.nil_append, exceeds_cap]
      exact ih hps.2 hnw.2 (begin_part tr part) hm hpt
    | end_part part =>
      simp only [rx_run, RxCall.apply, List.nil_append, exceeds_cap]
      exact ih hps.2 hnw.2 (end_part tr part) hm hpt
    | append_text text =>
      by_cases hp : tr.part = 0
      · simp only [rx_run, RxCall.apply, append_text_part_zero tr text hp, List.nil_append,
          exceeds_cap, hp, ne_eq, not_true_eq_false, ↓reduceIte]
        have := ih hps.2 hnw.2 tr hm hpt
        rw [hp] at this
        exact this
      · have hlen : text.length < 2 ^ 32 - MAX_PARTS_SIZE := by
          simpa [RxCall.no_wrap] using hnw.1
        obtain ⟨tr1, ev, h1, h2, h3, h4, h5, h6⟩ := append_text_no_wrap tr text hp hpt hlen hm
        simp only [rx_run, RxCall.apply, h1, exceeds_cap, hp, ne_eq, not_false_eq_true,
          ↓reduceIte]
        rw [truncate_warnings_append, h6,
          ih hps.2 hnw.2 tr1 (by rw [h4]; exact hm) (by rw [h2]; exact Nat.min_le_right _ _),
          h5, h3, h2]
        by_cases htw : tr.truncate_warning = 0
        · by_cases hover : tr.parts_total + text.length > MAX_PARTS_SIZE
          · simp [htw, hover]
          · simp [htw, hover]
        · by_cases hover : tr.parts_total + text.length > MAX_PARTS_SIZE
          · simp [htw, hover]
          · simp [htw, hover]

/-- C13 (amended): the truncation diagnostic is written once per message, not
once per call.  For every receiver with a mailbox and every sequence of part
calls that follows `begin_message`, the texts being short enough for
`parts_total + len` not to wrap, the diagnostic is written exactly once if
some `append_text` call made while a part other than 0 is current has a text
that takes the accumulated total above `MAX_PARTS_SIZE`, and is not written
otherwise; text given while part 0 is current is ignored and never counts.
`begin_message` re-arms the warning whatever its state was. -/
theorem truncation_logged_once (E : imap_err) (tr : sphinx_receiver) (uid : Nat)
    (ps : List RxCall) (hm : tr.mailbox.isSome = true)
    (hps : ps.all RxCall.is_part_call = true) (hnw : ps.all RxCall.no_wrap = true) :
    (begin_message tr uid).truncate_warning = 0 ∧
    truncate_warnings (rx_run E ps (begin_message tr uid)).2
      = if exceeds_cap tr.part 0 ps = true then 1 else 0 := by
  refine ⟨rfl, ?_⟩
  rw [truncate_warnings_of_parts E ps hps hnw (begin_message tr uid) hm
    (by simp [begin_message])]
  simp [begin_message]

theorem long_text_part_calls (text : List Char) :
    ([RxCall.begin_part 7, RxCall.append_text text, RxCall.append_text ['y'],
      RxCall.end_part 7]).all RxCall.is_part_call = true := by
  simp [RxCall.is_part_call]

theorem long_text_no_wrap (text : List Char) (hlen : text.length = MAX_PARTS_SIZE + 1) :
    ([RxCall.begin_part 7, RxCall.append_text text, RxCall.append_text ['y'],
      RxCall.end_part 7]).all RxCall.no_wrap = true := by
  simp [RxCall.no_wrap, hlen, MAX_PARTS_SIZE]

theorem long_text_exceeds (text : List Char) (hlen : text.length = MAX_PARTS_SIZE + 1) :
    (if exceeds_cap sample_open_receiver.part 0
        [RxCall.begin_part 7, RxCall.append_text text, RxCall.append_text ['y'],
         RxCall.end_part 7] = true then 1 else 0) = 1 := by
  simp [exceeds_cap, hlen]

theorem long_text_ignored (text : List Char) :
    truncate_warnings (rx_run sample_err [RxCall.append_text text]
      (begin_message sample_open_receiver 2)).2 = 0 := by
  have hp : (begin_message sample_open_receiver 2).part = 0 := by decide
  simp [rx_run, RxCall.apply, append_text_part_zero _ _ hp, truncate_warnings]

/-- Witness of C13 (amended): in the body of a message of the sample
receiver, a text one byte longer than the cap and then one more byte: both
calls truncate, one diagnostic is written. -/
theorem truncation_logged_once_witness :
    sample_open_receiver.mailbox.isSome = true ∧
    truncate_warnings (rx_run sample_err
        [RxCall.begin_part 7, RxCall.append_text (List.replicate (MAX_PARTS_SIZE + 1) 'x'),
         RxCall.append_text ['y'], RxCall.end_part 7]
        (begin_message sample_open_receiver 2)).2 = 1 :=
  have hm : sample_open_receiver.mailbox.isSome = true := by decide
  have hlen : (List.replicate (MAX_PARTS_SIZE + 1) 'x').length = MAX_PARTS_SIZE + 1 :=
    List.length_replicate _ _
  ⟨hm, (truncation_logged_once sample_err sample_open_receiver 2 _ hm
    (long_text_part_calls _) (long_text_no_wrap _ hlen)).2.trans (long_text_exceeds _ hlen)⟩

/-- Counterexample to C13 as stated: after `begin_message`, with no part
begun (part 0 is current), `append_text` of a text one byte longer than the
cap is ignored and writes no diagnostic, although the text would take the
accumulated total, 0, above the cap. -/
theorem truncation_not_logged :
    (begin_message sample_open_receiver 2).part = 0 ∧
    (begin_message sample_open_receiver 2).parts_total = 0 ∧
    MAX_PARTS_SIZE < 0 + (List.replicate (MAX_PARTS_SIZE + 1) 'x').length ∧
    truncate_warnings (rx_run sample_err
        [RxCall.append_text (List.replicate (MAX_PARTS_SIZE + 1) 'x')]
        (begin_message sample_open_receiver 2)).2 = 0 :=
  have hlen : (List.replicate (MAX_PARTS_SIZE + 1) 'x').length = MAX_PARTS_SIZE + 1 :=
    List.length_replicate _ _
  ⟨by decide, by decide, by rw [hlen]; omega, long_text_ignored _⟩

/-! ## The snippet receiver (C17) -/

theorem fed_until_stop_cons_zero {α : Type} (proc : List α → α → Int) (done kept : List α)
    (x : α) (r : Int) (given : List α) (hx : proc done x = 0)
    (h : fed_until_stop proc (done ++ [x]) kept r given) :
    fed_until_stop proc done (x :: kept) r given := by
  rcases h with ⟨h1, h2, h3⟩ | ⟨h1, pre, y, rest, h2, h3, h4, h5⟩
  · refine Or.inl ⟨h1, by simp [h2], ?_⟩
    intro pre y rest hk
    cases pre with
    | nil =>
      simp only [List.nil_append, List.cons.injEq] at hk
      rw [← hk.1]; simpa using hx
    | cons p ps =>
      simp only [List.cons_append, List.cons.injEq] at hk
      have := h3 ps y rest hk.2
      rw [← hk.1]
      simpa using this
  · refine Or.inr ⟨h1, x :: pre, y, rest, by simp [h2], by simp [h3], by simpa using h4, ?_⟩
    intro p1 y1 r1 hk
    cases p1 with
    | nil =>
      simp only [List.nil_append, List.cons.injEq] at hk
      rw [← hk.1]; simpa using hx
    | cons p ps =>
      simp only [List.cons_append, List.cons.injEq] at hk
      have := h5 ps y1 r1 hk.2
      rw [← hk.1]
      simpa using this

theorem fed_until_stop_cons_stop {α : Type} (proc : List α → α → Int) (done kept : List α)
    (x : α) (hx : proc done x ≠ 0) :
    fed_until_stop proc done (x :: kept) (proc done x) (done ++ [x]) := by
  refine Or.inr ⟨hx, [], x, kept, rfl, by simp, by simp, ?_⟩
  intro p1 h1 r1 hk
  simp at hk

theorem kept_snippets_cons (tr : sphinx_receiver) (i : Nat) (row : List Char)
    (rows : List (List Char)) :
    kept_snippets tr i (row :: rows)
      = if cstr row ≠ [] then (tr.mailbox, tr.uid, i, row) :: kept_snippets tr (i + 1) rows
        else kept_snippets tr (i + 1) rows := by
  unfold kept_snippets
  simp only [List.enumFrom_cons, List.filter_cons]
  by_cases h : cstr row = []
  · simp [h]
  · simp [h]

theorem snippet_row_loop_fed (proc : SnippetProc) (tr : sphinx_receiver)
    (rows : List (List Char)) (i : Nat) (done : List SnippetCall) :
    fed_until_stop proc done (kept_snippets tr i rows)
      (snippet_row_loop proc tr rows i 0 done).1 (snippet_row_loop proc tr rows i 0 done).2 := by
  induction rows generalizing i done with
  | nil =>
    refine Or.inl ⟨rfl, by simp [snippet_row_loop, kept_snippets], ?_⟩
    intro pre x rest hk
    simp [kept_snippets] at hk
  | cons row rows ih =>
    rw [kept_snippets_cons]
    by_cases hrow : cstr row = []
    · simp only [snippet_row_loop, hrow, ne_eq, not_true_eq_false, ↓reduceIte]
      exact ih (i + 1) done
    · simp only [snippet_row_loop, ne_eq, hrow, not_false_eq_true, ↓reduceIte]
      by_cases hr : proc done (tr.mailbox, tr.uid, i, row) = 0
      · simp only [hr, not_true_eq_false, ↓reduceIte]
        exact fed_until_stop_cons_zero proc done _ _ _ _ hr (ih (i + 1) _)
      · simp only [hr, not_false_eq_true, ↓reduceIte]
        exact fed_until_stop_cons_stop proc done _ _ hr

/-- C17: `end_message_snippets` fails with `IMAP_INTERNAL`, sending nothing
and making no callback, when no connection is open.  With an open connection
and no stored query it returns 0, sends no statement and makes no callback.
With a stored query it sends one statement and, when the daemon answers with
rows, invokes the callback in row order, with the position of the row as
field index, for exactly the rows that are not empty, stops at the first
non-zero callback result and returns it, and returns 0 if no callback
returns non-zero. -/
theorem snippets_callbacks (E : imap_err) (proc : SnippetProc) (tr : sphinx_receiver) :
    (tr.conn.mysql = none → ∀ q rows,
      end_message_snippets E q proc rows tr = (E.IMAP_INTERNAL, [], [])) ∧
    (tr.conn.mysql ≠ none → ∀ rows,
      end_message_snippets E none proc rows tr = (0, [], [])) ∧
    (tr.conn.mysql ≠ none → ∀ q rows,
      (end_message_snippets E (some q) proc (some rows) tr).2.1
        = [Event.query (snippets_statement tr.parts q)] ∧
      fed_until_stop proc [] (kept_snippets tr 0 rows)
        (end_message_snippets E (some q) proc (some rows) tr).1
        (end_message_snippets E (some q) proc (some rows) tr).2.2) := by
  refine ⟨?_, ?_, ?_⟩
  · intro h q rows
    simp [end_message_snippets, h]
  · intro h rows
    cases hm : tr.conn.mysql with
    | none => exact absurd hm h
    | some p => simp [end_message_snippets, hm]
  · intro h q rows
    cases hm : tr.conn.mysql with
    | none => exact absurd hm h
    | some p =>
      simp only [end_message_snippets, hm, Option.isNone_some, Bool.false_eq_true, ↓reduceIte,
        true_and]
      exact snippet_row_loop_fed proc tr rows 0 []

/-- Witness of C17: the sample receiver, a stored query, three rows of which
the second is empty, and a callback that stops with 5 at row 2. -/
theorem snippets_callbacks_witness :
    sample_open_receiver.conn.mysql ≠ none ∧
    end_message_snippets sample_err (some ['q'])
        (fun _ c => if c.2.2.1 = 2 then 5 else 0)
        (some [['a'], [], ['c'], ['d']]) sample_open_receiver
      = (5, [Event.query (snippets_statement sample_open_receiver.parts ['q'])],
          [(some sample_mailbox, 0, 0, ['a']), (some sample_mailbox, 0, 2, ['c'])]) ∧
    fed_until_stop (fun _ c => if c.2.2.1 = 2 then 5 else 0) []
      (kept_snippets sample_open_receiver 0 [['a'], [], ['c'], ['d']]) 5
      [(some sample_mailbox, 0, 0, ['a']), (some sample_mailbox, 0, 2, ['c'])] := by
  have hopen : sample_open_receiver.conn.mysql ≠ none := by decide
  have hrun : end_message_snippets sample_err (some ['q'])
        (fun _ c => if c.2.2.1 = 2 then 5 else 0)
        (some [['a'], [], ['c'], ['d']]) sample_open_receiver
      = (5, [Event.query (snippets_statement sample_open_receiver.parts ['q'])],
          [(some sample_mailbox, 0, 0, ['a']), (some sample_mailbox, 0, 2, ['c'])]) := rfl
  have h := ((snippets_callbacks sample_err (fun _ c => if c.2.2.1 = 2 then 5 else 0)
    sample_open_receiver).2.2 hopen ['q'] [['a'], [], ['c'], ['d']]).2
  rw [hrun] at h
  exact ⟨hopen, hrun, h⟩

/-! ## The query inside the snippet statement (C26) -/

theorem quote_scan_append (a b : List Char) : ∀ e,
    quote_scan e (a ++ b) = (quote_scan e a).bind (fun e1 => quote_scan e1 b) := by
  induction a with
  | nil => intro e; simp [quote_scan]
  | cons c cs ih =>
    intro e
    cases e with
    | true => simp [quote_scan, ih]
    | false =>
      simp only [List.cons_append, quote_scan]
      split
      · exact ih true
      · split
        · rfl
        · exact ih false

theorem quote_scan_plain (s : List Char) (h : ∀ c ∈ s, c ≠ BACKSLASH ∧ c ≠ SQUOTE) :
    quote_scan false s = some false := by
  induction s with
  | nil => rfl
  | cons c cs ih =>
    have hc := h c (by simp)
    simp only [quote_scan, hc.1, hc.2, ↓reduceIte]
    exact ih (fun x hx => h x (by simp [hx]))

theorem quote_scan_escaped (t : List Char) :
    quote_scan false (escaped_text t) = some false := by
  induction t with
  | nil => rfl
  | cons c cs ih =>
    simp only [escaped_text, escaped_byte]
    rw [quote_scan_append]
    by_cases hc : c = BACKSLASH ∨ c = SQUOTE ∨ c = DQUOTE
    · simp [hc, quote_scan, ih]
    · have h1 : c ≠ BACKSLASH := fun h => hc (Or.inl h)
      have h2 : c ≠ SQUOTE := fun h => hc (Or.inr (Or.inl h))
      have h3 : c ≠ DQUOTE := fun h => hc (Or.inr (Or.inr h))
      simp [quote_scan, h1, h2, h3, ih]

theorem scan_literal_of_quote_scan (rest : List Char) : ∀ (s : List Char) (e : Bool),
    quote_scan e s = some false →
    ∃ u, scan_literal_from SQUOTE e (s ++ SQUOTE :: rest) = some (u, rest) := by
  intro s
  induction s with
  | nil =>
    intro e h
    simp only [quote_scan, Option.some.injEq] at h
    subst h
    have hq : SQUOTE ≠ BACKSLASH := by decide
    exact ⟨[], by simp [scan_literal_from, hq]⟩
  | cons c cs ih =>
    intro e h
    cases e with
    | true =>
      simp only [quote_scan] at h
      obtain ⟨u, hu⟩ := ih false h
      exact ⟨c :: u, by simp [scan_literal_from, hu]⟩
    | false =>
      simp only [quote_scan] at h
      by_cases hb : c = BACKSLASH
      · simp only [hb, ↓reduceIte] at h
        obtain ⟨u, hu⟩ := ih true h
        exact ⟨u, by simp [scan_literal_from, hb, hu]⟩
      · by_cases hs : c = SQUOTE
        · simp only [hb, hs, ↓reduceIte] at h
          cases h
        · simp only [hb, hs, ↓reduceIte] at h
          obtain ⟨u, hu⟩ := ih false h
          exact ⟨c :: u, by simp [scan_literal_from, hb, hs, hu]⟩

theorem quote_scan_selector_small : ∀ part, part < 9 → ∀ excl : Bool,
    quote_scan false (field_selector excl part) = some false := by
  decide

theorem quote_scan_field_selector (excl : Bool) (part : Nat) :
    quote_scan false (field_selector excl part) = some false := by
  by_cases h : part < 9
  · exact quote_scan_selector_small part h excl
  · rw [field_selector_large excl part (by omega)]
    exact quote_scan_selector_small 8 (by omega) excl

theorem quote_scan_leaf_text (excl : Bool) (part : Nat) (str : Option (List Char)) :
    quote_scan false (leaf_text excl part str) = some false := by
  have hd : quote_scan false [DQUOTE] = some false := by decide
  unfold leaf_text
  rw [quote_scan_append, quote_scan_field_selector, Option.some_bind, quote_scan_append,
    quote_scan_append, hd, Option.some_bind, quote_scan_escaped, Option.some_bind, hd]

theorem quote_scan_child_separator (top : opstack) :
    quote_scan false (child_separator top) = some false := by
  unfold child_separator
  split
  · decide
  · split <;> decide

theorem quote_scan_negation_marker (op : SearchOp) :
    quote_scan false (negation_marker op) = some false := by
  unfold negation_marker
  split <;> decide

mutual
/-- The text of a tree holds no unescaped single quote and ends outside an
escape. -/
theorem quote_scan_tree_text (excl : Bool) : ∀ (t : QTree),
    quote_scan false (tree_text excl t) = some false
  | .leaf part str => by
    simp only [tree_text]
    exact quote_scan_leaf_text excl part str
  | .group op cs => by
    have hcs := quote_scan_children_text excl op cs 0
    simp only [tree_text]
    rw [quote_scan_append, quote_scan_append, quote_scan_negation_marker, Option.some_bind,
      hcs, Option.some_bind]
    split <;> decide
/-- The same for the children of a group. -/
theorem quote_scan_children_text (excl : Bool) (op : SearchOp) : ∀ (ts : List QTree) (i : Nat),
    quote_scan false (children_text excl op i ts) = some false
  | [], i => by
    simp [children_text, quote_scan]
  | t :: ts, i => by
    have ht := quote_scan_tree_text excl t
    have hts := quote_scan_children_text excl op ts (i + 1)
    simp only [children_text]
    rw [quote_scan_append, quote_scan_append, quote_scan_child_separator, Option.some_bind,
      ht, Option.some_bind, hts]
end

/-- C26: for every tree and every match texts, the query the compiler
builds holds no unescaped single quote and does not end on a pending
backslash, a backslash consuming the following byte.  So in the statement of
`end_message_snippets`, which embeds the query unescaped between single
quotes, the literal read from its opening quote ends exactly at the closing
quote the function writes, whatever the match texts are. -/
theorem snippet_query_literal (excl : Bool) (mb : mailbox) (opts : search_opts) (t : QTree)
    (parts : List (List Char)) :
    ∃ bb, run excl t.calls (begin_search mb opts) = some bb ∧
      quote_scan false bb.query = some false ∧
      snippets_statement parts bb.query
        = snippets_head parts ++ SQUOTE :: (bb.query ++ SQUOTE :: snippets_tail) ∧
      (∀ rest, ∃ u, scan_literal SQUOTE (bb.query ++ SQUOTE :: rest) = some (u, rest)) := by
  refine ⟨_, run_tree_query excl mb opts t, quote_scan_tree_text excl t, ?_, ?_⟩
  · simp [snippets_statement, snippets_head, snippets_tail]
  · intro rest
    exact scan_literal_of_quote_scan rest _ false (quote_scan_tree_text excl t)

/-! ## Closed forms of the receiver operations (C21 to C25) -/

theorem write_latest_eq (E : imap_err) (ok : Bool) (tr : sphinx_receiver) (mb : mailbox)
    (hmb : tr.mailbox = some mb) :
    write_latest E ok tr
      = some (0, { tr with latest_id := upserted_id ok tr },
          [Event.query (latest_statement mb tr)]) := by
  unfold write_latest upserted_id latest_statement
  by_cases h : tr.latest_id = 0
  · simp only [h, ne_eq, not_true_eq_false, ↓reduceIte, hmb]
    cases tr
    simp only at h hmb
    cases ok <;>
      simp [h, hmb, insert_latest_statement, quoted, append_escaped_cstr,
        append_escaped_map_eq]
  · simp only [h, ne_eq, not_false_eq_true, ↓reduceIte]
    cases ok <;> simp [update_latest_statement]

theorem flush_eq (E : imap_err) (upd_ok commit_ok force : Bool) (tr : sphinx_receiver)
    (mb : mailbox) (hmb : tr.mailbox = some mb) :
    flush E upd_ok commit_ok force tr
      = if (!force && decide (tr.uncommitted < MAX_UNCOMMITTED)) = true then some (0, tr, [])
        else some (if commit_ok then 0 else E.IMAP_IOERROR,
          { tr with latest_id := if tr.uncommitted ≠ 0 then upserted_id upd_ok tr
                                 else tr.latest_id,
                    uncommitted := if commit_ok then 0 else tr.uncommitted },
          (if tr.uncommitted ≠ 0 then [Event.query (latest_statement mb tr)] else [])
            ++ [Event.commit]) := by
  unfold flush
  split
  · rfl
  · by_cases hu : tr.uncommitted = 0
    · simp only [hu, ne_eq, not_true_eq_false, ↓reduceIte]
      cases tr
      simp only at hmb hu
      cases commit_ok <;> simp [hmb, hu]
    · simp only [hu, ne_eq, not_false_eq_true, ↓reduceIte, write_latest_eq E upd_ok tr mb hmb]
      cases commit_ok <;> simp [hmb]

theorem end_message_rejected (E : imap_err) (upd_ok commit_ok : Bool) (tr : sphinx_receiver)
    (mb : mailbox) (hc : tr.conn.mysql.isSome = true) (hmb : tr.mailbox = some mb) :
    end_message E false upd_ok commit_ok tr
      = some (0, { tr with query := insert_statement mb ((tr.lastid + 1) % 2 ^ 32) tr.uid tr.parts,
                           lastid := (tr.lastid + 1) % 2 ^ 32, uid := 0 },
          [Event.query (insert_statement mb ((tr.lastid + 1) % 2 ^ 32) tr.uid tr.parts)]) := by
  have hn : tr.conn.mysql.isNone = false := by
    cases h : tr.conn.mysql <;> simp [h] at hc ⊢
  simp [end_message, hn, hmb]

theorem end_message_batched (E : imap_err) (upd_ok commit_ok : Bool) (tr : sphinx_receiver)
    (mb : mailbox) (hc : tr.conn.mysql.isSome = true) (hmb : tr.mailbox = some mb)
    (hu : (tr.uncommitted + 1) % 2 ^ 32 < MAX_UNCOMMITTED) :
    end_message E true upd_ok commit_ok tr
      = some (0, { tr with query := insert_statement mb ((tr.lastid + 1) % 2 ^ 32) tr.uid tr.parts,
                           lastid := (tr.lastid + 1) % 2 ^ 32,
                           uncommitted := (tr.uncommitted + 1) % 2 ^ 32,
                           latest := tr.uid, uid := 0 },
          [Event.query (insert_statement mb ((tr.lastid + 1) % 2 ^ 32) tr.uid tr.parts)]) := by
  have hn : tr.conn.mysql.isNone = false := by
    cases h : tr.conn.mysql <;> simp [h] at hc ⊢
  have hu2 : (tr.uncommitted + 1) % 4294967296 < MAX_UNCOMMITTED := hu
  simp [end_message, hn, hmb, flush, hu2]

theorem end_message_flushed (E : imap_err) (upd_ok commit_ok : Bool) (tr : sphinx_receiver)
    (mb : mailbox) (hc : tr.conn.mysql.isSome = true) (hmb : tr.mailbox = some mb)
    (hu : ¬ (tr.uncommitted + 1) % 2 ^ 32 < MAX_UNCOMMITTED) :
    end_message E true upd_ok commit_ok tr
      = some (0, { tr with query := insert_statement mb ((tr.lastid + 1) % 2 ^ 32) tr.uid tr.parts,
                           lastid := (tr.lastid + 1) % 2 ^ 32,
                           uncommitted := if commit_ok then 0
                                          else (tr.uncommitted + 1) % 2 ^ 32,
                           latest := tr.uid, latest_id := upserted_id upd_ok tr, uid := 0 },
          [Event.query (insert_statement mb ((tr.lastid + 1) % 2 ^ 32) tr.uid tr.parts),
           Event.query (latest_statement mb { tr with latest := tr.uid }), Event.commit]) := by
  have hn : tr.conn.mysql.isNone = false := by
    cases h : tr.conn.mysql <;> simp [h] at hc ⊢
  have h0 : (tr.uncommitted + 1) % 2 ^ 32 ≠ 0 := by
    unfold MAX_UNCOMMITTED at hu
    omega
  have h1 : ¬ (tr.uncommitted + 1) % 4294967296 = 0 := h0
  have h2 : ¬ (tr.uncommitted + 1) % 4294967296 < MAX_UNCOMMITTED := hu
  simp only [end_message, hn, Bool.false_eq_true, ↓reduceIte, hmb, Bool.not_true]
  rw [flush_eq E upd_ok commit_ok false _ mb rfl]
  simp [hu, h0, h1, h2, upserted_id, latest_statement]

theorem end_mailbox_open (E : imap_err) (upd_ok commit_ok : Bool) (tr : sphinx_receiver)
    (mb : mailbox) (hc : tr.conn.mysql.isSome = true) (hmb : tr.mailbox = some mb) :
    end_mailbox E upd_ok commit_ok tr
      = some (if commit_ok then 0 else E.IMAP_IOERROR,
          { tr with latest_id := if tr.uncommitted ≠ 0 then upserted_id upd_ok tr
                                 else tr.latest_id,
                    uncommitted := if commit_ok then 0 else tr.uncommitted,
                    conn := { mysql := none, socket_path := none }, mailbox := none },
          (if tr.uncommitted ≠ 0 then [Event.query (latest_statement mb tr)] else [])
            ++ [Event.commit, Event.close]) := by
  simp only [end_mailbox, hc, ↓reduceIte]
  rw [flush_eq E upd_ok commit_ok true tr mb hmb]
  simp [close_connection, hc]

/-! ## The buffer of part 0 (C25) -/

theorem read_lastid_fields (E : imap_err) (maxid : Option (Option (List Char)))
    (tr : sphinx_receiver) :
    (read_lastid E maxid tr).2.1.parts = tr.parts ∧
    (read_lastid E maxid tr).2.1.part = tr.part ∧
    (read_lastid E maxid tr).2.1.uncommitted = tr.uncommitted := by
  unfold read_lastid
  cases maxid with
  | none => exact ⟨rfl, rfl, rfl⟩
  | some m => cases m <;> exact ⟨rfl, rfl, rfl⟩

theorem read_latest_fields (E : imap_err)
    (rows : Option (List (List Char × List Char × List Char)))
    (maxid : Option (Option (List Char))) (tr tr1 : sphinx_receiver) (r : Int)
    (ev : List Event) (h : read_latest E rows maxid tr = some (r, tr1, ev)) :
    tr1.parts = tr.parts ∧ tr1.part = tr.part ∧ tr1.uncommitted = tr.uncommitted := by
  unfold read_latest at h
  split at h
  · cases h
  · simp only at h
    cases rows with
    | none =>
      simp only [Option.some.injEq, Prod.mk.injEq] at h
      obtain ⟨_, rfl, _⟩ := h
      exact ⟨rfl, rfl, rfl⟩
    | some rs =>
      cases maxid with
      | none =>
        simp only [Option.some.injEq, Prod.mk.injEq] at h
        obtain ⟨_, rfl, _⟩ := h
        exact ⟨rfl, rfl, rfl⟩
      | some m =>
        cases m with
        | none =>
          simp only [Option.some.injEq, Prod.mk.injEq] at h
          obtain ⟨_, rfl, _⟩ := h
          exact ⟨rfl, rfl, rfl⟩
        | some v =>
          simp only [Option.some.injEq, Prod.mk.injEq] at h
          obtain ⟨_, rfl, _⟩ := h
          exact ⟨rfl, rfl, rfl⟩

theorem begin_mailbox_fields (E : imap_err) (gs : Int × List Char)
    (connect_ok : Bool) (lastid : Option (Option (List Char)))
    (rows : Option (List (List Char × List Char × List Char)))
    (maxid : Option (Option (List Char))) (tr tr1 : sphinx_receiver) (mb : mailbox)
    (r : Int) (ev : List Event)
    (h : begin_mailbox E gs connect_ok lastid rows maxid tr mb = some (r, tr1, ev)) :
    tr1.parts = tr.parts ∧ tr1.part = tr.part ∧ tr1.uncommitted = tr.uncommitted := by
  unfold begin_mailbox at h
  simp only at h
  split at h
  · simp only [Option.some.injEq, Prod.mk.injEq] at h
    obtain ⟨_, rfl, _⟩ := h
    exact ⟨rfl, rfl, rfl⟩
  · split at h
    · simp only [Option.some.injEq, Prod.mk.injEq] at h
      obtain ⟨_, rfl, _⟩ := h
      exact read_lastid_fields E lastid _
    · split at h
      · cases h
      · rename_i r2 tr2 ev2 hrl
        simp only [Option.some.injEq, Prod.mk.injEq] at h
        obtain ⟨_, rfl, _⟩ := h
        have h1 := read_latest_fields E rows maxid _ tr2 r2 ev2 hrl
        have h2 := read_lastid_fields E lastid
          { tr with conn := (get_connection E gs connect_ok mb.name tr.conn).2.1,
                    mailbox := some mb }
        exact ⟨h1.1.trans h2.1, h1.2.1.trans h2.2.1, h1.2.2.trans h2.2.2⟩

theorem end_message_fields (E : imap_err) (ins_ok upd_ok commit_ok : Bool)
    (tr tr1 : sphinx_receiver) (r : Int) (ev : List Event)
    (h : end_message E ins_ok upd_ok commit_ok tr = some (r, tr1, ev)) :
    tr1.parts = tr.parts ∧ tr1.part = tr.part ∧ tr1.latest_lastid = tr.latest_lastid := by
  cases hm : tr.conn.mysql with
  | none =>
    rw [end_message_unopened E ins_ok upd_ok commit_ok tr hm] at h
    simp only [Option.some.injEq, Prod.mk.injEq] at h
    obtain ⟨_, rfl, _⟩ := h
    exact ⟨rfl, rfl, rfl⟩
  | some p =>
    have hc : tr.conn.mysql.isSome = true := by simp [hm]
    cases hmb : tr.mailbox with
    | none => simp [end_message, hm, hmb] at h
    | some mb =>
      cases ins_ok with
      | false =>
        rw [end_message_rejected E upd_ok commit_ok tr mb hc hmb] at h
        simp only [Option.some.injEq, Prod.mk.injEq] at h
        obtain ⟨_, rfl, _⟩ := h
        exact ⟨rfl, rfl, rfl⟩
      | true =>
        by_cases hu : (tr.uncommitted + 1) % 2 ^ 32 < MAX_UNCOMMITTED
        · rw [end_message_batched E upd_ok commit_ok tr mb hc hmb hu] at h
          simp only [Option.some.injEq, Prod.mk.injEq] at h
          obtain ⟨_, rfl, _⟩ := h
          exact ⟨rfl, rfl, rfl⟩
        · rw [end_message_flushed E upd_ok commit_ok tr mb hc hmb hu] at h
          simp only [Option.some.injEq, Prod.mk.injEq] at h
          obtain ⟨_, rfl, _⟩ := h
          exact ⟨rfl, rfl, rfl⟩

theorem end_mailbox_fields (E : imap_err) (upd_ok commit_ok : Bool)
    (tr tr1 : sphinx_receiver) (r : Int) (ev : List Event) (hinv : conn_has_mailbox tr)
    (h : end_mailbox E upd_ok commit_ok tr = some (r, tr1, ev)) :
    tr1.parts = tr.parts ∧ tr1.part = tr.part ∧ tr1.latest_lastid = tr.latest_lastid := by
  cases hm : tr.conn.mysql with
  | none =>
    simp only [end_mailbox, hm, Option.isSome_none, Bool.false_eq_true, ↓reduceIte,
      Option.some.injEq, Prod.mk.injEq] at h
    obtain ⟨_, rfl, _⟩ := h
    exact ⟨rfl, rfl, rfl⟩
  | some p =>
    have hc : tr.conn.mysql.isSome = true := by simp [hm]
    obtain ⟨mb, hmb⟩ := Option.isSome_iff_exists.mp (hinv hc)
    rw [end_mailbox_open E upd_ok commit_ok tr mb hc hmb] at h
    simp only [Option.some.injEq, Prod.mk.injEq] at h
    obtain ⟨_, rfl, _⟩ := h
    exact ⟨rfl, rfl, rfl⟩

theorem append_text_fields (tr tr1 : sphinx_receiver) (text : List Char) (ev : List Event)
    (h : append_text tr text = some (tr1, ev)) :
    tr1.part = tr.part ∧
    (tr1.parts = tr.parts ∨
      (tr.part ≠ 0 ∧ ∃ t, tr1.parts = tr.parts.modify (fun b => b ++ t) tr.part)) := by
  unfold append_text at h
  by_cases hp : tr.part = 0
  · simp only [hp, ne_eq, not_true_eq_false, ↓reduceIte, Option.some.injEq,
      Prod.mk.injEq] at h
    obtain ⟨rfl, _⟩ := h
    exact ⟨rfl, Or.inl rfl⟩
  · simp only [hp, ne_eq, not_false_eq_true, ↓reduceIte] at h
    split at h
    · split at h
      · cases h
      · simp only [Option.some.injEq, Prod.mk.injEq] at h
        obtain ⟨rfl, _⟩ := h
        split
        · split
          · exact ⟨rfl, Or.inr ⟨hp, _, rfl⟩⟩
          · exact ⟨rfl, Or.inl rfl⟩
        · split
          · exact ⟨rfl, Or.inr ⟨hp, _, rfl⟩⟩
          · exact ⟨rfl, Or.inl rfl⟩
    · simp only [Option.some.injEq, Prod.mk.injEq] at h
      obtain ⟨rfl, _⟩ := h
      split
      · split
        · exact ⟨rfl, Or.inr ⟨hp, _, rfl⟩⟩
        · exact ⟨rfl, Or.inl rfl⟩
      · split
        · exact ⟨rfl, Or.inr ⟨hp, _, rfl⟩⟩
        · exact ⟨rfl, Or.inl rfl⟩

theorem fields_valid_modify (tr : sphinx_receiver) (hv : fields_valid tr) (hp : tr.part ≠ 0)
    (t : List Char) :
    (tr.parts.modify (fun b => b ++ t) tr.part).length = SEARCH_NUM_PARTS ∧
    (tr.parts.modify (fun b => b ++ t) tr.part).getD 0 [] = [] := by
  refine ⟨by rw [List.length_modify]; exact hv.1, ?_⟩
  have h0 := hv.2.2
  rw [List.getD_eq_getElem?_getD] at h0 ⊢
  rw [List.getElem?_modify_ne _ _ hp]
  exact h0

theorem apply_fields_valid (E : imap_err) (c : RxCall) (hc : c.in_range = true)
    (tr tr1 : sphinx_receiver) (ev : List Event) (hinv : conn_has_mailbox tr)
    (hv : fields_valid tr) (h : c.apply E tr = some (tr1, ev)) :
    fields_valid tr1 := by
  cases c with
  | begin_mailbox gs connect_ok lastid rows maxid mb =>
    simp only [RxCall.apply, Option.map_eq_some'] at h
    obtain ⟨⟨r, t, e⟩, h1, h2⟩ := h
    simp only [Prod.mk.injEq] at h2
    obtain ⟨rfl, rfl⟩ := h2
    have hf := begin_mailbox_fields E gs connect_ok lastid rows maxid tr _ mb r _ h1
    unfold fields_valid
    rw [hf.1, hf.2.1]
    exact hv
  | begin_message uid =>
    simp only [RxCall.apply, Option.some.injEq, Prod.mk.injEq] at h
    obtain ⟨rfl, _⟩ := h
    exact ⟨by simp [begin_message], hv.2.1, by simp [begin_message, SEARCH_NUM_PARTS]⟩
  | begin_part part =>
    simp only [RxCall.apply, Option.some.injEq, Prod.mk.injEq] at h
    obtain ⟨rfl, _⟩ := h
    exact ⟨hv.1, by simpa [RxCall.in_range] using hc, hv.2.2⟩
  | append_text text =>
    simp only [RxCall.apply] at h
    have hf := append_text_fields tr tr1 text ev h
    unfold fields_valid
    rw [hf.1]
    rcases hf.2 with h1 | ⟨hp, t, h1⟩
    · rw [h1]
      exact hv
    · rw [h1]
      have := fields_valid_modify tr hv hp t
      exact ⟨this.1, hv.2.1, this.2⟩
  | end_part part =>
    simp only [RxCall.apply, Option.some.injEq, Prod.mk.injEq] at h
    obtain ⟨rfl, _⟩ := h
    exact ⟨hv.1, by simp [end_part, SEARCH_NUM_PARTS], hv.2.2⟩
  | end_message ins_ok upd_ok commit_ok =>
    simp only [RxCall.apply, Option.map_eq_some'] at h
    obtain ⟨⟨r, t, e⟩, h1, h2⟩ := h
    simp only [Prod.mk.injEq] at h2
    obtain ⟨rfl, rfl⟩ := h2
    have hf := end_message_fields E ins_ok upd_ok commit_ok tr _ r _ h1
    unfold fields_valid
    rw [hf.1, hf.2.1]
    exact hv
  | end_mailbox upd_ok commit_ok =>
    simp only [RxCall.apply, Option.map_eq_some'] at h
    obtain ⟨⟨r, t, e⟩, h1, h2⟩ := h
    simp only [Prod.mk.injEq] at h2
    obtain ⟨rfl, rfl⟩ := h2
    have hf := end_mailbox_fields E upd_ok commit_ok tr _ r _ hinv h1
    unfold fields_valid
    rw [hf.1, hf.2.1]
    exact hv

theorem rx_run_fields_valid (E : imap_err) (calls : List RxCall)
    (hr : ∀ c ∈ calls, c.in_range = true) (tr : sphinx_receiver)
    (hinv : conn_has_mailbox tr) (hv : fields_valid tr) :
    fields_valid (rx_run E calls tr).1 := by
  induction calls generalizing tr with
  | nil => exact hv
  | cons c cs ih =>
    simp only [rx_run]
    cases h : c.apply E tr with
    | none => exact hv
    | some x =>
      obtain ⟨tr1, ev⟩ := x
      exact ih (fun d hd => hr d (by simp [hd])) tr1
        (apply_conn_has_mailbox E c tr tr1 ev hinv h)
        (apply_fields_valid E c (hr c (by simp)) tr tr1 ev hinv hv h)

theorem begin_update_valid (verbose : Nat) :
    conn_has_mailbox (begin_update verbose) ∧ fields_valid (begin_update verbose) := by
  refine ⟨fun h => by simp [begin_update, CONNECTION_INITIALIZER] at h, ?_⟩
  simp [fields_valid, begin_update, SEARCH_NUM_PARTS]

theorem filled_has_column (parts : List (List Char)) (h0 : parts.getD 0 [] = []) :
    ∀ i ∈ filled_fields parts, 0 < i ∧ i < SEARCH_NUM_PARTS ∧ (column_by_part i).isSome = true := by
  intro i hi
  simp only [filled_fields, List.mem_filter, List.mem_range, decide_eq_true_eq] at hi
  have hi0 : i ≠ 0 := by
    intro h
    rw [h, h0] at hi
    exact hi.2 rfl
  refine ⟨Nat.pos_of_ne_zero hi0, hi.1, ?_⟩
  have hlt := hi.1
  unfold SEARCH_NUM_PARTS at hlt
  interval_cases i
  · exact absurd rfl hi0
  all_goals decide

/-- C25: in every state reached from a fresh receiver by receiver calls whose
`begin_part` calls name a field inside the field range (0 to 7), the
accumulator holds its 8 buffers, the current part is inside the range and the
buffer of part 0 is empty, since `append_text` stores nothing while part 0 is
current.  Hence every field with text has a column name: the column list
`end_message` builds never names the missing column of part 0. -/
theorem field_zero_empty (E : imap_err) (verbose : Nat) (calls : List RxCall)
    (hr : ∀ c ∈ calls, c.in_range = true) :
    (∀ tr text, tr.part = 0 → append_text tr text = some (tr, [])) ∧
    (rx_run E calls (begin_update verbose)).1.parts.length = SEARCH_NUM_PARTS ∧
    (rx_run E calls (begin_update verbose)).1.part < SEARCH_NUM_PARTS ∧
    (rx_run E calls (begin_update verbose)).1.parts.getD 0 [] = [] ∧
    (∀ i, i < SEARCH_NUM_PARTS →
      ((rx_run E calls (begin_update verbose)).1.parts.getD i []).length ≠ 0 →
      (column_by_part i).isSome = true) := by
  have hv := rx_run_fields_valid E calls hr (begin_update verbose)
    (begin_update_valid verbose).1 (begin_update_valid verbose).2
  refine ⟨append_text_part_zero, hv.1, hv.2.1, hv.2.2, ?_⟩
  intro i hi hne
  exact (filled_has_column _ hv.2.2 i
    (List.mem_filter.mpr ⟨List.mem_range.mpr hi, decide_eq_true hne⟩)).2.2

/-- Witness of C25: a message whose text is given while no part is begun and
then in the body. -/
theorem field_zero_empty_witness :
    (rx_run sample_err
      [RxCall.begin_message 2, RxCall.append_text ['x'], RxCall.begin_part 7,
       RxCall.append_text ['y'], RxCall.end_part 7] (begin_update 0)).1.parts
      = [[], [], [], [], [], [], [], ['y']] ∧
    (rx_run sample_err
      [RxCall.begin_message 2, RxCall.append_text ['x'], RxCall.begin_part 7,
       RxCall.append_text ['y'], RxCall.end_part 7] (begin_update 0)).1.parts.getD 0 [] = [] :=
  ⟨by decide, (field_zero_empty sample_err 0
      [RxCall.begin_message 2, RxCall.append_text ['x'], RxCall.begin_part 7,
       RxCall.append_text ['y'], RxCall.end_part 7] (by decide)).2.2.2.1⟩

/-! ## The INSERT statement of `end_message` (C21) -/

theorem foldl_filter_append {α : Type} (p : Nat → Prop) [DecidablePred p]
    (f : Nat → List α) (l : List Nat) : ∀ q : List α,
    l.foldl (fun q i => if p i then q ++ f i else q) q
      = q ++ ((l.filter (fun i => decide (p i))).map f).flatten := by
  induction l with
  | nil => intro q; simp
  | cons a l ih =>
    intro q
    by_cases ha : p a
    · simp [List.foldl, ha, ih, List.filter]
    · simp [List.foldl, ha, ih, List.filter]

theorem insert_columns_eq (parts : List (List Char)) :
    insert_columns parts
      = ((filled_fields parts).map (fun i => [','] ++ (column_by_part i).getD [])).flatten := by
  have hf : (fun (q : List Char) (i : Nat) =>
        if (parts.getD i []).length ≠ 0 then q ++ [','] ++ (column_by_part i).getD [] else q)
      = (fun q i => if (parts.getD i []).length ≠ 0
          then q ++ ([','] ++ (column_by_part i).getD []) else q) := by
    funext q i
    simp only [List.append_assoc]
  unfold insert_columns filled_fields
  rw [hf, foldl_filter_append (fun i => (parts.getD i []).length ≠ 0)]
  simp

theorem insert_values_eq (q : List Char) (parts : List (List Char)) :
    insert_values q parts
      = q ++ ((filled_fields parts).map (fun i => [','] ++ quoted (parts.getD i []))).flatten := by
  have hf : (fun (q : List Char) (i : Nat) =>
        if (parts.getD i []).length ≠ 0
        then append_escaped (q ++ [',']) (parts.getD i []) SQUOTE else q)
      = (fun q i => if (parts.getD i []).length ≠ 0
          then q ++ ([','] ++ quoted (parts.getD i [])) else q) := by
    funext q i
    simp only [append_escaped, append_escaped_map_eq, quoted, List.append_assoc]
  unfold insert_values filled_fields
  rw [hf, foldl_filter_append (fun i => (parts.getD i []).length ≠ 0)]

theorem insert_statement_eq (mb : mailbox) (id uid : Nat) (parts : List (List Char)) :
    insert_statement mb id uid parts = insert_text mb id uid parts := by
  unfold insert_statement insert_text
  rw [insert_values_eq, insert_columns_eq]
  simp only [append_escaped, append_escaped_map_eq, quoted, List.append_assoc]
  rfl

theorem intercalate_cons_map {β : Type} (sep : List Char) (f : β → List Char) :
    ∀ (l : List β) (a : List Char), List.intercalate sep (a :: l.map f)
      = a ++ (l.map (fun x => sep ++ f x)).flatten := by
  intro l
  induction l with
  | nil => intro a; simp [List.intercalate, List.intersperse]
  | cons b l ih =>
    intro a
    have h := ih (f b)
    simp only [List.intercalate, List.map_cons, List.intersperse, List.flatten_cons] at h ⊢
    rw [h]
    simp

theorem intercalate_two_map {β : Type} (sep a b : List Char) (f : β → List Char)
    (l : List β) :
    List.intercalate sep (a :: b :: l.map f)
      = a ++ (sep ++ (b ++ (l.map (fun x => sep ++ f x)).flatten)) := by
  have h := intercalate_cons_map sep f l b
  simp only [List.intercalate, List.intersperse, List.flatten_cons] at h ⊢
  rw [h]

theorem insert_text_lists (mb : mailbox) (id uid : Nat) (parts : List (List Char)) :
    insert_text mb id uid parts
      = "INSERT INTO rt (".toList ++ [','].intercalate (insert_column_names parts)
          ++ ") VALUES (".toList
          ++ [','].intercalate (insert_value_texts mb id uid parts) ++ [')'] := by
  have hhead : "INSERT INTO rt (id,cyrusid".toList
      = "INSERT INTO rt (".toList ++ ("id".toList ++ ([','] ++ "cyrusid".toList)) := by
    decide
  unfold insert_text insert_column_names insert_value_texts
  simp only [List.cons_append, List.nil_append]
  rw [intercalate_two_map, intercalate_two_map, hhead]
  simp only [List.append_assoc, List.singleton_append, List.cons_append, List.nil_append]

/-- C21: in every state with an open connection that is reached from a fresh
receiver by receiver calls with parts inside the field range, `end_message`
returns 0 and the first statement it sends is `INSERT INTO rt (id,cyrusid`,
then `,column` for exactly the fields whose accumulated text is not empty, in
field order, then `) VALUES (`, the pre-incremented document id (which it
stores), the single-quoted escaped document key, `,'text'` (escaped) for the
same fields in the same order, and `)`; the only statement that may follow is
the upsert of the `latest` row with its commit.  The statement is the
comma-separated list of the column names and the comma-separated list of the
values, the two lists have the same length, and every column named is a real
column. -/
theorem insert_statement_sent (E : imap_err) (verbose : Nat) (calls : List RxCall)
    (hr : ∀ c ∈ calls, c.in_range = true) (ins_ok upd_ok commit_ok : Bool)
    (tr : sphinx_receiver) (htr : tr = (rx_run E calls (begin_update verbose)).1)
    (hc : tr.conn.mysql ≠ none) :
    ∃ mb tr1 ev, tr.mailbox = some mb ∧
      end_message E ins_ok upd_ok commit_ok tr
        = some (0, tr1,
            Event.query (insert_text mb ((tr.lastid + 1) % 2 ^ 32) tr.uid tr.parts) :: ev) ∧
      tr1.lastid = (tr.lastid + 1) % 2 ^ 32 ∧
      (ev = [] ∨
        ev = [Event.query (latest_statement mb { tr with latest := tr.uid }), Event.commit]) ∧
      insert_text mb ((tr.lastid + 1) % 2 ^ 32) tr.uid tr.parts
        = "INSERT INTO rt (".toList ++ [','].intercalate (insert_column_names tr.parts)
            ++ ") VALUES (".toList
            ++ [','].intercalate
                (insert_value_texts mb ((tr.lastid + 1) % 2 ^ 32) tr.uid tr.parts)
            ++ [')'] ∧
      (insert_column_names tr.parts).length
        = (insert_value_texts mb ((tr.lastid + 1) % 2 ^ 32) tr.uid tr.parts).length ∧
      (∀ i ∈ filled_fields tr.parts, (column_by_part i).isSome = true) := by
  have hinv : conn_has_mailbox tr := by
    rw [htr]
    exact rx_run_conn_has_mailbox E calls _ (begin_update_valid verbose).1
  have hv : fields_valid tr := by
    rw [htr]
    exact rx_run_fields_valid E calls hr _ (begin_update_valid verbose).1
      (begin_update_valid verbose).2
  have ho : tr.conn.mysql.isSome = true := by
    cases h : tr.conn.mysql with
    | none => exact absurd h hc
    | some p => rfl
  obtain ⟨mb, hmb⟩ := Option.isSome_iff_exists.mp (hinv ho)
  have hrest : insert_text mb ((tr.lastid + 1) % 2 ^ 32) tr.uid tr.parts
        = "INSERT INTO rt (".toList ++ [','].intercalate (insert_column_names tr.parts)
            ++ ") VALUES (".toList
            ++ [','].intercalate
                (insert_value_texts mb ((tr.lastid + 1) % 2 ^ 32) tr.uid tr.parts)
            ++ [')'] ∧
      (insert_column_names tr.parts).length
        = (insert_value_texts mb ((tr.lastid + 1) % 2 ^ 32) tr.uid tr.parts).length ∧
      (∀ i ∈ filled_fields tr.parts, (column_by_part i).isSome = true) :=
    ⟨insert_text_lists _ _ _ _, by simp [insert_column_names, insert_value_texts],
      fun i hi => (filled_has_column _ hv.2.2 i hi).2.2⟩
  cases ins_ok with
  | false =>
    have hem := end_message_rejected E upd_ok commit_ok tr mb ho hmb
    rw [insert_statement_eq] at hem
    exact ⟨mb, _, [], hmb, hem, rfl, Or.inl rfl, hrest⟩
  | true =>
    by_cases hu : (tr.uncommitted + 1) % 2 ^ 32 < MAX_UNCOMMITTED
    · have hem := end_message_batched E upd_ok commit_ok tr mb ho hmb hu
      rw [insert_statement_eq] at hem
      exact ⟨mb, _, [], hmb, hem, rfl, Or.inl rfl, hrest⟩
    · have hem := end_message_flushed E upd_ok commit_ok tr mb ho hmb hu
      rw [insert_statement_eq] at hem
      exact ⟨mb, _, _, hmb, hem, rfl, Or.inr rfl, hrest⟩

/-- Witness of C21: the sample message with a subject and a body, whose body
holds a single quote. -/
theorem insert_statement_sent_witness :
    (rx_run sample_err sample_filled_calls (begin_update 0)).1.conn.mysql ≠ none ∧
    insert_text sample_mailbox 42 2 (rx_run sample_err sample_filled_calls (begin_update 0)).1.parts
      = "INSERT INTO rt (id,cyrusid,header_subject,body) VALUES (42,".toList
          ++ [SQUOTE] ++ "A.7.2".toList ++ [SQUOTE, ',', SQUOTE] ++ "hi".toList
          ++ [SQUOTE, ',', SQUOTE, 'a', BACKSLASH, SQUOTE, 'b', SQUOTE, ')'] ∧
    ∃ mb tr1 ev, (rx_run sample_err sample_filled_calls (begin_update 0)).1.mailbox = some mb ∧
      end_message sample_err true true true (rx_run sample_err sample_filled_calls (begin_update 0)).1
        = some (0, tr1,
            Event.query (insert_text mb
              (((rx_run sample_err sample_filled_calls (begin_update 0)).1.lastid + 1) % 2 ^ 32)
              (rx_run sample_err sample_filled_calls (begin_update 0)).1.uid
              (rx_run sample_err sample_filled_calls (begin_update 0)).1.parts) :: ev) :=
  have hc : (rx_run sample_err sample_filled_calls (begin_update 0)).1.conn.mysql ≠ none := by
    decide
  have h := insert_statement_sent sample_err 0 sample_filled_calls (by decide) true true true
    _ rfl hc
  ⟨hc, by decide, h.imp fun _ h1 => h1.imp fun _ h2 => h2.imp fun _ h3 => ⟨h3.1, h3.2.1⟩⟩

/-! ## A failed `latest` statement in `flush` (C23) -/

/-- C23, evaluation at the failing input: the receiver has an open
connection and one uncommitted INSERT, and the daemon rejects the `latest`
statement (`upd_ok = false`) while the commit would succeed.  `write_latest`
returns 0, so the forced `flush` issues the commit after the failed
statement, resets the uncommitted counter to 0 and returns 0, and
`end_mailbox` returns 0, not `IMAP_IOERROR`. -/
theorem flush_ignores_latest_failure :
    one_pending_receiver.uncommitted = 1 ∧
    one_pending_receiver.conn.mysql.isSome = true ∧
    sample_err.IMAP_IOERROR ≠ 0 ∧
    (write_latest sample_err false one_pending_receiver).map (fun x => (x.1, x.2.2))
      = some (0, [Event.query "UPDATE latest SET uid=2 WHERE id=3".toList]) ∧
    (flush sample_err false true true one_pending_receiver).map
        (fun x => (x.1, x.2.1.uncommitted, x.2.2))
      = some (0, 0, [Event.query "UPDATE latest SET uid=2 WHERE id=3".toList, Event.commit]) ∧
    (end_mailbox sample_err false true one_pending_receiver).map
        (fun x => (x.1, x.2.1.uncommitted, x.2.2))
      = some (0, 0, [Event.query "UPDATE latest SET uid=2 WHERE id=3".toList, Event.commit,
          Event.close]) := by
  decide

/-! ## The upsert of the `latest` row (C22) -/

theorem isPrefixOf_append_right (p : List Char) : ∀ (h rest : List Char),
    p.length ≤ h.length → p.isPrefixOf (h ++ rest) = p.isPrefixOf h := by
  induction p with
  | nil => intro h rest _; simp [List.isPrefixOf]
  | cons a p ih =>
    intro h rest hl
    cases h with
    | nil => simp at hl
    | cons b h =>
      have h1 := ih h rest (by simpa using hl)
      show (a == b && p.isPrefixOf (h ++ rest)) = (a == b && p.isPrefixOf h)
      rw [h1]

theorem not_latest_insert_message (mb : mailbox) (id uid : Nat) (parts : List (List Char)) :
    is_latest_insert (Event.query (insert_text mb id uid parts)) = false := by
  unfold is_latest_insert insert_text
  simp only [List.append_assoc]
  rw [isPrefixOf_append_right _ _ _ (by decide)]
  decide

theorem not_latest_insert_update (u id : Nat) :
    is_latest_insert (Event.query (update_latest_statement u id)) = false := by
  unfold is_latest_insert update_latest_statement
  simp only [List.append_assoc]
  rw [isPrefixOf_append_right _ _ _ (by decide)]
  decide

theorem latest_insert_insert (id : Nat) (mb : mailbox) (u : Nat) :
    is_latest_insert (Event.query (insert_latest_statement id mb u)) = true := by
  unfold is_latest_insert insert_latest_statement
  simp only [List.append_assoc]
  rw [isPrefixOf_append_right _ _ _ (by decide)]
  decide

theorem names_row_mono (row : Nat) (f1 f2 : Bool) (h : f1 = true → f2 = true) (e : Event)
    (he : names_row row f1 e) : names_row row f2 e := by
  cases e with
  | query q =>
    simp only [names_row] at he ⊢
    rcases he with h1 | h1 | ⟨h1, h2⟩
    · exact Or.inl h1
    · exact Or.inr (Or.inl h1)
    · exact Or.inr (Or.inr ⟨h h1, h2⟩)
  | _ => trivial

/-- The `latest` statement of a flush, when it is accepted: the row it names
and the row id the receiver holds afterwards. -/
theorem latest_statement_row (mb : mailbox) (tr : sphinx_receiver) (uid : Nat)
    (hnw : tr.latest_id = 0 → tr.latest_lastid + 1 < 2 ^ 32) :
    names_row (upserted_id true tr) (decide (tr.latest_id = 0))
      (Event.query (latest_statement mb { tr with latest := uid })) ∧
    ((upserted_id true tr = tr.latest_id ∧
        is_latest_insert (Event.query (latest_statement mb { tr with latest := uid })) = false) ∨
      (tr.latest_id = 0 ∧ upserted_id true tr = (tr.latest_lastid + 1) % 2 ^ 32 ∧
        upserted_id true tr ≠ 0 ∧
        is_latest_insert (Event.query (latest_statement mb { tr with latest := uid })) = true)) := by
  by_cases hl : tr.latest_id = 0
  · have h1 : (tr.latest_lastid + 1) % 2 ^ 32 = tr.latest_lastid + 1 :=
      Nat.mod_eq_of_lt (hnw hl)
    have h2 : upserted_id true tr = (tr.latest_lastid + 1) % 2 ^ 32 := by
      simp [upserted_id, hl]
    have h3 : latest_statement mb { tr with latest := uid }
        = insert_latest_statement ((tr.latest_lastid + 1) % 2 ^ 32) mb uid := by
      simp [latest_statement, hl]
    rw [h3, h2]
    refine ⟨?_, Or.inr ⟨hl, rfl, by rw [h1]; omega, latest_insert_insert _ _ _⟩⟩
    simp only [names_row]
    exact Or.inr (Or.inr ⟨by simp [hl], uid, mb, rfl⟩)
  · have h2 : upserted_id true tr = tr.latest_id := by
      simp [upserted_id, hl]
    have h3 : latest_statement mb { tr with latest := uid }
        = update_latest_statement uid tr.latest_id := by
      simp [latest_statement, hl]
    rw [h3, h2]
    refine ⟨?_, Or.inl ⟨rfl, not_latest_insert_update _ _⟩⟩
    simp only [names_row]
    exact Or.inr (Or.inl ⟨uid, rfl⟩)

theorem append_text_latest (tr tr1 : sphinx_receiver) (text : List Char) (ev : List Event)
    (h : append_text tr text = some (tr1, ev)) :
    tr1.latest_id = tr.latest_id ∧ tr1.latest_lastid = tr.latest_lastid ∧
    (∀ e ∈ ev, ∃ n u, e = Event.truncate_warning n u) := by
  unfold append_text at h
  by_cases hp : tr.part = 0
  · simp only [hp, ne_eq, not_true_eq_false, ↓reduceIte, Option.some.injEq,
      Prod.mk.injEq] at h
    obtain ⟨rfl, rfl⟩ := h
    exact ⟨rfl, rfl, by simp⟩
  · simp only [hp, ne_eq, not_false_eq_true, ↓reduceIte] at h
    split at h
    · split at h
      · cases h
      · simp only [Option.some.injEq, Prod.mk.injEq] at h
        obtain ⟨rfl, rfl⟩ := h
        refine ⟨?_, ?_, by simp⟩
        · split <;> split <;> rfl
        · split <;> split <;> rfl
    · simp only [Option.some.injEq, Prod.mk.injEq] at h
      obtain ⟨rfl, rfl⟩ := h
      refine ⟨?_, ?_, by simp⟩
      · split <;> split <;> rfl
      · split <;> split <;> rfl

theorem upserted_id_ne_zero (tr : sphinx_receiver)
    (hnw : tr.latest_id = 0 → tr.latest_lastid + 1 < 2 ^ 32) :
    upserted_id true tr ≠ 0 := by
  unfold upserted_id
  by_cases hl : tr.latest_id = 0
  · have h1 := Nat.mod_eq_of_lt (hnw hl)
    simp only [hl, ne_eq, not_true_eq_false, ↓reduceIte, h1]
    omega
  · simp [hl]

theorem not_latest_insert_commit : is_latest_insert Event.commit = false := rfl

theorem not_latest_insert_close : is_latest_insert Event.close = false := rfl

theorem apply_latest (E : imap_err) (c : RxCall) (hs : c.in_session = true)
    (hok : c.latest_ok = true) (tr tr1 : sphinx_receiver) (ev : List Event)
    (hinv : conn_has_mailbox tr) (hnw : tr.latest_id = 0 → tr.latest_lastid + 1 < 2 ^ 32)
    (h : c.apply E tr = some (tr1, ev)) :
    tr1.latest_lastid = tr.latest_lastid ∧
    ((tr1.latest_id = tr.latest_id ∧ ev.filter is_latest_insert = []) ∨
      (tr.latest_id = 0 ∧ tr1.latest_id = upserted_id true tr ∧
        (ev.filter is_latest_insert).length = 1)) ∧
    (∀ e ∈ ev, names_row (upserted_id true tr) (decide (tr.latest_id = 0)) e) := by
  cases c with
  | begin_mailbox gs connect_ok lastid rows maxid mb => cases hs
  | begin_message uid =>
    simp only [RxCall.apply, Option.some.injEq, Prod.mk.injEq] at h
    obtain ⟨rfl, rfl⟩ := h
    exact ⟨rfl, Or.inl ⟨rfl, rfl⟩, by simp⟩
  | begin_part part =>
    simp only [RxCall.apply, Option.some.injEq, Prod.mk.injEq] at h
    obtain ⟨rfl, rfl⟩ := h
    exact ⟨rfl, Or.inl ⟨rfl, rfl⟩, by simp⟩
  | end_part part =>
    simp only [RxCall.apply, Option.some.injEq, Prod.mk.injEq] at h
    obtain ⟨rfl, rfl⟩ := h
    exact ⟨rfl, Or.inl ⟨rfl, rfl⟩, by simp⟩
  | append_text text =>
    simp only [RxCall.apply] at h
    obtain ⟨h1, h2, h3⟩ := append_text_latest tr tr1 text ev h
    refine ⟨h2, Or.inl ⟨h1, ?_⟩, ?_⟩
    · rw [List.filter_eq_nil_iff]
      intro e he
      obtain ⟨n, u, rfl⟩ := h3 e he
      simp [is_latest_insert]
    · intro e he
      obtain ⟨n, u, rfl⟩ := h3 e he
      trivial
  | end_message ins_ok upd_ok commit_ok =>
    simp only [RxCall.latest_ok] at hok
    subst hok
    simp only [RxCall.apply, Option.map_eq_some'] at h
    obtain ⟨⟨r, t, e⟩, h1, h2⟩ := h
    simp only [Prod.mk.injEq] at h2
    obtain ⟨rfl, rfl⟩ := h2
    have hmsg : ∀ mb id uid parts, names_row (upserted_id true tr) (decide (tr.latest_id = 0))
        (Event.query (insert_text mb id uid parts)) := by
      intro mb id uid parts
      simp only [names_row]
      exact Or.inl ⟨mb, id, uid, parts, rfl⟩
    cases hm : tr.conn.mysql with
    | none =>
      rw [end_message_unopened E ins_ok true commit_ok tr hm] at h1
      simp only [Option.some.injEq, Prod.mk.injEq] at h1
      obtain ⟨_, rfl, rfl⟩ := h1
      exact ⟨rfl, Or.inl ⟨rfl, rfl⟩, by simp⟩
    | some p =>
      have hc : tr.conn.mysql.isSome = true := by simp [hm]
      obtain ⟨mb, hmb⟩ := Option.isSome_iff_exists.mp (hinv hc)
      cases ins_ok with
      | false =>
        rw [end_message_rejected E true commit_ok tr mb hc hmb, insert_statement_eq] at h1
        simp only [Option.some.injEq, Prod.mk.injEq] at h1
        obtain ⟨_, rfl, rfl⟩ := h1
        refine ⟨rfl, Or.inl ⟨rfl, ?_⟩, ?_⟩
        · simp [List.filter_cons, not_latest_insert_message, not_latest_insert_commit, not_latest_insert_close]
        · intro e he
          simp only [List.mem_singleton] at he
          subst he
          exact hmsg _ _ _ _
      | true =>
        by_cases hu : (tr.uncommitted + 1) % 2 ^ 32 < MAX_UNCOMMITTED
        · rw [end_message_batched E true commit_ok tr mb hc hmb hu, insert_statement_eq] at h1
          simp only [Option.some.injEq, Prod.mk.injEq] at h1
          obtain ⟨_, rfl, rfl⟩ := h1
          refine ⟨rfl, Or.inl ⟨rfl, ?_⟩, ?_⟩
          · simp [List.filter_cons, not_latest_insert_message, not_latest_insert_commit, not_latest_insert_close]
          · intro e he
            simp only [List.mem_singleton] at he
            subst he
            exact hmsg _ _ _ _
        · rw [end_message_flushed E true commit_ok tr mb hc hmb hu, insert_statement_eq] at h1
          simp only [Option.some.injEq, Prod.mk.injEq] at h1
          obtain ⟨_, rfl, rfl⟩ := h1
          obtain ⟨hn, hrow⟩ := latest_statement_row mb tr tr.uid hnw
          refine ⟨rfl, ?_, ?_⟩
          · rcases hrow with ⟨h3, h4⟩ | ⟨h3, h4, h5, h6⟩
            · left
              exact ⟨h3, by simp [List.filter_cons, not_latest_insert_message, not_latest_insert_commit, not_latest_insert_close, h4]⟩
            · right
              exact ⟨h3, rfl,
                by simp [List.filter_cons, not_latest_insert_message, not_latest_insert_commit, not_latest_insert_close, h6]⟩
          · intro e he
            simp only [List.mem_cons, List.mem_singleton, List.not_mem_nil, or_false] at he
            rcases he with rfl | rfl | rfl
            · exact hmsg _ _ _ _
            · exact hn
            · trivial
  | end_mailbox upd_ok commit_ok =>
    simp only [RxCall.latest_ok] at hok
    subst hok
    simp only [RxCall.apply, Option.map_eq_some'] at h
    obtain ⟨⟨r, t, e⟩, h1, h2⟩ := h
    simp only [Prod.mk.injEq] at h2
    obtain ⟨rfl, rfl⟩ := h2
    cases hm : tr.conn.mysql with
    | none =>
      simp only [end_mailbox, hm, Option.isSome_none, Bool.false_eq_true, ↓reduceIte,
        Option.some.injEq, Prod.mk.injEq] at h1
      obtain ⟨_, rfl, rfl⟩ := h1
      exact ⟨rfl, Or.inl ⟨rfl, rfl⟩, by simp⟩
    | some p =>
      have hc : tr.conn.mysql.isSome = true := by simp [hm]
      obtain ⟨mb, hmb⟩ := Option.isSome_iff_exists.mp (hinv hc)
      rw [end_mailbox_open E true commit_ok tr mb hc hmb] at h1
      simp only [Option.some.injEq, Prod.mk.injEq] at h1
      obtain ⟨_, rfl, rfl⟩ := h1
      have heta : ({ tr with latest := tr.latest } : sphinx_receiver) = tr := by
        cases tr
        rfl
      have hrow0 := latest_statement_row mb tr tr.latest hnw
      rw [heta] at hrow0
      obtain ⟨hn, hrow⟩ := hrow0
      by_cases hu : tr.uncommitted = 0
      · refine ⟨rfl, Or.inl ⟨by simp [hu], by simp [hu, List.filter_cons, not_latest_insert_message, not_latest_insert_commit, not_latest_insert_close]⟩, ?_⟩
        intro e he
        simp only [hu, ne_eq, not_true_eq_false, ↓reduceIte, List.nil_append, List.mem_cons,
          List.mem_singleton, List.not_mem_nil, or_false] at he
        rcases he with rfl | rfl <;> trivial
      · refine ⟨rfl, ?_, ?_⟩
        · rcases hrow with ⟨h3, h4⟩ | ⟨h3, h4, h5, h6⟩
          · left
            exact ⟨by simp [hu, h3], by simp [hu, List.filter_cons, not_latest_insert_message, not_latest_insert_commit, not_latest_insert_close, h4]⟩
          · right
            exact ⟨h3, by simp [hu], by simp [hu, List.filter_cons, not_latest_insert_message, not_latest_insert_commit, not_latest_insert_close, h6]⟩
        · intro e he
          simp only [hu, ne_eq, not_false_eq_true, ↓reduceIte, List.singleton_append,
            List.mem_cons, List.mem_singleton, List.not_mem_nil, or_false] at he
          rcases he with rfl | rfl | rfl
          · exact hn
          · trivial
          · trivial

theorem begin_mailbox_fresh_eq (E : imap_err) (verbose : Nat) (gs : Int × List Char)
    (hgs : gs.1 = 0) (lastid : Option (List Char))
    (rows : List (List Char × List Char × List Char)) (maxid : Option (List Char))
    (mb : mailbox) :
    ∃ ev, begin_mailbox E gs true (some lastid) (some rows) (some maxid)
        (begin_update verbose) mb
      = some (0, { begin_update verbose with
                    conn := { mysql := some gs.2, socket_path := some gs.2 },
                    mailbox := some mb, lastid := max_row_id lastid,
                    latest := (read_latest_loop mb.name rows).2,
                    latest_id := (read_latest_loop mb.name rows).1,
                    latest_lastid := max_row_id maxid }, ev) := by
  unfold begin_mailbox get_connection read_lastid read_latest
  cases lastid <;> cases maxid <;>
    simp [hgs, begin_update, CONNECTION_INITIALIZER, max_row_id]

theorem latest_session (E : imap_err) (calls : List RxCall)
    (hs : ∀ c ∈ calls, c.in_session = true ∧ c.latest_ok = true) :
    ∀ tr, conn_has_mailbox tr → (tr.latest_id = 0 → tr.latest_lastid + 1 < 2 ^ 32) →
    ((rx_run E calls tr).2.filter is_latest_insert).length
        ≤ (if tr.latest_id = 0 then 1 else 0) ∧
    (∀ e ∈ (rx_run E calls tr).2,
      names_row (upserted_id true tr) (decide (tr.latest_id = 0)) e) := by
  induction calls with
  | nil => intro tr _ _; simp [rx_run]
  | cons c cs ih =>
    intro tr hinv hnw
    simp only [rx_run]
    cases h : c.apply E tr with
    | none => simp
    | some x =>
      obtain ⟨tr1, ev⟩ := x
      obtain ⟨h1, h2, h3⟩ := apply_latest E c (hs c (by simp)).1 (hs c (by simp)).2 tr tr1 ev
        hinv hnw h
      have hinv1 := apply_conn_has_mailbox E c tr tr1 ev hinv h
      have hne := upserted_id_ne_zero tr hnw
      have hnw1 : tr1.latest_id = 0 → tr1.latest_lastid + 1 < 2 ^ 32 := by
        intro h0
        rcases h2 with ⟨h4, _⟩ | ⟨_, h4, _⟩
        · rw [h1]
          exact hnw (h4 ▸ h0)
        · exact absurd (h4 ▸ h0) hne
      have hrow : upserted_id true tr1 = upserted_id true tr := by
        rcases h2 with ⟨h4, _⟩ | ⟨h4, h5, _⟩
        · simp [upserted_id, h4, h1]
        · have h6 : tr1.latest_id ≠ 0 := by rw [h5]; exact hne
          have h7 : upserted_id true tr1 = tr1.latest_id := by simp [upserted_id, h6]
          rw [h7, h5]
      obtain ⟨i1, i2⟩ := ih (fun d hd => hs d (by simp [hd])) tr1 hinv1 hnw1
      simp only [List.filter_append, List.length_append, List.mem_append]
      refine ⟨?_, ?_⟩
      · rcases h2 with ⟨h4, h5⟩ | ⟨h4, h5, h6⟩
        · rw [h5]
          simp only [List.length_nil, Nat.zero_add]
          rw [← h4]
          exact i1
        · have h7 : tr1.latest_id ≠ 0 := by rw [h5]; exact hne
          simp only [h7, ↓reduceIte, Nat.le_zero_eq] at i1
          simp [h4, h6, i1]
      · intro e he
        rcases he with he | he
        · exact h3 e he
        · have := i2 e he
          rw [hrow] at this
          refine names_row_mono _ _ _ ?_ e this
          intro hf
          simp only [decide_eq_true_eq] at hf ⊢
          rcases h2 with ⟨h4, _⟩ | ⟨h4, _, _⟩
          · exact h4 ▸ hf
          · exact h4

/-- C22: the upsert of the `latest` row.  When a row id was found at mailbox
open (`latest_id` is non-zero), `write_latest` sends an UPDATE of uid for that
row id and leaves the receiver as it is.  Otherwise it sends an INSERT of
(id, mailbox name, uidvalidity, uid) whose id is the largest row id seen at
mailbox open plus one, and when the daemon accepts it `latest_id` holds the
new id.  In a session opened by a successful `begin_mailbox` on a fresh
receiver, `latest_id` and `latest_lastid` are the row id found and the
largest row id read; then, the largest row id being below `2 ^ 32 - 1` when
no row was found and the `latest` statements being accepted, every statement
of the session is the INSERT of a message, an UPDATE of the row of the
mailbox or, only when no row was found, the INSERT of that row, and at most
one INSERT into `latest` is made, none when a row was found. -/
theorem latest_upsert (E : imap_err) (verbose : Nat) (gs : Int × List Char)
    (hgs : gs.1 = 0) (lastid : Option (List Char))
    (rows : List (List Char × List Char × List Char)) (maxid : Option (List Char))
    (mb : mailbox) (calls : List RxCall)
    (hs : ∀ c ∈ calls, c.in_session = true ∧ c.latest_ok = true)
    (hnw : (read_latest_loop mb.name rows).1 = 0 → max_row_id maxid + 1 < 2 ^ 32) :
    (∀ tr m ok, tr.mailbox = some m → tr.latest_id ≠ 0 →
      write_latest E ok tr
        = some (0, tr, [Event.query (update_latest_statement tr.latest tr.latest_id)])) ∧
    (∀ tr m ok, tr.mailbox = some m → tr.latest_id = 0 →
      write_latest E ok tr
        = some (0, { tr with latest_id := if ok then (tr.latest_lastid + 1) % 2 ^ 32 else 0 },
            [Event.query
              (insert_latest_statement ((tr.latest_lastid + 1) % 2 ^ 32) m tr.latest)])) ∧
    ∃ tr0 ev0, begin_mailbox E gs true (some lastid) (some rows) (some maxid)
        (begin_update verbose) mb = some (0, tr0, ev0) ∧
      tr0.latest_id = (read_latest_loop mb.name rows).1 ∧
      tr0.latest_lastid = max_row_id maxid ∧
      ((rx_run E calls tr0).2.filter is_latest_insert).length
        ≤ (if tr0.latest_id = 0 then 1 else 0) ∧
      (∀ e ∈ (rx_run E calls tr0).2,
        names_row (if tr0.latest_id ≠ 0 then tr0.latest_id else max_row_id maxid + 1)
          (decide (tr0.latest_id = 0)) e) := by
  refine ⟨?_, ?_, ?_⟩
  · intro tr m ok hm hl
    rw [write_latest_eq E ok tr m hm]
    have h1 : upserted_id ok tr = tr.latest_id := by simp [upserted_id, hl]
    have h2 : latest_statement m tr = update_latest_statement tr.latest tr.latest_id := by
      simp [latest_statement, hl]
    rw [h1, h2]
  · intro tr m ok hm hl
    rw [write_latest_eq E ok tr m hm]
    have h1 : upserted_id ok tr = if ok then (tr.latest_lastid + 1) % 2 ^ 32 else 0 := by
      simp [upserted_id, hl]
    have h2 : latest_statement m tr
        = insert_latest_statement ((tr.latest_lastid + 1) % 2 ^ 32) m tr.latest := by
      simp [latest_statement, hl]
    rw [h1, h2]
  · obtain ⟨ev0, h0⟩ := begin_mailbox_fresh_eq E verbose gs hgs lastid rows maxid mb
    refine ⟨_, ev0, h0, rfl, rfl, ?_⟩
    have hinv : conn_has_mailbox
        { begin_update verbose with
            conn := { mysql := some gs.2, socket_path := some gs.2 },
            mailbox := some mb, lastid := max_row_id lastid,
            latest := (read_latest_loop mb.name rows).2,
            latest_id := (read_latest_loop mb.name rows).1,
            latest_lastid := max_row_id maxid } := fun _ => rfl
    have h := latest_session E calls hs _ hinv hnw
    refine ⟨h.1, ?_⟩
    intro e he
    have h1 := h.2 e he
    by_cases hl : (read_latest_loop mb.name rows).1 = 0
    · have h2 : (max_row_id maxid + 1) % 4294967296 = max_row_id maxid + 1 :=
        Nat.mod_eq_of_lt (hnw hl)
      simpa [upserted_id, hl, h2] using h1
    · simpa [upserted_id, hl] using h1

/-- Witness of C22: the sample mailbox `A` has no row in `latest` and the
largest row id is 9; in the session of 21 messages the flush at the 20th
message sends the INSERT of row 10 and the flush of `end_mailbox` sends an
UPDATE of row 10. -/
theorem latest_upsert_witness :
    ((read_latest_loop sample_mailbox.name [("3".toList, "B".toList, "1".toList)]).1 = 0 →
      max_row_id (some "9".toList) + 1 < 2 ^ 32) ∧
    (rx_run sample_err (sample_unlisted_begin :: sample_first_session)
        (begin_update 0)).2.filter is_latest_statement
      = [Event.query
          ("INSERT INTO latest (id,mboxname,uidvalidity,uid) VALUES (10,".toList
            ++ [SQUOTE, 'A', SQUOTE] ++ ",7,21)".toList),
         Event.query "UPDATE latest SET uid=22 WHERE id=10".toList] ∧
    (∃ tr0 ev0, begin_mailbox sample_err (0, "/sphinx/socket".toList) true
        (some (some "41".toList)) (some [("3".toList, "B".toList, "1".toList)])
        (some (some "9".toList)) (begin_update 0) sample_mailbox = some (0, tr0, ev0) ∧
      tr0.latest_id = (read_latest_loop sample_mailbox.name
        [("3".toList, "B".toList, "1".toList)]).1 ∧
      tr0.latest_lastid = max_row_id (some "9".toList) ∧
      ((rx_run sample_err sample_first_session tr0).2.filter is_latest_insert).length
        ≤ (if tr0.latest_id = 0 then 1 else 0)) :=
  have hnw : (read_latest_loop sample_mailbox.name [("3".toList, "B".toList, "1".toList)]).1 = 0 →
      max_row_id (some "9".toList) + 1 < 2 ^ 32 := fun _ => by decide
  have h := (latest_upsert sample_err 0 (0, "/sphinx/socket".toList)
    rfl (some "41".toList) [("3".toList, "B".toList, "1".toList)] (some "9".toList)
    sample_mailbox sample_first_session (by decide) hnw).2.2
  ⟨hnw, by decide,
    h.imp fun _ h1 => h1.imp fun _ h2 => ⟨h2.1, h2.2.1, h2.2.2.1, h2.2.2.2.1⟩⟩

/-! ## The uncommitted counter (C24) -/

theorem message_insert_message (mb : mailbox) (id uid : Nat) (parts : List (List Char)) :
    is_message_insert (Event.query (insert_text mb id uid parts)) = true := by
  unfold is_message_insert insert_text
  simp only [List.append_assoc]
  rw [isPrefixOf_append_right _ _ _ (by decide)]
  decide

theorem not_message_insert_update (u id : Nat) :
    is_message_insert (Event.query (update_latest_statement u id)) = false := by
  unfold is_message_insert update_latest_statement
  simp only [List.append_assoc]
  rw [isPrefixOf_append_right _ _ _ (by decide)]
  decide

theorem not_message_insert_row (id : Nat) (mb : mailbox) (u : Nat) :
    is_message_insert (Event.query (insert_latest_statement id mb u)) = false := by
  unfold is_message_insert insert_latest_statement
  simp only [List.append_assoc]
  rw [isPrefixOf_append_right _ _ _ (by decide)]
  decide

theorem not_message_insert_latest (mb : mailbox) (tr : sphinx_receiver) :
    is_message_insert (Event.query (latest_statement mb tr)) = false := by
  unfold latest_statement
  split
  · exact not_message_insert_update _ _
  · exact not_message_insert_row _ _ _

theorem not_message_insert_commit : is_message_insert Event.commit = false := rfl

theorem not_message_insert_close : is_message_insert Event.close = false := rfl

theorem apply_pending (E : imap_err) (c : RxCall) (tr tr1 : sphinx_receiver)
    (ev : List Event) (g : Nat) (hinv : conn_has_mailbox tr)
    (hg : tr.uncommitted = g % 2 ^ 32) (h : c.apply E tr = some (tr1, ev)) :
    tr1.uncommitted = pending_after c ev g % 2 ^ 32 ∧ pending_after c ev g ≤ g + 1 := by
  cases c with
  | begin_mailbox gs connect_ok lastid rows maxid mb =>
    simp only [RxCall.apply, Option.map_eq_some'] at h
    obtain ⟨⟨r, t, e⟩, h1, h2⟩ := h
    simp only [Prod.mk.injEq] at h2
    obtain ⟨rfl, rfl⟩ := h2
    have hf := begin_mailbox_fields E gs connect_ok lastid rows maxid tr _ mb r _ h1
    exact ⟨by rw [hf.2.2]; exact hg, by simp [pending_after]⟩
  | begin_message uid =>
    simp only [RxCall.apply, Option.some.injEq, Prod.mk.injEq] at h
    obtain ⟨rfl, rfl⟩ := h
    exact ⟨hg, by simp [pending_after]⟩
  | begin_part part =>
    simp only [RxCall.apply, Option.some.injEq, Prod.mk.injEq] at h
    obtain ⟨rfl, rfl⟩ := h
    exact ⟨hg, by simp [pending_after]⟩
  | end_part part =>
    simp only [RxCall.apply, Option.some.injEq, Prod.mk.injEq] at h
    obtain ⟨rfl, rfl⟩ := h
    exact ⟨hg, by simp [pending_after]⟩
  | append_text text =>
    simp only [RxCall.apply] at h
    have hf := append_text_keeps tr tr1 text ev h
    exact ⟨by rw [hf.2.2.1]; exact hg, by simp [pending_after]⟩
  | end_message ins_ok upd_ok commit_ok =>
    simp only [RxCall.apply, Option.map_eq_some'] at h
    obtain ⟨⟨r, t, e⟩, h1, h2⟩ := h
    simp only [Prod.mk.injEq] at h2
    obtain ⟨rfl, rfl⟩ := h2
    cases hm : tr.conn.mysql with
    | none =>
      rw [end_message_unopened E ins_ok upd_ok commit_ok tr hm] at h1
      simp only [Option.some.injEq, Prod.mk.injEq] at h1
      obtain ⟨_, rfl, rfl⟩ := h1
      exact ⟨by simpa [pending_after] using hg, by simp [pending_after]⟩
    | some p =>
      have hc : tr.conn.mysql.isSome = true := by simp [hm]
      obtain ⟨mb, hmb⟩ := Option.isSome_iff_exists.mp (hinv hc)
      cases ins_ok with
      | false =>
        rw [end_message_rejected E upd_ok commit_ok tr mb hc hmb, insert_statement_eq] at h1
        simp only [Option.some.injEq, Prod.mk.injEq] at h1
        obtain ⟨_, rfl, rfl⟩ := h1
        exact ⟨by simpa [pending_after] using hg, by simp [pending_after]⟩
      | true =>
        by_cases hu : (tr.uncommitted + 1) % 2 ^ 32 < MAX_UNCOMMITTED
        · rw [end_message_batched E upd_ok commit_ok tr mb hc hmb hu, insert_statement_eq] at h1
          simp only [Option.some.injEq, Prod.mk.injEq] at h1
          obtain ⟨_, rfl, rfl⟩ := h1
          have hp : pending_after (RxCall.end_message true upd_ok commit_ok)
              [Event.query (insert_text mb ((tr.lastid + 1) % 2 ^ 32) tr.uid tr.parts)] g
              = g + 1 := by
            simp [pending_after, List.filter_cons, message_insert_message]
          rw [hp]
          refine ⟨?_, le_refl _⟩
          show (tr.uncommitted + 1) % 2 ^ 32 = (g + 1) % 2 ^ 32
          rw [hg]
          omega
        · rw [end_message_flushed E upd_ok commit_ok tr mb hc hmb hu, insert_statement_eq] at h1
          simp only [Option.some.injEq, Prod.mk.injEq] at h1
          obtain ⟨_, rfl, rfl⟩ := h1
          cases commit_ok with
          | true => simp [pending_after]
          | false =>
            have hp : pending_after (RxCall.end_message true upd_ok false)
                [Event.query (insert_text mb ((tr.lastid + 1) % 2 ^ 32) tr.uid tr.parts),
                 Event.query (latest_statement mb { tr with latest := tr.uid }), Event.commit] g
                = g + 1 := by
              simp [pending_after, List.filter_cons, message_insert_message,
                not_message_insert_latest, not_message_insert_commit]
            rw [hp]
            refine ⟨?_, le_refl _⟩
            show (tr.uncommitted + 1) % 2 ^ 32 = (g + 1) % 2 ^ 32
            rw [hg]
            omega
  | end_mailbox upd_ok commit_ok =>
    simp only [RxCall.apply, Option.map_eq_some'] at h
    obtain ⟨⟨r, t, e⟩, h1, h2⟩ := h
    simp only [Prod.mk.injEq] at h2
    obtain ⟨rfl, rfl⟩ := h2
    cases hm : tr.conn.mysql with
    | none =>
      simp only [end_mailbox, hm, Option.isSome_none, Bool.false_eq_true, ↓reduceIte,
        Option.some.injEq, Prod.mk.injEq] at h1
      obtain ⟨_, rfl, rfl⟩ := h1
      exact ⟨by simpa [pending_after] using hg, by simp [pending_after]⟩
    | some p =>
      have hc : tr.conn.mysql.isSome = true := by simp [hm]
      obtain ⟨mb, hmb⟩ := Option.isSome_iff_exists.mp (hinv hc)
      rw [end_mailbox_open E upd_ok commit_ok tr mb hc hmb] at h1
      simp only [Option.some.injEq, Prod.mk.injEq] at h1
      obtain ⟨_, rfl, rfl⟩ := h1
      cases commit_ok with
      | true => simp [pending_after]
      | false => exact ⟨by simpa [pending_after] using hg, by simp [pending_after]⟩

theorem rx_run_pending (E : imap_err) (calls : List RxCall) :
    ∀ (tr : sphinx_receiver) (g : Nat), conn_has_mailbox tr → tr.uncommitted = g % 2 ^ 32 →
    (rx_run E calls tr).1.uncommitted = pending_inserts E calls tr g % 2 ^ 32 ∧
    pending_inserts E calls tr g ≤ g + calls.length := by
  induction calls with
  | nil => intro tr g _ hg; exact ⟨hg, le_refl _⟩
  | cons c cs ih =>
    intro tr g hinv hg
    simp only [rx_run, pending_inserts]
    cases h : c.apply E tr with
    | none => exact ⟨hg, by simp⟩
    | some x =>
      obtain ⟨tr1, ev⟩ := x
      obtain ⟨h1, h2⟩ := apply_pending E c tr tr1 ev g hinv hg h
      obtain ⟨h3, h4⟩ := ih tr1 (pending_after c ev g)
        (apply_conn_has_mailbox E c tr tr1 ev hinv h) h1
      refine ⟨h3, ?_⟩
      simp only [List.length_cons]
      omega

/-- C24: in every state reached from a fresh receiver by receiver calls, the
uncommitted counter is the number of INSERT statements of messages that
succeeded since the last successful commit, taken modulo `2 ^ 32` as the
counter is an `unsigned int`, and is that number itself for every run of
fewer than `2 ^ 32` calls.  `flush` is a no-op, with no statement and no
state change, when it is not forced and the counter is below
`MAX_UNCOMMITTED`; when it is forced or the counter has reached
`MAX_UNCOMMITTED` it issues the commit, and it sets the counter to 0 when
the commit succeeds and leaves it unchanged, returning `IMAP_IOERROR`, when
the commit fails. -/
theorem uncommitted_counter (E : imap_err) (verbose : Nat) (calls : List RxCall) :
    (rx_run E calls (begin_update verbose)).1.uncommitted
      = pending_inserts E calls (begin_update verbose) 0 % 2 ^ 32 ∧
    (calls.length < 2 ^ 32 →
      (rx_run E calls (begin_update verbose)).1.uncommitted
        = pending_inserts E calls (begin_update verbose) 0) ∧
    (∀ tr upd_ok commit_ok, tr.uncommitted < MAX_UNCOMMITTED →
      flush E upd_ok commit_ok false tr = some (0, tr, [])) ∧
    (∀ tr mb upd_ok commit_ok force, tr.mailbox = some mb →
      (force = true ∨ MAX_UNCOMMITTED ≤ tr.uncommitted) →
      ∃ r tr1 ev, flush E upd_ok commit_ok force tr = some (r, tr1, ev) ∧
        Event.commit ∈ ev ∧
        tr1.uncommitted = (if commit_ok then 0 else tr.uncommitted) ∧
        r = (if commit_ok then 0 else E.IMAP_IOERROR)) := by
  have h := rx_run_pending E calls (begin_update verbose) 0 (begin_update_valid verbose).1 rfl
  refine ⟨h.1, ?_, ?_, ?_⟩
  · intro hlen
    rw [h.1]
    exact Nat.mod_eq_of_lt (by omega)
  · intro tr upd_ok commit_ok hu
    simp [flush, hu]
  · intro tr mb upd_ok commit_ok force hmb hf
    have hcond : ¬ ((!force && decide (tr.uncommitted < MAX_UNCOMMITTED)) = true) := by
      rcases hf with hf | hf
      · simp [hf]
      · simp [Nat.not_lt.mpr hf]
    rw [flush_eq E upd_ok commit_ok force tr mb hmb]
    simp only [hcond, ↓reduceIte]
    exact ⟨_, _, _, rfl, by simp, rfl, rfl⟩

/-- Witness of C24: after the sample `begin_mailbox` and two accepted
messages the counter is 2, the number of accepted INSERT statements. -/
theorem uncommitted_counter_witness :
    (sample_begin_mailbox :: message_calls (sample_messages 2)).length < 2 ^ 32 ∧
    pending_inserts sample_err (sample_begin_mailbox :: message_calls (sample_messages 2))
      (begin_update 0) 0 = 2 ∧
    (rx_run sample_err (sample_begin_mailbox :: message_calls (sample_messages 2))
        (begin_update 0)).1.uncommitted
      = pending_inserts sample_err (sample_begin_mailbox :: message_calls (sample_messages 2))
          (begin_update 0) 0 :=
  have hlen : (sample_begin_mailbox :: message_calls (sample_messages 2)).length < 2 ^ 32 := by
    decide
  ⟨hlen, by decide,
    (uncommitted_counter sample_err 0
      (sample_begin_mailbox :: message_calls (sample_messages 2))).2.1 hlen⟩

end SearchSphinx
